import Mathlib

/-!
# Lab1: sliding-tile puzzle solved with A*

A shallow embedding of `Lab1/main.cpp` (classes `Board`, `Node`, `Puzzle`) and
the properties of its search engine.

Conventions of the embedding

* `vector<vector<int>>` is `List (List Int)`; row and column indices (`size_t`)
  are `Nat`; `pair<int, int>` is `Int × Int`.
* `state[i][j]` is `cell state i j`.  An out-of-range subscript is undefined
  behaviour in C++; `cell` reads it as `0` and `setCell` ignores the write.
  The theorems below are about rectangular grids, where no such access occurs.
* `Node*` parent pointers are embedded as the parent node itself
  (`Option Node`, `none` for `nullptr`): nodes are immutable once built.
* `std::priority_queue` is a list of nodes; `top()` may return any element
  that the comparator does not order below another element.  The tie-break is
  left open (`isTop`), so whatever is proved holds for every heap
  implementation; `topIndex` fixes one choice for the executable `solve`.
* `std::unordered_set<Board, BoardHash>` is a list of boards used as a set
  (membership by structural equality, as `Board::operator==`).
* `int` values are unbounded integers.  For the comparator, where the sum
  `heuristic + pathCost` can leave the range of `int`, `Node.ltInt32` takes the
  sums in 32 bits; it agrees with `Node.lt` on sums within the range, and the
  frontier of a search on valid boards of size at most 3 stays within it.
-/

namespace Lab1

/-! ## Board -/

/-- The class `Board`: its only field is the grid `state`. -/
structure Board where
  state : List (List Int)
deriving DecidableEq

/-- The subscript `state[i][j]`. -/
def cell (state : List (List Int)) (i j : Nat) : Int :=
  (state.getD i []).getD j 0

/-- The assignment `state[i][j] = v`. -/
def setCell (state : List (List Int)) (i j : Nat) (v : Int) : List (List Int) :=
  state.set i ((state.getD i []).set j v)

/-- The call `swap(state[r1][c1], state[r2][c2])`. -/
def swapCells (state : List (List Int)) (r1 c1 r2 c2 : Nat) : List (List Int) :=
  let a := cell state r1 c1
  let b := cell state r2 c2
  setCell (setCell state r1 c1 b) r2 c2 a

/-- `Board::getState`. -/
def Board.getState (b : Board) : List (List Int) := b.state

/-- `Board::isGoalState`: structural equality of the grids. -/
def Board.isGoalState (b goalBoard : Board) : Bool :=
  decide (b.state = goalBoard.getState)

/-- Inner loop of `Board::findTilePosition`: scan of one row, `j` is the column
of the head of `row`. -/
def findInRow (tileValue : Int) : List Int → Nat → Option Nat
  | [], _ => none
  | x :: xs, j => if x = tileValue then some j else findInRow tileValue xs (j + 1)

/-- Outer loop of `Board::findTilePosition`: `i` is the row index of the head
of the remaining rows. -/
def findFrom (tileValue : Int) : List (List Int) → Nat → Int × Int
  | [], _ => (-1, -1)
  | row :: rows, i =>
    match findInRow tileValue row 0 with
    | some j => ((i : Int), (j : Int))
    | none => findFrom tileValue rows (i + 1)

/-- `Board::findTilePosition`: first occurrence in row-major order, `(-1, -1)`
when the value does not occur. -/
def Board.findTilePosition (b : Board) (tileValue : Int) : Int × Int :=
  findFrom tileValue b.state 0

/-- The comparison `pos < n - 1` of `Board::move`, where `pos` is an `int` and
`n` a `size_t`: `pos` is converted to `size_t`, so the not-found value `-1`
becomes the largest `size_t` and is below nothing; `n - 1` wraps to the largest
`size_t` when `n = 0`. -/
def ltSizeMinusOne (pos : Int) (n : Nat) : Bool :=
  if pos < 0 then false
  else if n = 0 then true
  else decide (pos < (n : Int) - 1)

/-- `Board::move`: the board after the call and the returned flag.
`state[0].size()` is the length of the first row (of an empty row for an empty
grid, where C++ leaves the subscript undefined). -/
def Board.move (b : Board) (direction : Char) : Board × Bool :=
  let emptyPos := b.findTilePosition 0
  let emptyRow := emptyPos.1
  let emptyCol := emptyPos.2
  if direction = 'L' ∧ emptyCol > 0 then
    (⟨swapCells b.state emptyRow.toNat emptyCol.toNat emptyRow.toNat (emptyCol - 1).toNat⟩, true)
  else if direction = 'R' ∧ ltSizeMinusOne emptyCol (b.state.headD []).length = true then
    (⟨swapCells b.state emptyRow.toNat emptyCol.toNat emptyRow.toNat (emptyCol + 1).toNat⟩, true)
  else if direction = 'U' ∧ emptyRow > 0 then
    (⟨swapCells b.state emptyRow.toNat emptyCol.toNat (emptyRow - 1).toNat emptyCol.toNat⟩, true)
  else if direction = 'D' ∧ ltSizeMinusOne emptyRow b.state.length = true then
    (⟨swapCells b.state emptyRow.toNat emptyCol.toNat (emptyRow + 1).toNat emptyCol.toNat⟩, true)
  else
    (b, false)

/-! ## Node -/

/-- The class `Node`; `pre` is the parent (`none` for `nullptr`). -/
inductive Node where
  | mk (board : Board) (heuristic : Int) (pathCost : Int) (pre : Option Node)
      (direction : Char) : Node

/-- `Node::getBoard`. -/
def Node.getBoard : Node → Board
  | .mk board _ _ _ _ => board

/-- `Node::getHeuristic`. -/
def Node.getHeuristic : Node → Int
  | .mk _ heuristic _ _ _ => heuristic

/-- `Node::getPathCost`. -/
def Node.getPathCost : Node → Int
  | .mk _ _ pathCost _ _ => pathCost

/-- `Node::getParent`. -/
def Node.getParent : Node → Option Node
  | .mk _ _ _ pre _ => pre

/-- `Node::getDirection`. -/
def Node.getDirection : Node → Char
  | .mk _ _ _ _ direction => direction

/-- `Node::operator<`: a node is "less" when its `f = heuristic + pathCost` is
greater.  The sums are taken here in unbounded integers; `Node.ltInt32` takes them
in 32-bit `int` as the compiled code does, and the two agree whenever both sums
lie in the range of `int`. -/
def Node.lt (self other : Node) : Bool :=
  decide (self.getHeuristic + self.getPathCost > other.getHeuristic + other.getPathCost)

/-- `CompareNode::operator()`. -/
def CompareNode (lhs rhs : Node) : Bool := lhs.lt rhs

/-- The nodes visited by the path-reconstruction loop of `solve`
(`currentPoint = currentPoint->getParent()` until `nullptr`), in that order. -/
def Node.chain : Node → List Node
  | .mk board h g none d => [.mk board h g none d]
  | .mk board h g (some p) d => .mk board h g (some p) d :: p.chain

/-! ## Puzzle -/

/-- The class `Puzzle`. -/
structure Puzzle where
  frontierList : List Node
  uniqueSet : List Board
  initialState : Board
  goalState : Board
  heuristicOption : Int

/-- `Puzzle::h1`: number of misplaced tiles.  The loops run over the rows of
the current board and over the cells of each row. -/
def h1 (currentBoard goalBoard : Board) : Int :=
  let currentState := currentBoard.getState
  let goalState := goalBoard.getState
  (List.range currentState.length).foldl (fun misplacedTiles i =>
    (List.range (currentState.getD i []).length).foldl (fun misplacedTiles j =>
      if cell currentState i j ≠ cell goalState i j ∧ cell currentState i j ≠ 0 then
        misplacedTiles + 1
      else misplacedTiles) misplacedTiles) 0

/-- `Puzzle::h2`: total Manhattan distance. -/
def h2 (currentBoard goalBoard : Board) : Int :=
  let currentState := currentBoard.getState
  (List.range currentState.length).foldl (fun manhattanDistance i =>
    (List.range (currentState.getD i []).length).foldl (fun manhattanDistance j =>
      let tileValue := cell currentState i j
      if tileValue ≠ 0 then
        let goalPosition := goalBoard.findTilePosition tileValue
        manhattanDistance +
          ((((i : Int) - goalPosition.1).natAbs : Int) + (((j : Int) - goalPosition.2).natAbs : Int))
      else manhattanDistance) manhattanDistance) 0

/-- `Puzzle::calculateHeuristic`. -/
def Puzzle.calculateHeuristic (p : Puzzle) (board : Board) : Int :=
  if p.heuristicOption = 1 then h1 board p.goalState else h2 board p.goalState

/-- `Puzzle::addToFrontier`: `frontierList.push(node)`. -/
def Puzzle.addToFrontier (p : Puzzle) (node : Node) : Puzzle :=
  { p with frontierList := p.frontierList ++ [node] }

/-- `Puzzle::isFrontierEmpty`. -/
def Puzzle.isFrontierEmpty (p : Puzzle) : Bool := p.frontierList.isEmpty

/-- The constructor `Puzzle::Puzzle`: the frontier holds the root node only. -/
def Puzzle.new (initial goal : Board) (option : Int) : Puzzle :=
  let p : Puzzle :=
    { frontierList := [], uniqueSet := [], initialState := initial, goalState := goal,
      heuristicOption := option }
  let initialHeuristic := p.calculateHeuristic p.initialState
  let initialNode := Node.mk p.initialState initialHeuristic 0 none '0'
  p.addToFrontier initialNode

/-- Body of the `for (char dir : directions)` loop of `Puzzle::expand`. -/
def Puzzle.expandDir (currentNode : Node) (p : Puzzle) (dir : Char) : Puzzle :=
  let currentBoard := currentNode.getBoard
  match currentBoard.move dir with
  | (successorBoard, true) =>
    let successorHeuristic := p.calculateHeuristic successorBoard
    let successorPathCost := currentNode.getPathCost + 1
    let successorNode :=
      Node.mk successorBoard successorHeuristic successorPathCost (some currentNode) dir
    p.addToFrontier successorNode
  | (_, false) => p

/-- `Puzzle::expand`. -/
def Puzzle.expand (p : Puzzle) (currentNode : Node) : Puzzle :=
  let directions := ['L', 'R', 'U', 'D']
  directions.foldl (Puzzle.expandDir currentNode) p

/-- Contract of `frontierList.top()`: the element at index `i` is one that
`CompareNode` does not order below any element of the queue. -/
def isTop (frontier : List Node) (i : Nat) : Bool :=
  match frontier[i]? with
  | none => false
  | some n => frontier.all (fun m => !CompareNode n m)

/-- What one iteration of the `while` loop of `Puzzle::solve` does. -/
inductive Iteration where
  | found (currentNode : Node) : Iteration
  | next (p : Puzzle) : Iteration

/-- How `Puzzle::solve` ends: the goal branch (with the node whose parent chain
and path cost are printed) or "No Solution Found!". -/
inductive SolveResult where
  | found (currentNode : Node) : SolveResult
  | noSolution : SolveResult

/-- One iteration of the `while` loop of `Puzzle::solve`, when `top()` returns
the element at index `i` of the frontier (`none` when there is no such
element). -/
def Puzzle.iterate (p : Puzzle) (i : Nat) : Option Iteration :=
  match p.frontierList[i]? with
  | none => none
  | some currentNode =>
    let p := { p with frontierList := p.frontierList.eraseIdx i }
    if currentNode.getBoard ∈ p.uniqueSet then
      some (.next p)
    else
      let p := { p with uniqueSet := currentNode.getBoard :: p.uniqueSet }
      if currentNode.getBoard.isGoalState p.goalState then
        some (.found currentNode)
      else
        some (.next (p.expand currentNode))

/-- The runs of `Puzzle::solve` from a puzzle state to its end, for every
choice `top()` may make among the nodes of least `f`. -/
inductive Run : Puzzle → SolveResult → Prop where
  | noSolution (p : Puzzle) : p.isFrontierEmpty = true → Run p .noSolution
  | found (p : Puzzle) (i : Nat) (n : Node) : p.isFrontierEmpty = false →
      isTop p.frontierList i = true → p.iterate i = some (.found n) → Run p (.found n)
  | next (p : Puzzle) (i : Nat) (q : Puzzle) (r : SolveResult) : p.isFrontierEmpty = false →
      isTop p.frontierList i = true → p.iterate i = some (.next q) → Run q r → Run p r

/-- One pass through the loop of `Puzzle::solve` that comes back to the loop
condition. -/
def Step (p q : Puzzle) : Prop :=
  p.isFrontierEmpty = false ∧ ∃ i, isTop p.frontierList i = true ∧ p.iterate i = some (.next q)

/-- Index of the first node of least `f` from position `i` on, given the best
index `best` and its `f` value `bestF` so far. -/
def topIndexAux : List Node → Nat → Nat → Int → Nat
  | [], _, best, _ => best
  | n :: ns, i, best, bestF =>
    if n.getHeuristic + n.getPathCost < bestF then
      topIndexAux ns (i + 1) i (n.getHeuristic + n.getPathCost)
    else topIndexAux ns (i + 1) best bestF

/-- One deterministic `top()`: the first node of least `f`. -/
def topIndex : List Node → Nat
  | [] => 0
  | n :: ns => topIndexAux ns 1 0 (n.getHeuristic + n.getPathCost)

/-- `Puzzle::solve` with `top()` resolved by `topIndex`, run for at most `fuel`
iterations of its loop (`none`: the fuel ran out). -/
def Puzzle.solve : Nat → Puzzle → Option SolveResult
  | 0, _ => none
  | fuel + 1, p =>
    if p.isFrontierEmpty then some .noSolution
    else
      match p.iterate (topIndex p.frontierList) with
      | some (.found n) => some (.found n)
      | some (.next q) => Puzzle.solve fuel q
      | none => none

/-- The executable `solve` ended in the no-solution branch. -/
def isNoSolution : Option SolveResult → Bool
  | some .noSolution => true
  | _ => false

/-- Termination measure of the loop of `solve`, ordered lexicographically: the
number of boards of the finite set `boards` not yet visited, then the size of
the frontier. -/
def searchMeasure (boards : Finset Board) (p : Puzzle) : Nat × Nat :=
  ((boards \ p.uniqueSet.toFinset).card, p.frontierList.length)

/-! ## Vocabulary of the specification -/

/-- The four move labels. -/
def directions : List Char := ['L', 'R', 'U', 'D']

/-- A grid with `rows` rows, each of `cols` cells. -/
def Board.hasShape (b : Board) (rows cols : Nat) : Prop :=
  b.state.length = rows ∧ ∀ row ∈ b.state, row.length = cols

instance (b : Board) (rows cols : Nat) : Decidable (b.hasShape rows cols) := by
  unfold Board.hasShape
  infer_instance

/-- A valid `n`×`n` board: every value of `0 .. n*n-1` exactly once. -/
def Board.valid (b : Board) (n : Nat) : Prop :=
  b.hasShape n n ∧ List.Perm b.state.flatten ((List.range (n * n)).map Int.ofNat)

instance (b : Board) (n : Nat) : Decidable (b.valid n) := by
  unfold Board.valid
  infer_instance

/-- The first occurrence of `v` in row-major order is at row `r`, column `c`. -/
def firstAt (state : List (List Int)) (v : Int) (r c : Nat) : Prop :=
  r < state.length ∧ c < (state.getD r []).length ∧ cell state r c = v ∧
    ∀ i, i < state.length → ∀ j, j < (state.getD i []).length → cell state i j = v →
      r < i ∨ (r = i ∧ c ≤ j)

instance (state : List (List Int)) (v : Int) (r c : Nat) : Decidable (firstAt state v r c) := by
  unfold firstAt
  infer_instance

/-- The parent chain of a node is a legal record of moves from `init`: the root
(no parent) holds `init` with path cost 0 and label `'0'`; every other node
holds its parent's board after a successful `move` with its own label, one of
L, R, U, D, at its parent's path cost plus one. -/
def Node.legalChain (init : Board) : Node → Prop
  | .mk board _ g none d => board = init ∧ g = 0 ∧ d = '0'
  | .mk board _ g (some p) d =>
    d ∈ directions ∧ p.getBoard.move d = (board, true) ∧ g = p.getPathCost + 1 ∧
      p.legalChain init

/-- The successor node `Puzzle::expand` builds for direction `dir`, if the move succeeds. -/
def Puzzle.successorNode (p : Puzzle) (currentNode : Node) (dir : Char) : Option Node :=
  match currentNode.getBoard.move dir with
  | (successorBoard, true) =>
    some (Node.mk successorBoard (p.calculateHeuristic successorBoard)
      (currentNode.getPathCost + 1) (some currentNode) dir)
  | (_, false) => none

/-- Contribution of the cell `(i, j)` holding `v` to `h1`: 1 when the value is
not the blank and differs from the goal's value at `(i, j)`. -/
def misplacedAt (goalBoard : Board) (v : Int) (i j : Nat) : Int :=
  if v ≠ cell goalBoard.getState i j ∧ v ≠ 0 then 1 else 0

/-- Contribution of the cell `(i, j)` holding `v` to `h2`: for a tile, the
Manhattan distance from `(i, j)` to where `findTilePosition` finds `v` in the
goal. -/
def distanceAt (goalBoard : Board) (v : Int) (i j : Nat) : Int :=
  if v ≠ 0 then
    ((((i : Int) - (goalBoard.findTilePosition v).1).natAbs : Int) +
      (((j : Int) - (goalBoard.findTilePosition v).2).natAbs : Int))
  else 0

/-- Sum of a per-cell contribution over a `rows`×`cols` grid. -/
def gridSum (F : Int → Nat → Nat → Int) (state : List (List Int)) (rows cols : Nat) : Int :=
  ∑ x in Finset.range rows ×ˢ Finset.range cols, F (cell state x.1 x.2) x.1 x.2

/-- The cell next to `(r, c)` in direction `d`: `(r, c-1)` for `L`, `(r, c+1)`
for `R`, `(r-1, c)` for `U`, `(r+1, c)` for `D`. -/
def targetCell (d : Char) (r c : Nat) : Int × Int :=
  if d = 'L' then ((r : Int), (c : Int) - 1)
  else if d = 'R' then ((r : Int), (c : Int) + 1)
  else if d = 'U' then ((r : Int) - 1, (c : Int))
  else ((r : Int) + 1, (c : Int))

/-- A position lies inside a `rows`×`cols` grid. -/
def insideGrid (rows cols : Nat) (t : Int × Int) : Prop :=
  0 ≤ t.1 ∧ t.1 < (rows : Int) ∧ 0 ≤ t.2 ∧ t.2 < (cols : Int)

instance (rows cols : Nat) (t : Int × Int) : Decidable (insideGrid rows cols t) := by
  unfold insideGrid
  infer_instance

/-- The board reached from `b` by the successful moves `ds`, in order
(`none` as soon as one of them is rejected or is not a move label). -/
def applyMoves (b : Board) : List Char → Option Board
  | [] => some b
  | d :: ds =>
    if d ∈ directions ∧ (b.move d).2 = true then applyMoves (b.move d).1 ds else none

/-- Parity invariant of the move graph on `rows`×`cols` grids, relative to a
reference board `g`: the board is `g` with its cells permuted by some `σ`, and
the sign of `σ` times `(-1) ^ (row + column of the blank)` is `e`. -/
def parityInv (g : Board) (rows cols : Nat) (e : ℤˣ) (b : Board) : Prop :=
  b.hasShape rows cols ∧ ∃ σ : Equiv.Perm (Fin rows × Fin cols),
    (∀ x, cell b.state x.1 x.2 = cell g.state (σ x).1 (σ x).2) ∧
    ∀ z : Fin rows × Fin cols, cell b.state z.1 z.2 = 0 →
      Equiv.Perm.sign σ * (-1) ^ ((z.1 : Nat) + (z.2 : Nat)) = e

/-- The invariant of the loop of `Puzzle::solve`, for a search from `init` to
`goal` on `rows`×`cols` grids:
* every frontier node carries a legal parent chain from `init` and the
  heuristic value of its board;
* while `init` is not visited, the frontier holds a node for it at path cost 0;
* a visited board reached by some move sequence of length `k` has, for every
  successor not yet visited, a frontier node of path cost at most `k + 1`;
* `goal` is not visited, and every visited board is reachable from `init`. -/
structure SearchInv (init goal : Board) (option : Int) (rows cols : Nat) (p : Puzzle) : Prop where
  goalState : p.goalState = goal
  heuristicOption : p.heuristicOption = option
  shape : init.hasShape rows cols
  nodes : ∀ n ∈ p.frontierList,
    n.legalChain init ∧ n.getHeuristic = p.calculateHeuristic n.getBoard
  root : init ∉ p.uniqueSet → ∃ m ∈ p.frontierList, m.getBoard = init ∧ m.getPathCost = 0
  closed : ∀ b ∈ p.uniqueSet, ∀ ds, applyMoves init ds = some b →
    ∀ d b', b.move d = (b', true) → b' ∉ p.uniqueSet →
      ∃ m ∈ p.frontierList, m.getBoard = b' ∧ m.getPathCost ≤ (ds.length : Int) + 1
  goalOpen : goal ∉ p.uniqueSet
  visited : ∀ b ∈ p.uniqueSet, ∃ ds, applyMoves init ds = some b

/-- Two boards have the same shape: as many rows, and rows of the same lengths. -/
def sameShape (a b : Board) : Prop :=
  a.state.map List.length = b.state.map List.length

instance (a b : Board) : Decidable (sameShape a b) := by
  unfold sameShape
  infer_instance

/-- The positions `(i, j)` of the cells of a board, row by row. -/
def Board.positions (b : Board) : List (Nat × Nat) :=
  (List.range b.state.length).flatMap (fun i =>
    (List.range (b.state.getD i []).length).map (fun j => (i, j)))

/-- The misplaced-tile count as the specification words it: the number of
positions whose value is not the blank and differs from the goal's value at the
same position. -/
def misplacedCount (B goal : Board) : Nat :=
  B.positions.countP (fun x =>
    decide (cell B.state x.1 x.2 ≠ 0 ∧ cell B.state x.1 x.2 ≠ cell goal.state x.1 x.2))

/-- The Manhattan distance sum as the specification words it: over the non-blank
values `1 .. rows*cols-1`, the row difference plus the column difference between
the value's position in the board and its position in the goal. -/
def manhattanSum (B goal : Board) (rows cols : Nat) : Int :=
  ∑ v in Finset.Icc 1 (rows * cols - 1),
    ((((B.findTilePosition (v : Int)).1 - (goal.findTilePosition (v : Int)).1).natAbs : Int) +
      (((B.findTilePosition (v : Int)).2 - (goal.findTilePosition (v : Int)).2).natAbs : Int))

/-- The runs of `Puzzle::solve` together with the nodes on which `expand` is
called, in order.  An iteration that returns to the loop condition either leaves
the state with the taken node removed from the frontier and nothing else changed
(`drop`: no call to `expand`), or leaves the state that `Puzzle::expand` produces
from the node taken, after its board was inserted into the visited set
(`expand`: the node is logged). -/
inductive RunLog : Puzzle → List Node → SolveResult → Prop where
  | noSolution (p : Puzzle) : p.isFrontierEmpty = true → RunLog p [] .noSolution
  | found (p : Puzzle) (i : Nat) (n : Node) : p.isFrontierEmpty = false →
      isTop p.frontierList i = true → p.iterate i = some (.found n) → RunLog p [] (.found n)
  | drop (p : Puzzle) (i : Nat) (xs : List Node) (r : SolveResult) :
      p.isFrontierEmpty = false → isTop p.frontierList i = true →
      p.iterate i = some (.next { p with frontierList := p.frontierList.eraseIdx i }) →
      RunLog { p with frontierList := p.frontierList.eraseIdx i } xs r → RunLog p xs r
  | expand (p : Puzzle) (i : Nat) (node : Node) (xs : List Node) (r : SolveResult) :
      p.isFrontierEmpty = false → isTop p.frontierList i = true →
      p.frontierList[i]? = some node →
      p.iterate i = some (.next (Puzzle.expand
        { p with
          frontierList := p.frontierList.eraseIdx i
          uniqueSet := node.getBoard :: p.uniqueSet } node)) →
      RunLog (Puzzle.expand
        { p with
          frontierList := p.frontierList.eraseIdx i
          uniqueSet := node.getBoard :: p.uniqueSet } node) xs r →
      RunLog p (node :: xs) r

/-- The move label that undoes `d`: R for L, L for R, D for U, U for D. -/
def opposite (d : Char) : Char :=
  if d = 'L' then 'R' else if d = 'R' then 'L' else if d = 'U' then 'D' else 'U'

/-- The value a 32-bit `int` holds when the mathematical result is `x`: two's
complement wrap-around, which is what the usual compilers produce when a signed
sum overflows. -/
def wrapInt32 (x : Int) : Int := (x + 2147483648) % 4294967296 - 2147483648

/-- `Node::operator<` with the sums `heuristic + pathCost` taken in 32-bit `int`. -/
def Node.ltInt32 (self other : Node) : Bool :=
  decide (wrapInt32 (self.getHeuristic + self.getPathCost) >
    wrapInt32 (other.getHeuristic + other.getPathCost))

/-- `CompareNode::operator()` over the 32-bit `Node::operator<`. -/
def CompareNodeInt32 (lhs rhs : Node) : Bool := lhs.ltInt32 rhs

/-- The sum `heuristic + pathCost` of a node lies in the range of a 32-bit `int`. -/
def Node.fitsInt32 (n : Node) : Prop :=
  -2147483648 ≤ n.getHeuristic + n.getPathCost ∧ n.getHeuristic + n.getPathCost < 2147483648

instance (n : Node) : Decidable n.fitsInt32 := by
  unfold Node.fitsInt32
  infer_instance

/-- Contract of `frontierList.top()` over the 32-bit comparator: the element at
index `i` is one that `CompareNodeInt32` does not order below any element. -/
def isTopInt32 (frontier : List Node) (i : Nat) : Bool :=
  match frontier[i]? with
  | none => false
  | some n => frontier.all (fun m => !CompareNodeInt32 n m)

/-- One pass through the loop of `Puzzle::solve` that comes back to the loop
condition, with `top()` taken under the 32-bit comparator. -/
def StepInt32 (p q : Puzzle) : Prop :=
  p.isFrontierEmpty = false ∧
    ∃ i, isTopInt32 p.frontierList i = true ∧ p.iterate i = some (.next q)

/-! ## Lemmas on grids and on `findTilePosition` -/

theorem getD_mem {α : Type} {l : List α} {i : Nat} {d : α} (h : i < l.length) :
    l.getD i d ∈ l := by
  rw [List.getD_eq_getElem _ _ h]
  exact List.getElem_mem _

theorem findInRow_none (v : Int) (row : List Int) (j : Nat) :
    findInRow v row j = none ↔ v ∉ row := by
  induction row generalizing j with
  | nil => simp [findInRow]
  | cons x xs ih =>
    by_cases hx : x = v
    · simp [findInRow, hx]
    · simp [findInRow, hx, ih, Ne.symm hx]

theorem findInRow_some (v : Int) (row : List Int) (j k : Nat) (h : findInRow v row j = some k) :
    j ≤ k ∧ k - j < row.length ∧ row.getD (k - j) 0 = v ∧ ∀ m, m < k - j → row.getD m 0 ≠ v := by
  induction row generalizing j with
  | nil => simp [findInRow] at h
  | cons x xs ih =>
    by_cases hx : x = v
    · simp [findInRow, hx] at h
      subst h
      simp [hx]
    · simp [findInRow, hx] at h
      obtain ⟨h1, h2, h3, h4⟩ := ih (j + 1) h
      have e : k - j = (k - (j + 1)) + 1 := by omega
      refine ⟨by omega, ?_, ?_, ?_⟩
      · rw [e]; simp; omega
      · rw [e]; simpa using h3
      · intro m hm
        cases m with
        | zero => simpa using hx
        | succ m => 
          have := h4 m (by omega)
          simpa using this

theorem findFrom_notFound (v : Int) (state : List (List Int)) (i : Nat) :
    findFrom v state i = (-1, -1) ↔ ∀ row ∈ state, v ∉ row := by
  induction state generalizing i with
  | nil => simp [findFrom]
  | cons row rows ih =>
    cases hr : findInRow v row 0 with
    | none =>
      simp only [findFrom, hr, ih]
      rw [findInRow_none] at hr
      simp [hr]
    | some j =>
      simp only [findFrom, hr]
      have : v ∈ row := by
        by_contra hc
        rw [← findInRow_none v row 0] at hc
        simp [hc] at hr
      constructor
      · intro h
        have := congrArg Prod.fst h
        simp at this
      · intro h
        exact absurd this (h row (by simp))

theorem findFrom_cases (v : Int) (state : List (List Int)) (i : Nat) :
    findFrom v state i = (-1, -1) ∨
      ∃ r c, firstAt state v r c ∧ findFrom v state i = (((i + r : Nat) : Int), (c : Int)) := by
  induction state generalizing i with
  | nil => simp [findFrom]
  | cons row rows ih =>
    cases hr : findInRow v row 0 with
    | none =>
      have hnot : v ∉ row := (findInRow_none v row 0).1 hr
      rcases ih (i + 1) with h | ⟨r, c, hf, he⟩
      · left; simp [findFrom, hr, h]
      · right
        refine ⟨r + 1, c, ?_, ?_⟩
        · obtain ⟨h1, h2, h3, h4⟩ := hf
          refine ⟨by simpa using h1, by simpa using h2, by simpa [cell] using h3, ?_⟩
          intro i' hi' j' hj' hc
          cases i' with
          | zero =>
            exfalso
            apply hnot
            have hj2 : j' < row.length := by simpa using hj'
            have hc2 : row.getD j' 0 = v := by simpa [cell] using hc
            rw [← hc2]
            exact getD_mem hj2
          | succ i' =>
            have := h4 i' (by simpa using hi') j' (by simpa using hj') (by simpa [cell] using hc)
            omega
        · simp only [findFrom, hr, he]
          congr 1
          push_cast; ring
    | some j =>
      right
      obtain ⟨_, h2, h3, h4⟩ := findInRow_some v row 0 j hr
      simp only [Nat.sub_zero] at h2 h3 h4
      refine ⟨0, j, ⟨by simp, by simpa using h2, by simpa [cell] using h3, ?_⟩, by simp [findFrom, hr]⟩
      intro i' _ j' _ hc
      cases i' with
      | zero =>
        right
        refine ⟨rfl, ?_⟩
        by_contra hlt
        exact h4 j' (by omega) (by simpa [cell] using hc)
      | succ i' => left; omega

theorem firstAt_unique {state : List (List Int)} {v : Int} {r c r' c' : Nat}
    (h : firstAt state v r c) (h' : firstAt state v r' c') : r = r' ∧ c = c' := by
  obtain ⟨a1, a2, a3, a4⟩ := h
  obtain ⟨b1, b2, b3, b4⟩ := h'
  have := a4 r' b1 c' b2 b3
  have := b4 r a1 c a2 a3
  omega

theorem findTilePosition_of_firstAt {b : Board} {v : Int} {r c : Nat}
    (h : firstAt b.state v r c) : b.findTilePosition v = ((r : Int), (c : Int)) := by
  rcases findFrom_cases v b.state 0 with hn | ⟨r', c', hf, he⟩
  · exfalso
    rw [findFrom_notFound] at hn
    obtain ⟨a1, a2, a3, _⟩ := h
    exact hn (b.state.getD r []) (getD_mem a1) (a3 ▸ getD_mem a2)
  · obtain ⟨e1, e2⟩ := firstAt_unique h hf
    subst e1 e2
    simpa [Board.findTilePosition] using he

theorem findTilePosition_cases (b : Board) (v : Int) :
    (b.findTilePosition v = (-1, -1) ∧ ∀ row ∈ b.state, v ∉ row) ∨
      ∃ r c, firstAt b.state v r c ∧ b.findTilePosition v = ((r : Int), (c : Int)) := by
  rcases findFrom_cases v b.state 0 with hn | ⟨r', c', hf, he⟩
  · left; exact ⟨hn, (findFrom_notFound v b.state 0).1 hn⟩
  · right; exact ⟨r', c', hf, by simpa [Board.findTilePosition] using he⟩

theorem length_setCell (s : List (List Int)) (i j : Nat) (v : Int) :
    (setCell s i j v).length = s.length := by
  simp [setCell]

theorem rowLength_setCell (s : List (List Int)) (i j k : Nat) (v : Int) :
    ((setCell s i j v).getD k []).length = (s.getD k []).length := by
  simp only [setCell, List.getD_eq_getElem?_getD, List.getElem?_set]
  by_cases h : i = k
  · subst h
    by_cases h2 : i < s.length
    · simp [h2]
    · simp [h2, List.getElem?_eq_none (not_lt.1 h2)]
  · simp [h]

theorem cell_setCell (s : List (List Int)) (i j k l : Nat) (v : Int)
    (hi : i < s.length) (hj : j < (s.getD i []).length) :
    cell (setCell s i j v) k l = if k = i ∧ l = j then v else cell s k l := by
  simp only [cell, setCell, List.getD_eq_getElem?_getD, List.getElem?_set] at hj ⊢
  by_cases h : i = k
  · subst h
    by_cases h2 : j = l
    · subst h2
      have hj2 : j < s[i].length := by simpa [List.getElem?_eq_getElem hi] using hj
      simp [hi, hj2]
    · simp [hi, h2, Ne.symm h2]
  · simp [h, Ne.symm h]

theorem length_swapCells (s : List (List Int)) (r1 c1 r2 c2 : Nat) :
    (swapCells s r1 c1 r2 c2).length = s.length := by
  simp [swapCells, length_setCell]

theorem rowLength_swapCells (s : List (List Int)) (r1 c1 r2 c2 k : Nat) :
    ((swapCells s r1 c1 r2 c2).getD k []).length = (s.getD k []).length := by
  unfold swapCells
  simp only
  rw [rowLength_setCell, rowLength_setCell]

theorem cell_swapCells (s : List (List Int)) (r1 c1 r2 c2 k l : Nat)
    (h1 : r1 < s.length) (h1' : c1 < (s.getD r1 []).length)
    (h2 : r2 < s.length) (h2' : c2 < (s.getD r2 []).length) :
    cell (swapCells s r1 c1 r2 c2) k l =
      if k = r2 ∧ l = c2 then cell s r1 c1
      else if k = r1 ∧ l = c1 then cell s r2 c2 else cell s k l := by
  unfold swapCells
  simp only
  rw [cell_setCell _ _ _ _ _ _ (by rwa [length_setCell]) (by rwa [rowLength_setCell]),
    cell_setCell _ _ _ _ _ _ h1 h1']

theorem hasShape_iff (b : Board) (rows cols : Nat) :
    b.hasShape rows cols ↔
      b.state.length = rows ∧ ∀ i, i < rows → (b.state.getD i []).length = cols := by
  unfold Board.hasShape
  constructor
  · rintro ⟨h1, h2⟩
    refine ⟨h1, fun i hi => h2 _ (getD_mem (h1 ▸ hi))⟩
  · rintro ⟨h1, h2⟩
    refine ⟨h1, fun row hrow => ?_⟩
    obtain ⟨i, hi, rfl⟩ := List.getElem_of_mem hrow
    have := h2 i (h1 ▸ hi)
    rwa [List.getD_eq_getElem _ _ hi] at this

theorem hasShape_swapCells {b : Board} {rows cols : Nat} (h : b.hasShape rows cols)
    (r1 c1 r2 c2 : Nat) : (Board.mk (swapCells b.state r1 c1 r2 c2)).hasShape rows cols := by
  rw [hasShape_iff] at h ⊢
  refine ⟨by simpa [length_swapCells] using h.1, fun i hi => ?_⟩
  show ((swapCells b.state r1 c1 r2 c2).getD i []).length = cols
  rw [rowLength_swapCells]
  exact h.2 i hi

/-- Two grids of the same shape with the same cells are equal. -/
theorem state_ext {s t : List (List Int)} (hlen : s.length = t.length)
    (hrow : ∀ i, i < s.length → (s.getD i []).length = (t.getD i []).length)
    (hcell : ∀ i j, i < s.length → j < (s.getD i []).length → cell s i j = cell t i j) : s = t := by
  apply List.ext_getElem hlen
  intro i h1 h2
  have hr := hrow i h1
  rw [List.getD_eq_getElem _ _ h1, List.getD_eq_getElem _ _ h2] at hr
  apply List.ext_getElem hr
  intro j h3 h4
  have := hcell i j h1 (by rwa [List.getD_eq_getElem _ _ h1])
  simp only [cell] at this
  rwa [List.getD_eq_getElem _ _ h1, List.getD_eq_getElem _ _ h2, List.getD_eq_getElem _ _ h3,
    List.getD_eq_getElem _ _ h4] at this

/-! ## `Board::move` -/

theorem headD_length_of_hasShape {b : Board} {rows cols : Nat} (h : b.hasShape rows cols)
    (hr : 0 < rows) : (b.state.headD []).length = cols := by
  obtain ⟨h1, h2⟩ := h
  cases hs : b.state with
  | nil => simp [hs] at h1; omega
  | cons row rest => 
    simp only [List.headD_cons]
    exact h2 row (by simp [hs])

theorem mem_directions (d : Char) :
    d ∈ directions ↔ d = 'L' ∨ d = 'R' ∨ d = 'U' ∨ d = 'D' := by
  simp [directions]

/-- `Board::move` on a rectangular grid with a blank, in terms of the target cell. -/
theorem move_eq {b : Board} {rows cols r c : Nat} {d : Char} (hshape : b.hasShape rows cols)
    (hblank : firstAt b.state 0 r c) (hd : d ∈ directions) :
    b.move d =
      if insideGrid rows cols (targetCell d r c) then
        (⟨swapCells b.state r c (targetCell d r c).1.toNat (targetCell d r c).2.toNat⟩, true)
      else (b, false) := by
  have hpos := findTilePosition_of_firstAt hblank
  have hrows : r < rows := hshape.1 ▸ hblank.1
  have hcols : c < cols := by
    have := ((hasShape_iff b rows cols).1 hshape).2 r hrows
    rw [← this]; exact hblank.2.1
  have hhead := headD_length_of_hasShape hshape (by omega)
  have hlen := hshape.1
  rw [mem_directions] at hd
  rcases hd with rfl | rfl | rfl | rfl
  · have ht : targetCell 'L' r c = ((r : Int), (c : Int) - 1) := by simp [targetCell]
    rw [ht]
    by_cases h : 0 < c
    · have e : ((c : Int) - 1).toNat = c - 1 := by omega
      have hin : insideGrid rows cols ((r : Int), (c : Int) - 1) := by
        simp only [insideGrid]; omega
      rw [if_pos hin]
      simp [Board.move, hpos, h, e]
    · have hin : ¬ insideGrid rows cols ((r : Int), (c : Int) - 1) := by
        simp only [insideGrid]; omega
      have hc0 : c = 0 := by omega
      rw [if_neg hin]
      subst hc0
      simp [Board.move, hpos, ltSizeMinusOne]
  · have ht : targetCell 'R' r c = ((r : Int), (c : Int) + 1) := by simp [targetCell]
    rw [ht]
    have e : ((c : Int) + 1).toNat = c + 1 := by omega
    by_cases h : c + 1 < cols
    · have hin : insideGrid rows cols ((r : Int), (c : Int) + 1) := by
        simp only [insideGrid]; omega
      have h0 : cols ≠ 0 := by omega
      have h1 : (c : Int) < (cols : Int) - 1 := by omega
      rw [if_pos hin]
      simp only [Board.move, hpos, hhead]
      simp [ltSizeMinusOne, h0, h1, e]
    · have hin : ¬ insideGrid rows cols ((r : Int), (c : Int) + 1) := by
        simp only [insideGrid]; omega
      have h0 : cols ≠ 0 := by omega
      have h1 : ¬ (c : Int) < (cols : Int) - 1 := by omega
      have h2 : rows ≠ 0 := by omega
      rw [if_neg hin]
      simp only [Board.move, hpos, hhead]
      simp [ltSizeMinusOne, h0, h1]
  · have ht : targetCell 'U' r c = ((r : Int) - 1, (c : Int)) := by simp [targetCell]
    rw [ht]
    by_cases h : 0 < r
    · have e : ((r : Int) - 1).toNat = r - 1 := by omega
      have hin : insideGrid rows cols ((r : Int) - 1, (c : Int)) := by
        simp only [insideGrid]; omega
      rw [if_pos hin]
      simp [Board.move, hpos, h, e]
    · have hin : ¬ insideGrid rows cols ((r : Int) - 1, (c : Int)) := by
        simp only [insideGrid]; omega
      have hc0 : r = 0 := by omega
      rw [if_neg hin]
      subst hc0
      simp [Board.move, hpos, ltSizeMinusOne]
  · have ht : targetCell 'D' r c = ((r : Int) + 1, (c : Int)) := by simp [targetCell]
    rw [ht]
    have e : ((r : Int) + 1).toNat = r + 1 := by omega
    by_cases h : r + 1 < rows
    · have hin : insideGrid rows cols ((r : Int) + 1, (c : Int)) := by
        simp only [insideGrid]; omega
      have h0 : rows ≠ 0 := by omega
      have h1 : (r : Int) < (rows : Int) - 1 := by omega
      rw [if_pos hin]
      simp [Board.move, hpos, hlen, ltSizeMinusOne, h0, h1, e]
    · have hin : ¬ insideGrid rows cols ((r : Int) + 1, (c : Int)) := by
        simp only [insideGrid]; omega
      have h0 : rows ≠ 0 := by omega
      have h1 : ¬ (r : Int) < (rows : Int) - 1 := by omega
      rw [if_neg hin]
      simp [Board.move, hpos, hlen, ltSizeMinusOne, h0, h1]

/-- Without a blank no move is made. -/
theorem move_of_no_blank {b : Board} (h : b.findTilePosition 0 = (-1, -1)) (d : Char) :
    b.move d = (b, false) := by
  simp [Board.move, h, ltSizeMinusOne]

theorem move_of_not_direction {b : Board} {d : Char} (hd : d ∉ directions) :
    b.move d = (b, false) := by
  rw [mem_directions] at hd
  push_neg at hd
  simp [Board.move, hd.1, hd.2.1, hd.2.2.1, hd.2.2.2]

/-- What a successful move does, on a rectangular grid whose first blank is at `(r, c)`. -/
theorem move_effect {b : Board} {rows cols r c : Nat} {d : Char} (hshape : b.hasShape rows cols)
    (hblank : firstAt b.state 0 r c) (hd : d ∈ directions)
    (hin : insideGrid rows cols (targetCell d r c)) :
    b.move d =
        (⟨swapCells b.state r c (targetCell d r c).1.toNat (targetCell d r c).2.toNat⟩, true) ∧
      (b.move d).1.hasShape rows cols ∧
      cell (b.move d).1.state (targetCell d r c).1.toNat (targetCell d r c).2.toNat = 0 ∧
      cell (b.move d).1.state r c =
        cell b.state (targetCell d r c).1.toNat (targetCell d r c).2.toNat ∧
      ∀ i j, ¬ (i = r ∧ j = c) →
        ¬ ((i : Int) = (targetCell d r c).1 ∧ (j : Int) = (targetCell d r c).2) →
        cell (b.move d).1.state i j = cell b.state i j := by
  have hm := move_eq hshape hblank hd
  rw [if_pos hin] at hm
  obtain ⟨t1, t2, t3, t4⟩ := hin
  have hs := (hasShape_iff b rows cols).1 hshape
  have hr : r < b.state.length := hblank.1
  have hc : c < (b.state.getD r []).length := hblank.2.1
  have hr' : (targetCell d r c).1.toNat < b.state.length := by rw [hs.1]; omega
  have hc' : (targetCell d r c).2.toNat < (b.state.getD (targetCell d r c).1.toNat []).length := by
    rw [hs.2 _ (by omega)]; omega
  have hne : ¬ (r = (targetCell d r c).1.toNat ∧ c = (targetCell d r c).2.toNat) := by
    rw [mem_directions] at hd
    rcases hd with rfl | rfl | rfl | rfl <;> simp [targetCell] at t1 t2 t3 t4 ⊢ <;> omega
  refine ⟨hm, ?_, ?_, ?_, ?_⟩
  · rw [hm]; exact hasShape_swapCells hshape _ _ _ _
  · rw [hm]
    simp only
    rw [cell_swapCells _ _ _ _ _ _ _ hr hc hr' hc']
    simp [hblank.2.2.1]
  · rw [hm]
    simp only
    rw [cell_swapCells _ _ _ _ _ _ _ hr hc hr' hc', if_neg hne]
    simp
  · intro i j h1 h2
    rw [hm]
    simp only
    rw [cell_swapCells _ _ _ _ _ _ _ hr hc hr' hc', if_neg (by omega), if_neg h1]

/-- C8. Successful moves: on a rectangular board, `move(d)` returns true exactly
when `d` is one of L, R, U, D and the cell next to the first blank (in row-major
order) in direction `d` lies inside the grid; in that case the board keeps its
shape, the target cell holds 0, the tile that was at the target cell is where
the blank was, and every other cell is unchanged. -/
theorem C8_successful_moves (b : Board) (rows cols : Nat) (d : Char)
    (hshape : b.hasShape rows cols) :
    ((b.move d).2 = true ↔
      d ∈ directions ∧ ∃ r c, firstAt b.state 0 r c ∧ insideGrid rows cols (targetCell d r c)) ∧
    ∀ r c, firstAt b.state 0 r c → d ∈ directions → insideGrid rows cols (targetCell d r c) →
      (b.move d).2 = true ∧ (b.move d).1.hasShape rows cols ∧
      cell (b.move d).1.state (targetCell d r c).1.toNat (targetCell d r c).2.toNat = 0 ∧
      cell (b.move d).1.state r c =
        cell b.state (targetCell d r c).1.toNat (targetCell d r c).2.toNat ∧
      ∀ i j, ¬ (i = r ∧ j = c) →
        ¬ ((i : Int) = (targetCell d r c).1 ∧ (j : Int) = (targetCell d r c).2) →
        cell (b.move d).1.state i j = cell b.state i j := by
  constructor
  · constructor
    · intro h
      by_cases hd : d ∈ directions
      · refine ⟨hd, ?_⟩
        rcases findTilePosition_cases b 0 with ⟨hn, _⟩ | ⟨r, c, hf, _⟩
        · rw [move_of_no_blank hn] at h; simp at h
        · refine ⟨r, c, hf, ?_⟩
          by_contra hin
          rw [move_eq hshape hf hd, if_neg hin] at h
          simp at h
      · rw [move_of_not_direction hd] at h; simp at h
    · rintro ⟨hd, r, c, hf, hin⟩
      rw [(move_effect hshape hf hd hin).1]
  · intro r c hf hd hin
    obtain ⟨h1, h2, h3, h4, h5⟩ := move_effect hshape hf hd hin
    exact ⟨by rw [h1], h2, h3, h4, h5⟩

theorem C8_successful_moves_witness :
    ((Board.mk [[1, 2, 3], [4, 0, 5], [6, 7, 8]]).move 'U').2 = true ∧
    cell ((Board.mk [[1, 2, 3], [4, 0, 5], [6, 7, 8]]).move 'U').1.state 0 1 = 0 ∧
    cell ((Board.mk [[1, 2, 3], [4, 0, 5], [6, 7, 8]]).move 'U').1.state 1 1 = 2 :=
  have h := (C8_successful_moves ⟨[[1, 2, 3], [4, 0, 5], [6, 7, 8]]⟩ 3 3 'U' (by decide)).2 1 1
    (by decide) (by decide) (by decide)
  ⟨h.1, h.2.2.1, h.2.2.2.1⟩

/-- C7 (as amended). Rejected moves: on a rectangular board whose first blank in
row-major order is at `(r, c)`, `move('L')` with `c = 0`, `move('R')` with
`c = cols - 1`, `move('U')` with `r = 0` and `move('D')` with `r = rows - 1`
each return false and leave the board unchanged. -/
theorem C7_rejected_moves (b : Board) (rows cols r c : Nat)
    (hshape : b.hasShape rows cols) (hblank : firstAt b.state 0 r c) :
    (c = 0 → b.move 'L' = (b, false)) ∧ (c = cols - 1 → b.move 'R' = (b, false)) ∧
    (r = 0 → b.move 'U' = (b, false)) ∧ (r = rows - 1 → b.move 'D' = (b, false)) := by
  have hrows : r < rows := hshape.1 ▸ hblank.1
  have hcols : c < cols := by
    have := ((hasShape_iff b rows cols).1 hshape).2 r hrows
    rw [← this]; exact hblank.2.1
  refine ⟨fun h => ?_, fun h => ?_, fun h => ?_, fun h => ?_⟩
  · rw [move_eq hshape hblank (by decide), if_neg]
    simp only [targetCell, insideGrid]; simp; omega
  · rw [move_eq hshape hblank (by decide), if_neg]
    simp only [targetCell, insideGrid]; simp; omega
  · rw [move_eq hshape hblank (by decide), if_neg]
    simp only [targetCell, insideGrid]; simp; omega
  · rw [move_eq hshape hblank (by decide), if_neg]
    simp only [targetCell, insideGrid]; simp; omega

theorem C7_rejected_moves_witness :
    (Board.mk [[1, 2, 3], [4, 5, 6], [0, 7, 8]]).move 'L' =
        (Board.mk [[1, 2, 3], [4, 5, 6], [0, 7, 8]], false) ∧
      (Board.mk [[1, 2, 3], [4, 5, 6], [0, 7, 8]]).move 'D' =
        (Board.mk [[1, 2, 3], [4, 5, 6], [0, 7, 8]], false) :=
  have h := C7_rejected_moves ⟨[[1, 2, 3], [4, 5, 6], [0, 7, 8]]⟩ 3 3 2 0 (by decide) (by decide)
  ⟨h.1 rfl, h.2.2.2 rfl⟩

/-- C7 as stated fails: the 2×2 grid `[[0,1],[2,0]]` is rectangular and holds a
blank at `(1, 1)`, in the last column and the last row, yet `move('R')` and
`move('D')` return true and change the grid, because the blank that
`findTilePosition(0)` returns is the first one, at `(0, 0)`. -/
theorem C7_counterexample :
    (Board.mk [[0, 1], [2, 0]]).hasShape 2 2 ∧ cell (Board.mk [[0, 1], [2, 0]]).state 1 1 = 0 ∧
      1 = 2 - 1 ∧
      (Board.mk [[0, 1], [2, 0]]).move 'R' = (Board.mk [[1, 0], [2, 0]], true) ∧
      (Board.mk [[0, 1], [2, 0]]).move 'D' = (Board.mk [[2, 1], [0, 0]], true) := by
  decide

/-! ## The heuristics as sums over the grid -/

theorem foldl_range_add (f : Nat → Int) (n : Nat) (a : Int) :
    (List.range n).foldl (fun acc i => acc + f i) a = a + ∑ i in Finset.range n, f i := by
  induction n with
  | zero => simp
  | succ n ih =>
    rw [List.range_succ, List.foldl_append, ih, Finset.sum_range_succ]
    simp [add_assoc]

theorem h1_eq_sum (cur goal : Board) :
    h1 cur goal = ∑ i in Finset.range cur.state.length,
      ∑ j in Finset.range (cur.state.getD i []).length,
        misplacedAt goal (cell cur.state i j) i j := by
  unfold h1
  simp only [Board.getState]
  have inner : ∀ (i : Nat) (n : Nat) (a : Int),
      (List.range n).foldl (fun misplacedTiles j =>
        if cell cur.state i j ≠ cell goal.state i j ∧ cell cur.state i j ≠ 0 then
          misplacedTiles + 1
        else misplacedTiles) a =
      a + ∑ j in Finset.range n, misplacedAt goal (cell cur.state i j) i j := by
    intro i n a
    rw [← foldl_range_add]
    congr 1
    funext acc j
    unfold misplacedAt
    simp only [Board.getState]
    split <;> simp
  simp only [inner]
  rw [foldl_range_add]
  simp

theorem h2_eq_sum (cur goal : Board) :
    h2 cur goal = ∑ i in Finset.range cur.state.length,
      ∑ j in Finset.range (cur.state.getD i []).length,
        distanceAt goal (cell cur.state i j) i j := by
  unfold h2
  simp only [Board.getState]
  have inner : ∀ (i : Nat) (n : Nat) (a : Int),
      (List.range n).foldl (fun manhattanDistance j =>
        if cell cur.state i j ≠ 0 then
          manhattanDistance +
            ((((i : Int) - (goal.findTilePosition (cell cur.state i j)).1).natAbs : Int) +
              (((j : Int) - (goal.findTilePosition (cell cur.state i j)).2).natAbs : Int))
        else manhattanDistance) a =
      a + ∑ j in Finset.range n, distanceAt goal (cell cur.state i j) i j := by
    intro i n a
    rw [← foldl_range_add]
    congr 1
    funext acc j
    unfold distanceAt
    split <;> simp
  simp only [inner]
  rw [foldl_range_add]
  simp

theorem sum_rows_eq_gridSum (F : Int → Nat → Nat → Int) {b : Board} {rows cols : Nat}
    (h : b.hasShape rows cols) :
    (∑ i in Finset.range b.state.length, ∑ j in Finset.range (b.state.getD i []).length,
      F (cell b.state i j) i j) = gridSum F b.state rows cols := by
  obtain ⟨h1, h2⟩ := (hasShape_iff b rows cols).1 h
  unfold gridSum
  rw [Finset.sum_product, h1]
  apply Finset.sum_congr rfl
  intro i hi
  rw [h2 i (Finset.mem_range.1 hi)]

theorem h1_eq_gridSum {cur : Board} (goal : Board) {rows cols : Nat} (h : cur.hasShape rows cols) :
    h1 cur goal = gridSum (misplacedAt goal) cur.state rows cols := by
  rw [h1_eq_sum, sum_rows_eq_gridSum (misplacedAt goal) h]

theorem h2_eq_gridSum {cur : Board} (goal : Board) {rows cols : Nat} (h : cur.hasShape rows cols) :
    h2 cur goal = gridSum (distanceAt goal) cur.state rows cols := by
  rw [h2_eq_sum, sum_rows_eq_gridSum (distanceAt goal) h]

/-- Effect of swapping the blank at `(r1, c1)` with the cell `(r2, c2)` on a sum
of per-cell contributions in which the blank counts for nothing. -/
theorem gridSum_swapCells (F : Int → Nat → Nat → Int) (hF : ∀ i j, F 0 i j = 0)
    {s : List (List Int)} {rows cols r1 c1 r2 c2 : Nat}
    (hlen : s.length = rows) (hrow : ∀ i, i < rows → (s.getD i []).length = cols)
    (h1 : r1 < rows) (h1' : c1 < cols) (h2 : r2 < rows) (h2' : c2 < cols)
    (hne : ¬ (r1 = r2 ∧ c1 = c2)) (hblank : cell s r1 c1 = 0) :
    gridSum F (swapCells s r1 c1 r2 c2) rows cols =
      gridSum F s rows cols + F (cell s r2 c2) r1 c1 - F (cell s r2 c2) r2 c2 := by
  have hcell : ∀ k l, cell (swapCells s r1 c1 r2 c2) k l =
      if k = r2 ∧ l = c2 then cell s r1 c1
      else if k = r1 ∧ l = c1 then cell s r2 c2 else cell s k l := fun k l =>
    cell_swapCells s r1 c1 r2 c2 k l (hlen ▸ h1) (by rw [hrow r1 h1]; exact h1')
      (hlen ▸ h2) (by rw [hrow r2 h2]; exact h2')
  have key : gridSum F (swapCells s r1 c1 r2 c2) rows cols - gridSum F s rows cols =
      F (cell s r2 c2) r1 c1 - F (cell s r2 c2) r2 c2 := by
    unfold gridSum
    rw [← Finset.sum_sub_distrib]
    rw [Finset.sum_eq_add (r1, c1) (r2, c2)]
    · simp only [hcell]
      rw [if_neg hne]
      simp [hblank, hF]
      ring
    · intro h
      exact hne ⟨congrArg Prod.fst h, congrArg Prod.snd h⟩
    · rintro ⟨k, l⟩ _ ⟨hk1, hk2⟩
      simp only [hcell]
      rw [if_neg, if_neg]
      · simp
      · rintro ⟨rfl, rfl⟩; exact hk1 rfl
      · rintro ⟨rfl, rfl⟩; exact hk2 rfl
    · intro h; exact absurd (Finset.mem_product.2 ⟨Finset.mem_range.2 h1, Finset.mem_range.2 h1'⟩) h
    · intro h; exact absurd (Finset.mem_product.2 ⟨Finset.mem_range.2 h2, Finset.mem_range.2 h2'⟩) h
  linarith

/-! ## Consistency of the heuristics -/

/-- A successful move on a rectangular grid swaps the blank with a neighbouring cell. -/
theorem move_swap {b b' : Board} {rows cols : Nat} {d : Char} (hshape : b.hasShape rows cols)
    (hm : b.move d = (b', true)) :
    ∃ r c r' c', r < rows ∧ c < cols ∧ r' < rows ∧ c' < cols ∧ cell b.state r c = 0 ∧
      ((r = r' ∧ (c = c' + 1 ∨ c' = c + 1)) ∨ (c = c' ∧ (r = r' + 1 ∨ r' = r + 1))) ∧
      b'.state = swapCells b.state r c r' c' ∧ b'.hasShape rows cols := by
  have hd : d ∈ directions := by
    by_contra hd
    rw [move_of_not_direction hd] at hm
    simp at hm
  rcases findTilePosition_cases b 0 with ⟨hn, _⟩ | ⟨r, c, hf, _⟩
  · rw [move_of_no_blank hn] at hm; simp at hm
  · have hin : insideGrid rows cols (targetCell d r c) := by
      by_contra hin
      rw [move_eq hshape hf hd, if_neg hin] at hm
      simp at hm
    obtain ⟨e1, e2, _⟩ := move_effect hshape hf hd hin
    rw [hm] at e1 e2
    have hb' : b' = ⟨swapCells b.state r c (targetCell d r c).1.toNat (targetCell d r c).2.toNat⟩ :=
      congrArg Prod.fst e1
    have hrows : r < rows := hshape.1 ▸ hf.1
    have hcols : c < cols := by
      have := ((hasShape_iff b rows cols).1 hshape).2 r hrows
      rw [← this]; exact hf.2.1
    obtain ⟨t1, t2, t3, t4⟩ := hin
    refine ⟨r, c, (targetCell d r c).1.toNat, (targetCell d r c).2.toNat, hrows, hcols,
      by omega, by omega, hf.2.2.1, ?_, by rw [hb'], e2⟩
    rw [mem_directions] at hd
    rcases hd with rfl | rfl | rfl | rfl <;> simp [targetCell] at t1 t2 t3 t4 ⊢ <;> omega

theorem misplacedAt_zero (goal : Board) (i j : Nat) : misplacedAt goal 0 i j = 0 := by
  simp [misplacedAt]

theorem distanceAt_zero (goal : Board) (i j : Nat) : distanceAt goal 0 i j = 0 := by
  simp [distanceAt]

theorem misplacedAt_range (goal : Board) (v : Int) (i j : Nat) :
    0 ≤ misplacedAt goal v i j ∧ misplacedAt goal v i j ≤ 1 := by
  unfold misplacedAt
  split <;> simp

/-- One move changes `h1` by at most one. -/
theorem h1_move {b b' : Board} (goal : Board) {rows cols : Nat} {d : Char}
    (hshape : b.hasShape rows cols) (hm : b.move d = (b', true)) :
    h1 b goal ≤ h1 b' goal + 1 ∧ h1 b' goal ≤ h1 b goal + 1 := by
  obtain ⟨r, c, r', c', hr, hc, hr', hc', h0, hadj, hs, hshape'⟩ := move_swap hshape hm
  obtain ⟨hl, hrow⟩ := (hasShape_iff b rows cols).1 hshape
  rw [h1_eq_gridSum goal hshape, h1_eq_gridSum goal hshape', hs,
    gridSum_swapCells _ (misplacedAt_zero goal) hl hrow hr hc hr' hc' (by omega) h0]
  have a1 := misplacedAt_range goal (cell b.state r' c') r c
  have a2 := misplacedAt_range goal (cell b.state r' c') r' c'
  constructor <;> omega

theorem distanceAt_adjacent (goal : Board) (v : Int) {r c r' c' : Nat}
    (hadj : (r = r' ∧ (c = c' + 1 ∨ c' = c + 1)) ∨ (c = c' ∧ (r = r' + 1 ∨ r' = r + 1))) :
    distanceAt goal v r c ≤ distanceAt goal v r' c' + 1 ∧
      distanceAt goal v r' c' ≤ distanceAt goal v r c + 1 := by
  unfold distanceAt
  split
  · generalize (goal.findTilePosition v).1 = x
    generalize (goal.findTilePosition v).2 = y
    rcases hadj with ⟨rfl, rfl | rfl⟩ | ⟨rfl, rfl | rfl⟩ <;> constructor <;> omega
  · simp

/-- One move changes `h2` by at most one. -/
theorem h2_move {b b' : Board} (goal : Board) {rows cols : Nat} {d : Char}
    (hshape : b.hasShape rows cols) (hm : b.move d = (b', true)) :
    h2 b goal ≤ h2 b' goal + 1 ∧ h2 b' goal ≤ h2 b goal + 1 := by
  obtain ⟨r, c, r', c', hr, hc, hr', hc', h0, hadj, hs, hshape'⟩ := move_swap hshape hm
  obtain ⟨hl, hrow⟩ := (hasShape_iff b rows cols).1 hshape
  rw [h2_eq_gridSum goal hshape, h2_eq_gridSum goal hshape', hs,
    gridSum_swapCells _ (distanceAt_zero goal) hl hrow hr hc hr' hc' (by omega) h0]
  have a1 := distanceAt_adjacent goal (cell b.state r' c') hadj
  constructor <;> omega

/-- Both heuristics are consistent: one move changes the estimate by at most one. -/
theorem calculateHeuristic_move (p : Puzzle) {b b' : Board} {rows cols : Nat} {d : Char}
    (hshape : b.hasShape rows cols) (hm : b.move d = (b', true)) :
    p.calculateHeuristic b ≤ p.calculateHeuristic b' + 1 ∧
      p.calculateHeuristic b' ≤ p.calculateHeuristic b + 1 := by
  unfold Puzzle.calculateHeuristic
  split
  · exact h1_move _ hshape hm
  · exact h2_move _ hshape hm

/-! ## Admissibility and dominance -/

theorem applyMoves_cons {b g : Board} {d : Char} {ds : List Char} :
    applyMoves b (d :: ds) = some g ↔
      ∃ b', b.move d = (b', true) ∧ applyMoves b' ds = some g := by
  simp only [applyMoves]
  constructor
  · intro h
    split at h
    · rename_i hc
      exact ⟨(b.move d).1, Prod.ext rfl hc.2, h⟩
    · simp at h
  · rintro ⟨b', hm, h⟩
    have hd : d ∈ directions := by
      by_contra hd
      rw [move_of_not_direction hd] at hm
      simp at hm
    rw [if_pos ⟨hd, by rw [hm]⟩, hm]
    exact h

theorem hasShape_move {b b' : Board} {rows cols : Nat} {d : Char} (hshape : b.hasShape rows cols)
    (hm : b.move d = (b', true)) : b'.hasShape rows cols := by
  obtain ⟨_, _, _, _, _, _, _, _, _, _, _, h⟩ := move_swap hshape hm
  exact h

theorem hasShape_applyMoves {b g : Board} {rows cols : Nat} {ds : List Char}
    (hshape : b.hasShape rows cols) (h : applyMoves b ds = some g) : g.hasShape rows cols := by
  induction ds generalizing b with
  | nil => simp [applyMoves] at h; subst h; exact hshape
  | cons d ds ih =>
    obtain ⟨b', hm, h'⟩ := applyMoves_cons.1 h
    exact ih (hasShape_move hshape hm) h'

/-- Along a sequence of moves the estimate drops by at most the number of moves. -/
theorem calculateHeuristic_applyMoves (p : Puzzle) {b g : Board} {rows cols : Nat}
    {ds : List Char} (hshape : b.hasShape rows cols) (h : applyMoves b ds = some g) :
    p.calculateHeuristic b ≤ p.calculateHeuristic g + ds.length := by
  induction ds generalizing b with
  | nil => simp [applyMoves] at h; subst h; simp
  | cons d ds ih =>
    obtain ⟨b', hm, h'⟩ := applyMoves_cons.1 h
    have h1 := (calculateHeuristic_move p hshape hm).1
    have h2 := ih (hasShape_move hshape hm) h'
    simp only [List.length_cons]
    push_cast
    omega

theorem h1_self (goal : Board) : h1 goal goal = 0 := by
  rw [h1_eq_sum]
  simp [misplacedAt, Board.getState]

theorem firstAt_of_nodup {s : List (List Int)} (hnd : s.flatten.Nodup) {i j : Nat}
    (hi : i < s.length) (hj : j < (s.getD i []).length) : firstAt s (cell s i j) i j := by
  refine ⟨hi, hj, rfl, ?_⟩
  intro i' hi' j' hj' hc
  rw [List.nodup_flatten] at hnd
  obtain ⟨hrows, hpair⟩ := hnd
  rw [List.getD_eq_getElem _ _ hi] at hj
  rw [List.getD_eq_getElem _ _ hi'] at hj'
  have e1 : cell s i j = s[i][j] := by
    simp only [cell]
    rw [List.getD_eq_getElem _ _ hi, List.getD_eq_getElem _ _ hj]
  have e2 : cell s i' j' = s[i'][j'] := by
    simp only [cell]
    rw [List.getD_eq_getElem _ _ hi', List.getD_eq_getElem _ _ hj']
  rw [e1, e2] at hc
  have hii : i = i' := by
    by_contra hne
    rw [List.pairwise_iff_getElem] at hpair
    rcases Nat.lt_or_gt_of_ne hne with hlt | hgt
    · exact hpair i i' hi hi' hlt (List.getElem_mem hj) (hc ▸ List.getElem_mem hj')
    · exact hpair i' i hi' hi hgt (hc ▸ List.getElem_mem hj') (List.getElem_mem hj)
  subst hii
  right
  refine ⟨rfl, ?_⟩
  have := (List.Nodup.getElem_inj_iff (hrows _ (List.getElem_mem hi))).1 hc
  omega

theorem nodup_of_valid {b : Board} {n : Nat} (h : b.valid n) : b.state.flatten.Nodup := by
  rw [h.2.nodup_iff]
  apply List.Nodup.map
  · intro a b hab
    exact Int.ofNat.inj hab
  · exact List.nodup_range _

theorem h2_self {goal : Board} (hnd : goal.state.flatten.Nodup) : h2 goal goal = 0 := by
  rw [h2_eq_sum]
  apply Finset.sum_eq_zero
  intro i hi
  apply Finset.sum_eq_zero
  intro j hj
  have hf := firstAt_of_nodup hnd (Finset.mem_range.1 hi) (Finset.mem_range.1 hj)
  unfold distanceAt
  split
  · rw [findTilePosition_of_firstAt hf]
    simp
  · rfl

/-- Each cell contributes to `h2` at least what it contributes to `h1`. -/
theorem misplacedAt_le_distanceAt (goal : Board) (v : Int) (i j : Nat) :
    misplacedAt goal v i j ≤ distanceAt goal v i j := by
  unfold misplacedAt distanceAt
  by_cases hv : v = 0
  · simp [hv]
  · rw [if_pos hv]
    split
    · rename_i hmis
      rcases findTilePosition_cases goal v with ⟨hn, _⟩ | ⟨r, c, hf, he⟩
      · rw [hn]
        dsimp only
        omega
      · rw [he]
        have hne : ¬ (r = i ∧ c = j) := by
          rintro ⟨rfl, rfl⟩
          exact hmis.1 hf.2.2.1.symm
        simp only
        omega
    · omega

theorem h1_le_h2 (cur goal : Board) : h1 cur goal ≤ h2 cur goal := by
  rw [h1_eq_sum, h2_eq_sum]
  apply Finset.sum_le_sum
  intro i _
  apply Finset.sum_le_sum
  intro j _
  exact misplacedAt_le_distanceAt goal _ i j

/-- C9. Admissibility: for valid boards `B` and `goal` of the same shape and
every sequence of `k` successful moves that turns `B` into `goal`, both
`h1(B, goal)` and `h2(B, goal)` are at most `k`. -/
theorem C9_admissibility (n : Nat) (B goal : Board) (ds : List Char)
    (hB : B.valid n) (hgoal : goal.valid n) (hpath : applyMoves B ds = some goal) :
    h1 B goal ≤ ds.length ∧ h2 B goal ≤ ds.length := by
  constructor
  · have := calculateHeuristic_applyMoves ⟨[], [], B, goal, 1⟩ hB.1 hpath
    simpa [Puzzle.calculateHeuristic, h1_self] using this
  · have := calculateHeuristic_applyMoves ⟨[], [], B, goal, 2⟩ hB.1 hpath
    simpa [Puzzle.calculateHeuristic, h2_self (nodup_of_valid hgoal)] using this

theorem C9_admissibility_witness :
    h1 ⟨[[1, 2, 3], [4, 0, 6], [7, 5, 8]]⟩ ⟨[[1, 2, 3], [4, 5, 6], [7, 8, 0]]⟩ ≤
        (['D', 'R'] : List Char).length ∧
      h2 ⟨[[1, 2, 3], [4, 0, 6], [7, 5, 8]]⟩ ⟨[[1, 2, 3], [4, 5, 6], [7, 8, 0]]⟩ ≤
        (['D', 'R'] : List Char).length :=
  C9_admissibility 3 ⟨[[1, 2, 3], [4, 0, 6], [7, 5, 8]]⟩ ⟨[[1, 2, 3], [4, 5, 6], [7, 8, 0]]⟩
    ['D', 'R'] (by decide) (by decide) (by decide)

/-- C10. Dominance: for valid boards `B` and `goal` of the same shape,
`h2(B, goal) ≥ h1(B, goal)`. -/
theorem C10_dominance (n : Nat) (B goal : Board) (_hB : B.valid n) (_hgoal : goal.valid n) :
    h2 B goal ≥ h1 B goal :=
  h1_le_h2 B goal

theorem C10_dominance_witness :
    h2 ⟨[[8, 6, 7], [2, 5, 4], [3, 0, 1]]⟩ ⟨[[1, 2, 3], [4, 5, 6], [7, 8, 0]]⟩ ≥
      h1 ⟨[[8, 6, 7], [2, 5, 4], [3, 0, 1]]⟩ ⟨[[1, 2, 3], [4, 5, 6], [7, 8, 0]]⟩ :=
  C10_dominance 3 ⟨[[8, 6, 7], [2, 5, 4], [3, 0, 1]]⟩ ⟨[[1, 2, 3], [4, 5, 6], [7, 8, 0]]⟩
    (by decide) (by decide)

/-! ## The loop of `Puzzle::solve` -/

theorem board_ext {a b : Board} (h : a.state = b.state) : a = b := by
  cases a; cases b; simp_all

theorem expandDir_eq (n : Node) (p : Puzzle) (d : Char) :
    Puzzle.expandDir n p d =
      { p with frontierList := p.frontierList ++ (p.successorNode n d).toList } := by
  unfold Puzzle.expandDir Puzzle.successorNode
  split <;> rename_i h <;> simp [h, Puzzle.addToFrontier]

theorem successorNode_congr (p q : Puzzle) (hg : q.goalState = p.goalState)
    (ho : q.heuristicOption = p.heuristicOption) (n : Node) (d : Char) :
    q.successorNode n d = p.successorNode n d := by
  unfold Puzzle.successorNode Puzzle.calculateHeuristic
  rw [hg, ho]

theorem foldl_expandDir (n : Node) (ds : List Char) (p : Puzzle) :
    ds.foldl (Puzzle.expandDir n) p =
      { p with frontierList := p.frontierList ++ ds.flatMap (fun d => (p.successorNode n d).toList) } := by
  induction ds generalizing p with
  | nil => simp
  | cons d ds ih =>
    rw [List.foldl_cons, ih, expandDir_eq]
    have : ∀ d', Puzzle.successorNode
        { p with frontierList := p.frontierList ++ (p.successorNode n d).toList } n d' =
        p.successorNode n d' := fun d' => successorNode_congr _ _ rfl rfl n d'
    simp [this]

/-- `Puzzle::expand` appends the successor nodes of the successful moves to the
frontier and changes nothing else. -/
theorem expand_eq (p : Puzzle) (n : Node) :
    p.expand n =
      { p with frontierList :=
          p.frontierList ++ directions.flatMap (fun d => (p.successorNode n d).toList) } := by
  unfold Puzzle.expand
  exact foldl_expandDir n _ p

theorem mem_successors {p : Puzzle} {n m : Node} :
    m ∈ directions.flatMap (fun d => (p.successorNode n d).toList) ↔
      ∃ d b', d ∈ directions ∧ n.getBoard.move d = (b', true) ∧
        m = Node.mk b' (p.calculateHeuristic b') (n.getPathCost + 1) (some n) d := by
  simp only [List.mem_flatMap, Option.mem_toList, Option.mem_def]
  constructor
  · rintro ⟨d, hd, h⟩
    unfold Puzzle.successorNode at h
    split at h
    · rename_i b' hm
      exact ⟨d, b', hd, hm, by simpa using h.symm⟩
    · simp at h
  · rintro ⟨d, b', hd, hm, rfl⟩
    exact ⟨d, hd, by simp [Puzzle.successorNode, hm]⟩

/-- The three ways an iteration of the loop of `solve` can go. -/
theorem iterate_cases {p : Puzzle} {i : Nat} {n : Node} (hn : p.frontierList[i]? = some n) :
    (n.getBoard ∈ p.uniqueSet ∧
      p.iterate i = some (.next { p with frontierList := p.frontierList.eraseIdx i })) ∨
    (n.getBoard ∉ p.uniqueSet ∧ n.getBoard = p.goalState ∧ p.iterate i = some (.found n)) ∨
    (n.getBoard ∉ p.uniqueSet ∧ n.getBoard ≠ p.goalState ∧
      p.iterate i = some (.next
        { p with
          frontierList := p.frontierList.eraseIdx i ++
            directions.flatMap (fun d => (p.successorNode n d).toList)
          uniqueSet := n.getBoard :: p.uniqueSet })) := by
  unfold Puzzle.iterate
  rw [hn]
  simp only
  by_cases hv : n.getBoard ∈ p.uniqueSet
  · left; simp [hv]
  · right
    by_cases hg : n.getBoard = p.goalState
    · left
      refine ⟨hv, hg, ?_⟩
      rw [if_neg hv]
      simp [Board.isGoalState, Board.getState, hg]
    · right
      refine ⟨hv, hg, ?_⟩
      have hg' : ¬ n.getBoard.state = p.goalState.state := fun h => hg (board_ext h)
      simp only [if_neg hv, Board.isGoalState, Board.getState, hg', decide_False]
      rw [expand_eq]
      simp
      apply List.flatMap_congr
      intro d _
      exact congrArg Option.toList (successorNode_congr p _ rfl rfl n d)

theorem applyMoves_append {b : Board} (ds1 ds2 : List Char) :
    applyMoves b (ds1 ++ ds2) = (applyMoves b ds1).bind (fun b' => applyMoves b' ds2) := by
  induction ds1 generalizing b with
  | nil => simp [applyMoves]
  | cons d ds ih =>
    simp only [List.cons_append, applyMoves]
    split
    · exact ih
    · simp

theorem applyMoves_snoc {b g : Board} {ds : List Char} {d : Char} :
    applyMoves b (ds ++ [d]) = some g ↔
      ∃ b', applyMoves b ds = some b' ∧ b'.move d = (g, true) := by
  rw [applyMoves_append]
  constructor
  · intro h
    cases h1 : applyMoves b ds with
    | none => simp [h1] at h
    | some b' =>
      rw [h1] at h
      simp only [Option.some_bind] at h
      obtain ⟨b2, hm, h2⟩ := applyMoves_cons.1 h
      simp [applyMoves] at h2
      subst h2
      exact ⟨b', rfl, hm⟩
  · rintro ⟨b', h1, hm⟩
    rw [h1]
    simp only [Option.some_bind]
    exact applyMoves_cons.2 ⟨g, hm, by simp [applyMoves]⟩

/-- A legal parent chain gives a move sequence from `init` to the node's board
whose length is the node's path cost. -/
theorem legalChain_path (init : Board) :
    (n : Node) → n.legalChain init →
      ∃ ds, (ds.length : Int) = n.getPathCost ∧ applyMoves init ds = some n.getBoard
  | .mk board _ g none d, h => by
    simp only [Node.legalChain] at h
    obtain ⟨rfl, rfl, _⟩ := h
    exact ⟨[], by simp [Node.getPathCost], by simp [applyMoves, Node.getBoard]⟩
  | .mk board _ g (some p) d, h => by
    simp only [Node.legalChain] at h
    obtain ⟨_, hm, hg, hp⟩ := h
    obtain ⟨ds, hl, hds⟩ := legalChain_path init p hp
    refine ⟨ds ++ [d], ?_, ?_⟩
    · show (((ds ++ [d]).length : Nat) : Int) = g
      rw [hg, ← hl]
      simp
    · exact applyMoves_snoc.2 ⟨_, hds, hm⟩

/-- On a path from `init` to a board that is not visited, some board that is not
visited has a frontier node whose path cost is at most its position on the path. -/
theorem frontier_on_path {init goal : Board} {option : Int} {rows cols : Nat} {p : Puzzle}
    (hinv : SearchInv init goal option rows cols p) :
    ∀ (ds : List Char) (b : Board), applyMoves init ds = some b → b ∉ p.uniqueSet →
      ∃ m ∈ p.frontierList, ∃ ds1 ds2, ds = ds1 ++ ds2 ∧
        applyMoves init ds1 = some m.getBoard ∧ applyMoves m.getBoard ds2 = some b ∧
        m.getPathCost ≤ (ds1.length : Int) := by
  intro ds
  induction ds using List.reverseRecOn with
  | nil =>
    intro b hb hv
    simp [applyMoves] at hb
    subst hb
    obtain ⟨m, hm, hmb, hmg⟩ := hinv.root hv
    exact ⟨m, hm, [], [], rfl, by simp [applyMoves, hmb], by simp [applyMoves, hmb], by simp [hmg]⟩
  | append_singleton ds d ih =>
    intro b hb hv
    obtain ⟨b0, h0, hm0⟩ := applyMoves_snoc.1 hb
    by_cases hv0 : b0 ∈ p.uniqueSet
    · obtain ⟨m, hm, hmb, hmg⟩ := hinv.closed b0 hv0 ds h0 d b hm0 hv
      refine ⟨m, hm, ds ++ [d], [], by simp, by rw [hmb]; exact hb, by simp [applyMoves, hmb], ?_⟩
      simpa using hmg
    · obtain ⟨m, hm, ds1, ds2, rfl, h1, h2, h3⟩ := ih b0 h0 hv0
      refine ⟨m, hm, ds1, ds2 ++ [d], by simp, h1, ?_, h3⟩
      exact applyMoves_snoc.2 ⟨b0, h2, hm0⟩

theorem isTop_spec {frontier : List Node} {i : Nat} (h : isTop frontier i = true) :
    ∃ n, frontier[i]? = some n ∧ ∀ m ∈ frontier,
      n.getHeuristic + n.getPathCost ≤ m.getHeuristic + m.getPathCost := by
  unfold isTop at h
  split at h
  · simp at h
  · rename_i n hn
    refine ⟨n, hn, fun m hm => ?_⟩
    rw [List.all_eq_true] at h
    have := h m hm
    simp [CompareNode, Node.lt] at this
    exact this

/-- The node taken from the frontier, when its board is not visited yet, has the
least path cost of all move sequences from `init` to its board. -/
theorem top_pathCost_le {init goal : Board} {option : Int} {rows cols : Nat} {p : Puzzle}
    (hinv : SearchInv init goal option rows cols p) {i : Nat} {n : Node}
    (htop : isTop p.frontierList i = true) (hn : p.frontierList[i]? = some n)
    (hv : n.getBoard ∉ p.uniqueSet) (ds : List Char)
    (hds : applyMoves init ds = some n.getBoard) : n.getPathCost ≤ (ds.length : Int) := by
  obtain ⟨n', hn', hmin⟩ := isTop_spec htop
  rw [hn] at hn'
  obtain rfl : n = n' := by simpa using hn'
  obtain ⟨m, hm, ds1, ds2, rfl, h1, h2, h3⟩ := frontier_on_path hinv ds n.getBoard hds hv
  have hf := hmin m hm
  have hnmem : n ∈ p.frontierList := List.getElem?_mem hn
  rw [(hinv.nodes n hnmem).2, (hinv.nodes m hm).2] at hf
  have hshape := hasShape_applyMoves hinv.shape h1
  have hcons := calculateHeuristic_applyMoves p hshape h2
  simp only [List.length_append]
  push_cast
  omega

/-! ## The invariant of the search -/

theorem mem_eraseIdx_of_board {frontier : List Node} {i : Nat} {n m : Node}
    (hn : frontier[i]? = some n) (hm : m ∈ frontier) (hne : m.getBoard ≠ n.getBoard) :
    m ∈ frontier.eraseIdx i := by
  rw [List.mem_eraseIdx_iff_getElem?]
  obtain ⟨k, hk⟩ := List.mem_iff_getElem?.1 hm
  refine ⟨k, ?_, hk⟩
  rintro rfl
  rw [hn] at hk
  exact hne (by simp at hk; rw [hk])

theorem searchInv_new (init goal : Board) (option : Int) {rows cols : Nat}
    (hshape : init.hasShape rows cols) :
    SearchInv init goal option rows cols (Puzzle.new init goal option) where
  goalState := rfl
  heuristicOption := rfl
  shape := hshape
  nodes := by
    intro n hn
    simp [Puzzle.new, Puzzle.addToFrontier] at hn
    subst hn
    exact ⟨⟨rfl, rfl, rfl⟩, rfl⟩
  root := by
    intro _
    exact ⟨Node.mk init ((Puzzle.new init goal option).calculateHeuristic init) 0 none '0',
      by simp [Puzzle.new, Puzzle.addToFrontier, Puzzle.calculateHeuristic], rfl, rfl⟩
  closed := by
    intro b hb
    simp [Puzzle.new, Puzzle.addToFrontier] at hb
  goalOpen := by simp [Puzzle.new, Puzzle.addToFrontier]
  visited := by
    intro b hb
    simp [Puzzle.new, Puzzle.addToFrontier] at hb

/-- An iteration that returns to the loop condition keeps the invariant. -/
theorem searchInv_next {init goal : Board} {option : Int} {rows cols : Nat} {p q : Puzzle}
    (hinv : SearchInv init goal option rows cols p) {i : Nat}
    (htop : isTop p.frontierList i = true) (hit : p.iterate i = some (.next q)) :
    SearchInv init goal option rows cols q := by
  obtain ⟨n, hn, _⟩ := isTop_spec htop
  have hnmem : n ∈ p.frontierList := List.getElem?_mem hn
  rcases iterate_cases hn with ⟨hv, he⟩ | ⟨_, _, he⟩ | ⟨hv, hg, he⟩
  · rw [he] at hit
    obtain rfl : _ = q := by simpa using hit
    refine ⟨hinv.goalState, hinv.heuristicOption, hinv.shape, ?_, ?_, ?_, hinv.goalOpen,
      hinv.visited⟩
    · intro m hm
      exact hinv.nodes m (List.mem_of_mem_eraseIdx hm)
    · intro h0
      obtain ⟨m, hm, hmb, hmg⟩ := hinv.root h0
      refine ⟨m, mem_eraseIdx_of_board hn hm ?_, hmb, hmg⟩
      rintro e
      exact h0 (by rw [← hmb, e]; exact hv)
    · intro b hb ds hds d b' hmv hb'
      obtain ⟨m, hm, hmb, hmg⟩ := hinv.closed b hb ds hds d b' hmv hb'
      refine ⟨m, mem_eraseIdx_of_board hn hm ?_, hmb, hmg⟩
      rintro e
      exact hb' (by rw [← hmb, e]; exact hv)
  · rw [he] at hit
    simp at hit
  · rw [he] at hit
    obtain rfl : _ = q := by simpa using hit
    have hgoal := hinv.goalState
    refine ⟨hinv.goalState, hinv.heuristicOption, hinv.shape, ?_, ?_, ?_, ?_, ?_⟩
    · intro m hm
      simp only [List.mem_append] at hm
      rcases hm with hm | hm
      · exact hinv.nodes m (List.mem_of_mem_eraseIdx hm)
      · obtain ⟨d, b', hd, hmv, rfl⟩ := mem_successors.1 hm
        exact ⟨⟨hd, hmv, rfl, (hinv.nodes n hnmem).1⟩, rfl⟩
    · intro h0
      simp only [List.mem_cons, not_or] at h0
      obtain ⟨m, hm, hmb, hmg⟩ := hinv.root h0.2
      refine ⟨m, List.mem_append_left _ (mem_eraseIdx_of_board hn hm ?_), hmb, hmg⟩
      rw [hmb]; exact h0.1
    · intro b hb ds hds d b' hmv hb'
      simp only [List.mem_cons, not_or] at hb'
      simp only [List.mem_cons] at hb
      rcases hb with rfl | hb
      · have hd : d ∈ directions := by
          by_contra hd
          rw [move_of_not_direction hd] at hmv
          simp at hmv
        refine ⟨Node.mk b' (p.calculateHeuristic b') (n.getPathCost + 1) (some n) d,
          List.mem_append_right _ (mem_successors.2 ⟨d, b', hd, hmv, rfl⟩), rfl, ?_⟩
        have := top_pathCost_le hinv htop hn hv ds hds
        show n.getPathCost + 1 ≤ (ds.length : Int) + 1
        omega
      · obtain ⟨m, hm, hmb, hmg⟩ := hinv.closed b hb ds hds d b' hmv hb'.2
        refine ⟨m, List.mem_append_left _ (mem_eraseIdx_of_board hn hm ?_), hmb, hmg⟩
        rw [hmb]; exact hb'.1
    · simp only [List.mem_cons, not_or]
      exact ⟨fun e => hg (by rw [hgoal, e]), hinv.goalOpen⟩
    · intro b hb
      simp only [List.mem_cons] at hb
      rcases hb with rfl | hb
      · obtain ⟨ds, _, hds⟩ := legalChain_path init n (hinv.nodes n hnmem).1
        exact ⟨ds, hds⟩
      · exact hinv.visited b hb

/-- The node of the goal branch: a legal chain from `init`, holding `goal`, at
the least path cost of all move sequences from `init` to `goal`. -/
theorem searchInv_found {init goal : Board} {option : Int} {rows cols : Nat} {p : Puzzle}
    (hinv : SearchInv init goal option rows cols p) {i : Nat} {n : Node}
    (htop : isTop p.frontierList i = true) (hit : p.iterate i = some (.found n)) :
    n.legalChain init ∧ n.getBoard = goal ∧
      ∀ ds, applyMoves init ds = some goal → n.getPathCost ≤ (ds.length : Int) := by
  obtain ⟨n', hn, _⟩ := isTop_spec htop
  have hnmem : n' ∈ p.frontierList := List.getElem?_mem hn
  rcases iterate_cases hn with ⟨_, he⟩ | ⟨hv, hg, he⟩ | ⟨_, _, he⟩
  · rw [he] at hit; simp at hit
  · rw [he] at hit
    obtain rfl : n' = n := by simpa using hit
    rw [hinv.goalState] at hg
    refine ⟨(hinv.nodes n' hnmem).1, hg, fun ds hds => ?_⟩
    exact top_pathCost_le hinv htop hn hv ds (hg ▸ hds)
  · rw [he] at hit; simp at hit

/-- What the end of a run says about the search: see `searchInv_found` for the
goal branch; the no-solution branch is taken only when no move sequence leads
from `init` to `goal`. -/
theorem run_spec {init goal : Board} {option : Int} {rows cols : Nat} {p : Puzzle}
    {r : SolveResult} (hinv : SearchInv init goal option rows cols p) (hrun : Run p r) :
    (∀ n, r = .found n → n.legalChain init ∧ n.getBoard = goal ∧
        ∀ ds, applyMoves init ds = some goal → n.getPathCost ≤ (ds.length : Int)) ∧
      (r = .noSolution → ∀ ds, applyMoves init ds ≠ some goal) := by
  induction hrun with
  | noSolution p hempty =>
    refine ⟨fun n h => by simp at h, fun _ ds hds => ?_⟩
    obtain ⟨m, hm, _⟩ := frontier_on_path hinv ds goal hds hinv.goalOpen
    simp [Puzzle.isFrontierEmpty] at hempty
    simp [hempty] at hm
  | found p i n _ htop hit =>
    refine ⟨fun n' h => ?_, fun h => by simp at h⟩
    obtain rfl : n = n' := by simpa using h
    exact searchInv_found hinv htop hit
  | next p i q r _ htop hit _ ih => exact ih (searchInv_next hinv htop hit)

theorem topIndexAux_spec (ns pre : List Node) (best : Nat) (bestF : Int) (x : Node)
    (hx : pre[best]? = some x) (hxf : x.getHeuristic + x.getPathCost = bestF)
    (hmin : ∀ m ∈ pre, bestF ≤ m.getHeuristic + m.getPathCost) :
    ∃ y, (pre ++ ns)[topIndexAux ns pre.length best bestF]? = some y ∧
      ∀ m ∈ pre ++ ns, y.getHeuristic + y.getPathCost ≤ m.getHeuristic + m.getPathCost := by
  induction ns generalizing pre best bestF x with
  | nil =>
    refine ⟨x, by simpa [topIndexAux] using hx, ?_⟩
    intro m hm
    rw [hxf]
    exact hmin m (by simpa using hm)
  | cons n ns ih =>
    have hassoc : pre ++ n :: ns = (pre ++ [n]) ++ ns := by simp
    have hlen : (pre ++ [n]).length = pre.length + 1 := by simp
    unfold topIndexAux
    split
    · rename_i hlt
      rw [hassoc, ← hlen]
      apply ih (pre ++ [n]) pre.length _ n (by simp) rfl
      intro m hm
      simp only [List.mem_append, List.mem_singleton] at hm
      rcases hm with hm | rfl
      · have := hmin m hm; omega
      · exact le_refl _
    · rename_i hge
      rw [hassoc, ← hlen]
      apply ih (pre ++ [n]) best bestF x _ hxf
      · intro m hm
        simp only [List.mem_append, List.mem_singleton] at hm
        rcases hm with hm | rfl
        · exact hmin m hm
        · omega
      · have hb : best < pre.length := by
          by_contra h
          rw [List.getElem?_eq_none (not_lt.1 h)] at hx
          simp at hx
        rw [List.getElem?_append_left hb]
        exact hx

/-- The deterministic choice `topIndex` meets the contract of `top()`. -/
theorem isTop_topIndex {frontier : List Node} (h : frontier ≠ []) :
    isTop frontier (topIndex frontier) = true := by
  cases frontier with
  | nil => exact absurd rfl h
  | cons n ns =>
    obtain ⟨y, hy, hmin⟩ := topIndexAux_spec ns [n] 0 (n.getHeuristic + n.getPathCost) n
      (by simp) rfl (by simp)
    simp only [List.singleton_append, List.length_singleton] at hy hmin
    unfold isTop topIndex
    rw [hy]
    simp only [List.all_eq_true]
    intro m hm
    have := hmin m hm
    simp [CompareNode, Node.lt]
    exact this

/-- A result of the executable `solve` is the end of a run of the loop. -/
theorem solve_run (fuel : Nat) {p : Puzzle} {r : SolveResult} (h : p.solve fuel = some r) :
    Run p r := by
  induction fuel generalizing p with
  | zero => simp [Puzzle.solve] at h
  | succ fuel ih =>
    unfold Puzzle.solve at h
    by_cases he : p.isFrontierEmpty = true
    · rw [if_pos he] at h
      obtain rfl : SolveResult.noSolution = r := by simpa using h
      exact Run.noSolution p he
    · rw [if_neg he] at h
      have he' : p.isFrontierEmpty = false := by simpa using he
      have hne : p.frontierList ≠ [] := by
        intro hn
        simp [Puzzle.isFrontierEmpty, hn] at he
      have htop := isTop_topIndex hne
      split at h
      · rename_i n hit
        obtain rfl : SolveResult.found n = r := by simpa using h
        exact Run.found p _ n he' htop hit
      · rename_i q hit
        exact Run.next p _ q r he' htop hit (ih h)
      · simp at h

/-! ## Optimality, soundness and completeness of `solve` -/

theorem chain_root (init : Board) : (n : Node) → ∃ root, n.chain.getLast? = some root ∧ root.getParent = none ∧
    (n.legalChain init → root.getBoard = init ∧ root.getPathCost = 0 ∧ root.getDirection = '0')
  | .mk board h g none d => by
    refine ⟨.mk board h g none d, by simp [Node.chain], rfl, ?_⟩
    intro hl
    simpa [Node.legalChain, Node.getBoard, Node.getPathCost, Node.getDirection] using hl
  | .mk board h g (some p) d => by
    obtain ⟨root, h1, h2, h3⟩ := chain_root init p
    refine ⟨root, ?_, h2, ?_⟩
    · simp only [Node.chain]
      rw [List.getLast?_cons]
      rw [h1]; rfl
    · intro hl
      simp only [Node.legalChain] at hl
      exact h3 hl.2.2.2

theorem chain_links (init : Board) : (n : Node) → n.legalChain init →
    ∀ x ∈ n.chain, ∀ parent, x.getParent = some parent →
      x.getDirection ∈ directions ∧ parent.getBoard.move x.getDirection = (x.getBoard, true) ∧
        x.getPathCost = parent.getPathCost + 1
  | .mk board h g none d, _ => by
    intro x hx parent hp
    simp only [Node.chain, List.mem_singleton] at hx
    subst hx
    simp [Node.getParent] at hp
  | .mk board h g (some p) d, hl => by
    intro x hx parent hp
    simp only [Node.legalChain] at hl
    simp only [Node.chain, List.mem_cons] at hx
    rcases hx with rfl | hx
    · simp only [Node.getParent, Option.some.injEq] at hp
      subst hp
      exact ⟨hl.1, hl.2.1, hl.2.2.1⟩
    · exact chain_links init p hl.2.2.2 x hx parent hp

theorem chain_length (init : Board) : (n : Node) → n.legalChain init →
    (n.chain.length : Int) = n.getPathCost + 1 ∧
      ((n.chain.filter (fun x => x.getParent.isSome)).length : Int) = n.getPathCost
  | .mk board h g none d, hl => by
    simp only [Node.legalChain] at hl
    simp [Node.chain, Node.getPathCost, Node.getParent, hl.2.1]
  | .mk board h g (some p) d, hl => by
    simp only [Node.legalChain] at hl
    obtain ⟨h1, h2⟩ := chain_length init p hl.2.2.2
    simp only [Node.chain, Node.getPathCost, List.length_cons]
    constructor
    · push_cast; rw [h1, hl.2.2.1]
    · rw [List.filter_cons_of_pos (by simp [Node.getParent])]
      simp only [List.length_cons]
      push_cast; rw [h2, hl.2.2.1]

/-- C1. Optimality of solve: for valid `n`×`n` boards `initial` and `goal` and
heuristic option 1 or 2, if a run of `Puzzle::solve` reaches the goal branch
with a node of path cost `c`, then some sequence of `c` successful moves turns
`initial` into `goal` and no sequence of successful moves that does so is
shorter. -/
theorem C1_optimality (n : Nat) (initial goal : Board) (option : Int) (node : Node)
    (hinit : initial.valid n) (_hgoal : goal.valid n) (_hopt : option = 1 ∨ option = 2)
    (hrun : Run (Puzzle.new initial goal option) (.found node)) :
    (∃ ds : List Char, (ds.length : Int) = node.getPathCost ∧
        applyMoves initial ds = some goal) ∧
      ∀ ds : List Char, applyMoves initial ds = some goal →
        node.getPathCost ≤ (ds.length : Int) := by
  obtain ⟨hl, hb, hopt⟩ :=
    (run_spec (searchInv_new initial goal option hinit.1) hrun).1 node rfl
  obtain ⟨ds, h1, h2⟩ := legalChain_path initial node hl
  exact ⟨⟨ds, h1, hb ▸ h2⟩, hopt⟩

theorem C1_optimality_witness :
    (∃ ds : List Char, (ds.length : Int) = 1 ∧
        applyMoves ⟨[[1, 2], [0, 3]]⟩ ds = some ⟨[[1, 2], [3, 0]]⟩) ∧
      ∀ ds : List Char, applyMoves ⟨[[1, 2], [0, 3]]⟩ ds = some ⟨[[1, 2], [3, 0]]⟩ →
        (1 : Int) ≤ (ds.length : Int) :=
  C1_optimality 2 ⟨[[1, 2], [0, 3]]⟩ ⟨[[1, 2], [3, 0]]⟩ 1
    (Node.mk ⟨[[1, 2], [3, 0]]⟩ 0 1 (some (Node.mk ⟨[[1, 2], [0, 3]]⟩ 1 0 none '0')) 'R')
    (by decide) (by decide) (Or.inl rfl) (solve_run 2 rfl)


theorem solve_run_noSolution (fuel : Nat) {p : Puzzle}
    (h : isNoSolution (p.solve fuel) = true) : Run p .noSolution := by
  apply solve_run fuel
  unfold isNoSolution at h
  split at h
  · assumption
  · simp at h

/-- C2. Soundness of the reported path: when a run of `Puzzle::solve` on valid
boards reaches the goal branch with node `N`, the chain from `N` along
`getParent()` is a legal solution: `N` holds the goal board; the last node of
the chain has no parent and holds the initial board with path cost 0 and label
`'0'`; every node `X` of the chain with a parent `P` holds `P`'s board after a
successful `move(X.direction)`, `X.direction` one of L, R, U, D, and
`X.pathCost = P.pathCost + 1`; the chain has `N.pathCost + 1` nodes and
`N.pathCost` moves. -/
theorem C2_path_soundness (n : Nat) (initial goal : Board) (option : Int) (node : Node)
    (hinit : initial.valid n) (_hgoal : goal.valid n) (_hopt : option = 1 ∨ option = 2)
    (hrun : Run (Puzzle.new initial goal option) (.found node)) :
    node.getBoard = goal ∧
      (∃ root, node.chain.getLast? = some root ∧ root.getParent = none ∧
        root.getBoard = initial ∧ root.getPathCost = 0 ∧ root.getDirection = '0') ∧
      (∀ x ∈ node.chain, ∀ parent, x.getParent = some parent →
        x.getDirection ∈ directions ∧
          parent.getBoard.move x.getDirection = (x.getBoard, true) ∧
          x.getPathCost = parent.getPathCost + 1) ∧
      (node.chain.length : Int) = node.getPathCost + 1 ∧
      ((node.chain.filter (fun x => x.getParent.isSome)).length : Int) = node.getPathCost := by
  obtain ⟨hl, hb, _⟩ :=
    (run_spec (searchInv_new initial goal option hinit.1) hrun).1 node rfl
  obtain ⟨root, h1, h2, h3⟩ := chain_root initial node
  exact ⟨hb, ⟨root, h1, h2, h3 hl⟩, chain_links initial node hl, chain_length initial node hl⟩

theorem C2_path_soundness_witness :
    (Node.mk ⟨[[1, 2], [3, 0]]⟩ 0 2
        (some (Node.mk ⟨[[1, 2], [0, 3]]⟩ 1 1
          (some (Node.mk ⟨[[0, 2], [1, 3]]⟩ 2 0 none '0')) 'D')) 'R').chain.length = 3 :=
  have h := C2_path_soundness 2 ⟨[[0, 2], [1, 3]]⟩ ⟨[[1, 2], [3, 0]]⟩ 2
    (Node.mk ⟨[[1, 2], [3, 0]]⟩ 0 2
        (some (Node.mk ⟨[[1, 2], [0, 3]]⟩ 1 1
          (some (Node.mk ⟨[[0, 2], [1, 3]]⟩ 2 0 none '0')) 'D')) 'R')
    (by decide) (by decide) (Or.inr rfl) (solve_run 3 rfl)
  by have := h.2.2.2.1; simp only [Node.getPathCost] at this; omega

/-- C3. Completeness of the failure outcome: for valid boards and either
heuristic, a run of `Puzzle::solve` that ends in the no-solution branch means
that no sequence of successful moves leads from the initial board to the goal;
equivalently, when such a sequence exists every run ends in the goal branch. -/
theorem C3_failure_complete (n : Nat) (initial goal : Board) (option : Int)
    (hinit : initial.valid n) (_hgoal : goal.valid n) (_hopt : option = 1 ∨ option = 2) :
    (Run (Puzzle.new initial goal option) .noSolution →
        ∀ ds : List Char, applyMoves initial ds ≠ some goal) ∧
      ((∃ ds : List Char, applyMoves initial ds = some goal) →
        ∀ r, Run (Puzzle.new initial goal option) r → ∃ node, r = .found node) := by
  have hinv := searchInv_new initial goal option hinit.1
  refine ⟨fun hrun => (run_spec hinv hrun).2 rfl, ?_⟩
  rintro ⟨ds, hds⟩ r hrun
  cases r with
  | found node => exact ⟨node, rfl⟩
  | noSolution => exact absurd hds ((run_spec hinv hrun).2 rfl ds)

theorem C3_failure_complete_witness :
    Run (Puzzle.new ⟨[[2, 1], [3, 0]]⟩ ⟨[[1, 2], [3, 0]]⟩ 2) .noSolution ∧
      applyMoves ⟨[[2, 1], [3, 0]]⟩ ['L', 'U', 'R', 'D'] ≠ some ⟨[[1, 2], [3, 0]]⟩ :=
  ⟨solve_run_noSolution 40 (by decide!),
    (C3_failure_complete 2 ⟨[[2, 1], [3, 0]]⟩ ⟨[[1, 2], [3, 0]]⟩ 2 (by decide) (by decide)
      (Or.inr rfl)).1 (solve_run_noSolution 40 (by decide!)) ['L', 'U', 'R', 'D']⟩

/-! ## Termination of `solve` -/

theorem finite_lists {α : Type} (A : Set α) (hA : A.Finite) (n : Nat) :
    {l : List α | l.length = n ∧ ∀ x ∈ l, x ∈ A}.Finite := by
  induction n with
  | zero =>
    apply Set.Finite.subset (Set.finite_singleton ([] : List α))
    rintro l ⟨hl, _⟩
    simpa using hl
  | succ n ih =>
    apply Set.Finite.subset (Set.Finite.image2 List.cons hA ih)
    rintro l ⟨hl, hmem⟩
    cases l with
    | nil => simp at hl
    | cons x xs =>
      refine ⟨x, hmem x (by simp), xs, ⟨by simpa using hl, fun y hy => hmem y (by simp [hy])⟩, rfl⟩

/-- The boards of a given shape with cells taken from a given list are finitely many. -/
theorem finite_boards (S : List Int) (rows cols : Nat) :
    {b : Board | b.hasShape rows cols ∧ ∀ row ∈ b.state, ∀ x ∈ row, x ∈ S}.Finite := by
  have hS : {x : Int | x ∈ S}.Finite := List.finite_toSet S
  have hrows := finite_lists {x : Int | x ∈ S} hS cols
  have hgrids := finite_lists _ hrows rows
  apply Set.Finite.subset (Set.Finite.image Board.mk hgrids)
  rintro b ⟨⟨h1, h2⟩, h3⟩
  exact ⟨b.state, ⟨h1, fun row hrow => ⟨h2 row hrow, h3 row hrow⟩⟩, rfl⟩

theorem mem_setCell {s : List (List Int)} {i j : Nat} {v x : Int} {row : List Int}
    (hrow : row ∈ setCell s i j v) (hx : x ∈ row) :
    x = v ∨ ∃ row0 ∈ s, x ∈ row0 := by
  unfold setCell at hrow
  rcases List.mem_or_eq_of_mem_set hrow with h | h
  · exact Or.inr ⟨row, h, hx⟩
  · subst h
    rcases List.mem_or_eq_of_mem_set hx with h | h
    · right
      by_cases hi : i < s.length
      · exact ⟨s.getD i [], getD_mem hi, h⟩
      · rw [List.getD_eq_default _ _ (not_lt.1 hi)] at h
        simp at h
    · exact Or.inl h

theorem cell_mem {s : List (List Int)} {i j : Nat} (hi : i < s.length)
    (hj : j < (s.getD i []).length) : ∃ row0 ∈ s, cell s i j ∈ row0 :=
  ⟨s.getD i [], getD_mem hi, getD_mem hj⟩

/-- A move only rearranges the cells of a rectangular grid. -/
theorem mem_move {b b' : Board} {rows cols : Nat} {d : Char} (hshape : b.hasShape rows cols)
    (hm : b.move d = (b', true)) {row : List Int} {x : Int} (hrow : row ∈ b'.state)
    (hx : x ∈ row) : ∃ row0 ∈ b.state, x ∈ row0 := by
  obtain ⟨r, c, r', c', hr, hc, hr', hc', _, _, hs, _⟩ := move_swap hshape hm
  obtain ⟨hl, hrl⟩ := (hasShape_iff b rows cols).1 hshape
  have m1 : ∃ row0 ∈ b.state, cell b.state r c ∈ row0 :=
    cell_mem (hl ▸ hr) (by rw [hrl r hr]; exact hc)
  have m2 : ∃ row0 ∈ b.state, cell b.state r' c' ∈ row0 :=
    cell_mem (hl ▸ hr') (by rw [hrl r' hr']; exact hc')
  rw [hs] at hrow
  unfold swapCells at hrow
  rcases mem_setCell hrow hx with h | ⟨row1, hrow1, hx1⟩
  · rw [h]; exact m1
  · rcases mem_setCell hrow1 hx1 with h | h
    · rw [h]; exact m2
    · exact h

theorem mem_applyMoves {init b : Board} {rows cols : Nat} {ds : List Char}
    (hshape : init.hasShape rows cols) (h : applyMoves init ds = some b) :
    ∀ row ∈ b.state, ∀ x ∈ row, ∃ row0 ∈ init.state, x ∈ row0 := by
  induction ds generalizing init with
  | nil => 
    simp [applyMoves] at h; subst h
    exact fun row hrow x hx => ⟨row, hrow, hx⟩
  | cons d ds ih =>
    obtain ⟨b1, hm, h'⟩ := applyMoves_cons.1 h
    intro row hrow x hx
    obtain ⟨row1, hrow1, hx1⟩ := ih (hasShape_move hshape hm) h' row hrow x hx
    exact mem_move hshape hm hrow1 hx1

/-- The boards reachable from a rectangular board lie in a finite set. -/
theorem exists_boards {init : Board} {rows cols : Nat} (hshape : init.hasShape rows cols) :
    ∃ boards : Finset Board, ∀ ds b, applyMoves init ds = some b → b ∈ boards := by
  refine ⟨(finite_boards init.state.flatten rows cols).toFinset, fun ds b h => ?_⟩
  rw [Set.Finite.mem_toFinset]
  refine ⟨hasShape_applyMoves hshape h, fun row hrow x hx => ?_⟩
  obtain ⟨row0, h0, hx0⟩ := mem_applyMoves hshape h row hrow x hx
  exact List.mem_flatten.2 ⟨row0, h0, hx0⟩

/-- Every iteration that returns to the loop condition lowers the measure. -/
theorem searchMeasure_next {init goal : Board} {option : Int} {rows cols : Nat} {p q : Puzzle}
    (hinv : SearchInv init goal option rows cols p) {boards : Finset Board}
    (hboards : ∀ ds b, applyMoves init ds = some b → b ∈ boards) {i : Nat}
    (htop : isTop p.frontierList i = true) (hit : p.iterate i = some (.next q)) :
    Prod.Lex (· < ·) (· < ·) (searchMeasure boards q) (searchMeasure boards p) := by
  obtain ⟨n, hn, _⟩ := isTop_spec htop
  have hnmem : n ∈ p.frontierList := List.getElem?_mem hn
  have hi : i < p.frontierList.length := by
    by_contra h
    rw [List.getElem?_eq_none (not_lt.1 h)] at hn
    simp at hn
  rcases iterate_cases hn with ⟨_, he⟩ | ⟨_, _, he⟩ | ⟨hv, _, he⟩
  · rw [he] at hit
    obtain rfl : _ = q := by simpa using hit
    unfold searchMeasure
    apply Prod.Lex.right
    simp only [List.length_eraseIdx, hi, if_true]
    omega
  · rw [he] at hit
    simp at hit
  · rw [he] at hit
    obtain rfl : _ = q := by simpa using hit
    unfold searchMeasure
    apply Prod.Lex.left
    obtain ⟨ds, _, hds⟩ := legalChain_path init n (hinv.nodes n hnmem).1
    have hU := hboards ds _ hds
    apply Finset.card_lt_card
    rw [Finset.ssubset_iff_of_subset]
    · exact ⟨n.getBoard, by simp [hU, hv], by simp⟩
    · intro x hx
      simp only [List.toFinset_cons, Finset.mem_sdiff, Finset.mem_insert, List.mem_toFinset,
        not_or] at hx ⊢
      exact ⟨hx.1, hx.2.2⟩

theorem solve_succ_next {p q : Puzzle} {fuel : Nat} (he : p.isFrontierEmpty = false)
    (hit : p.iterate (topIndex p.frontierList) = some (.next q)) :
    p.solve (fuel + 1) = q.solve fuel := by
  rw [Puzzle.solve]
  simp [he, hit]

theorem solve_succ_found {p : Puzzle} {n : Node} {fuel : Nat} (he : p.isFrontierEmpty = false)
    (hit : p.iterate (topIndex p.frontierList) = some (.found n)) :
    p.solve (fuel + 1) = some (.found n) := by
  rw [Puzzle.solve]
  simp [he, hit]

/-- From a state that satisfies the invariant, the executable `solve` returns
with enough fuel, and no run of the loop goes on for ever. -/
theorem search_terminates {init goal : Board} {option : Int} {rows cols : Nat} {p : Puzzle}
    (hinv : SearchInv init goal option rows cols p) :
    (∃ fuel r, p.solve fuel = some r) ∧
      ∀ s : Nat → Puzzle, s 0 = p → ¬ ∀ k, Step (s k) (s (k + 1)) := by
  obtain ⟨boards, hboards⟩ := exists_boards hinv.shape
  have wf : WellFounded (Prod.Lex (· < ·) (· < ·) : Nat × Nat → Nat × Nat → Prop) :=
    (Prod.lex Nat.lt_wfRel Nat.lt_wfRel).wf
  have key : ∀ m : Nat × Nat, ∀ p : Puzzle, SearchInv init goal option rows cols p →
      searchMeasure boards p = m →
      (∃ fuel r, p.solve fuel = some r) ∧
        ∀ s : Nat → Puzzle, s 0 = p → ¬ ∀ k, Step (s k) (s (k + 1)) := by
    intro m
    induction m using wf.induction with
    | _ m ih =>
      intro p hinv hm
      constructor
      · by_cases he : p.isFrontierEmpty = true
        · exact ⟨1, .noSolution, by simp [Puzzle.solve, he]⟩
        · have he' : p.isFrontierEmpty = false := by simpa using he
          have hne : p.frontierList ≠ [] := by
            intro hn
            simp [Puzzle.isFrontierEmpty, hn] at he
          have htop := isTop_topIndex hne
          obtain ⟨n, hn, _⟩ := isTop_spec htop
          rcases iterate_cases hn with ⟨_, hit⟩ | ⟨_, _, hit⟩ | ⟨_, _, hit⟩
          · obtain ⟨fuel, r, hr⟩ := (ih _ (hm ▸ searchMeasure_next hinv hboards htop hit) _
              (searchInv_next hinv htop hit) rfl).1
            exact ⟨fuel + 1, r, by rw [solve_succ_next he' hit]; exact hr⟩
          · exact ⟨1, .found n, solve_succ_found he' hit⟩
          · obtain ⟨fuel, r, hr⟩ := (ih _ (hm ▸ searchMeasure_next hinv hboards htop hit) _
              (searchInv_next hinv htop hit) rfl).1
            exact ⟨fuel + 1, r, by rw [solve_succ_next he' hit]; exact hr⟩
      · intro s hs hstep
        obtain ⟨_, i, htop, hit⟩ := hstep 0
        rw [hs] at htop hit
        exact (ih _ (hm ▸ searchMeasure_next hinv hboards htop hit) _
          (searchInv_next hinv htop hit) rfl).2 (fun k => s (k + 1)) (by simp)
          (fun k => hstep (k + 1))
  exact key _ p hinv rfl

/-! ## Parity of the move graph -/

/-- A successful move keeps the parity invariant. -/
theorem parityInv_move {g b b' : Board} {rows cols : Nat} {e : ℤˣ} {d : Char}
    (hg : ∀ x y : Fin rows × Fin cols,
      cell g.state x.1 x.2 = cell g.state y.1 y.2 → x = y)
    (hinv : parityInv g rows cols e b) (hm : b.move d = (b', true)) :
    parityInv g rows cols e b' := by
  obtain ⟨hshape, σ, hcells, hsign⟩ := hinv
  obtain ⟨r, c, r', c', hr, hc, hr', hc', h0, hadj, hs, hshape'⟩ := move_swap hshape hm
  obtain ⟨hl, hrow⟩ := (hasShape_iff b rows cols).1 hshape
  have hcell : ∀ k l, cell b'.state k l =
      if k = r' ∧ l = c' then cell b.state r c
      else if k = r ∧ l = c then cell b.state r' c' else cell b.state k l := fun k l => by
    rw [hs]
    exact cell_swapCells b.state r c r' c' k l (hl ▸ hr) (by rw [hrow r hr]; exact hc)
      (hl ▸ hr') (by rw [hrow r' hr']; exact hc')
  let p : Fin rows × Fin cols := (⟨r, hr⟩, ⟨c, hc⟩)
  let q : Fin rows × Fin cols := (⟨r', hr'⟩, ⟨c', hc'⟩)
  have hpq : p ≠ q := by
    intro h
    have h1 := congrArg (fun x => (x.1 : Nat)) h
    have h2 := congrArg (fun x => (x.2 : Nat)) h
    simp only [p, q] at h1 h2
    omega
  have hcells' : ∀ x, cell b'.state x.1 x.2 =
      cell g.state ((σ * Equiv.swap p q) x).1 ((σ * Equiv.swap p q) x).2 := by
    intro x
    rw [Equiv.Perm.mul_apply, ← hcells, hcell]
    by_cases hxq : x = q
    · subst hxq
      rw [Equiv.swap_apply_right]
      simp [q, p]
    · by_cases hxp : x = p
      · subst hxp
        rw [Equiv.swap_apply_left]
        have : ¬ (r = r' ∧ c = c') := by omega
        simp [p, q, this]
      · rw [Equiv.swap_apply_of_ne_of_ne hxp hxq]
        have h1 : ¬ ((x.1 : Nat) = r' ∧ (x.2 : Nat) = c') := by
          rintro ⟨a1, a2⟩
          exact hxq (Prod.ext (Fin.ext a1) (Fin.ext a2))
        have h2 : ¬ ((x.1 : Nat) = r ∧ (x.2 : Nat) = c) := by
          rintro ⟨a1, a2⟩
          exact hxp (Prod.ext (Fin.ext a1) (Fin.ext a2))
        rw [if_neg h1, if_neg h2]
  refine ⟨hshape', σ * Equiv.swap p q, hcells', ?_⟩
  intro z hz
  have hq0 : cell b'.state q.1 q.2 = 0 := by
    rw [hcell]
    simp [q, h0]
  have hzq : z = q := by
    have h1 := hcells' z
    have h2 := hcells' q
    rw [hz] at h1
    rw [hq0] at h2
    exact (σ * Equiv.swap p q).injective (hg _ _ (h1.symm.trans h2))
  subst hzq
  have hp := hsign p h0
  rw [← hp, Equiv.Perm.sign_mul, Equiv.Perm.sign_swap hpq]
  simp only [p, q]
  rcases hadj with ⟨rfl, rfl | rfl⟩ | ⟨rfl, rfl | rfl⟩
  · rw [show r + (c' + 1) = (r + c') + 1 by ring, pow_succ]; simp [mul_assoc]
  · rw [show r + (c + 1) = (r + c) + 1 by ring, pow_succ]; simp [mul_assoc, mul_comm]
  · rw [show (r' + 1) + c = (r' + c) + 1 by ring, pow_succ]; simp [mul_assoc]
  · rw [show (r + 1) + c = (r + c) + 1 by ring, pow_succ]; simp [mul_assoc, mul_comm]

theorem parityInv_applyMoves {g b b' : Board} {rows cols : Nat} {e : ℤˣ} {ds : List Char}
    (hg : ∀ x y : Fin rows × Fin cols,
      cell g.state x.1 x.2 = cell g.state y.1 y.2 → x = y)
    (hinv : parityInv g rows cols e b) (h : applyMoves b ds = some b') :
    parityInv g rows cols e b' := by
  induction ds generalizing b with
  | nil => simp [applyMoves] at h; subst h; exact hinv
  | cons d ds ih =>
    obtain ⟨b1, hm, h'⟩ := applyMoves_cons.1 h
    exact ih (parityInv_move hg hinv hm) h'

/-- The goal `[[1,2,3],[4,5,6],[7,8,0]]` cannot be reached from
`[[1,2,3],[4,5,6],[8,7,0]]`: the two boards differ by one transposition with the
blank in the same cell. -/
theorem swapped_unreachable (ds : List Char) :
    applyMoves ⟨[[1, 2, 3], [4, 5, 6], [8, 7, 0]]⟩ ds ≠
      some ⟨[[1, 2, 3], [4, 5, 6], [7, 8, 0]]⟩ := by
  intro h
  have hg : ∀ x y : Fin 3 × Fin 3,
      cell (Board.mk [[1, 2, 3], [4, 5, 6], [7, 8, 0]]).state x.1 x.2 =
        cell (Board.mk [[1, 2, 3], [4, 5, 6], [7, 8, 0]]).state y.1 y.2 → x = y := by
    decide
  have hstart : parityInv ⟨[[1, 2, 3], [4, 5, 6], [7, 8, 0]]⟩ 3 3 (-1)
      ⟨[[1, 2, 3], [4, 5, 6], [8, 7, 0]]⟩ := by
    refine ⟨by decide, Equiv.swap ((2 : Fin 3), (0 : Fin 3)) ((2 : Fin 3), (1 : Fin 3)),
      by decide, ?_⟩
    intro z hz
    have hz2 : z = ((2 : Fin 3), (2 : Fin 3)) := by
      revert hz
      revert z
      decide
    subst hz2
    rw [Equiv.Perm.sign_swap (by decide)]
    decide
  obtain ⟨_, σ, hcells, hsign⟩ := parityInv_applyMoves hg hstart h
  have hσ : σ = 1 := by
    ext1 x
    exact (hg _ _ (hcells x)).symm
  have := hsign ((2 : Fin 3), (2 : Fin 3)) (by decide)
  rw [hσ] at this
  revert this
  simp
  decide

/-! ## Termination, the trivial instance, and heuristic independence -/

/-- C4. Termination of solve: for valid boards of the same shape and either
heuristic, the loop of `Puzzle::solve` ends: the executable `solve` returns a
result with enough fuel, some run reaches the goal branch or the no-solution
branch, and no sequence of loop iterations goes on for ever.  In particular, from
`[[1,2,3],[4,5,6],[8,7,0]]` with goal `[[1,2,3],[4,5,6],[7,8,0]]` it returns the
no-solution outcome, and that is the only way a run can end. -/
theorem C4_termination (n : Nat) (initial goal : Board) (option : Int)
    (hinit : initial.valid n) (_hgoal : goal.valid n) (_hopt : option = 1 ∨ option = 2) :
    ((∃ fuel r, (Puzzle.new initial goal option).solve fuel = some r) ∧
      (∃ r, Run (Puzzle.new initial goal option) r) ∧
      ∀ s : Nat → Puzzle, s 0 = Puzzle.new initial goal option →
        ¬ ∀ k, Step (s k) (s (k + 1))) ∧
    ((∃ fuel, (Puzzle.new ⟨[[1, 2, 3], [4, 5, 6], [8, 7, 0]]⟩
        ⟨[[1, 2, 3], [4, 5, 6], [7, 8, 0]]⟩ option).solve fuel = some .noSolution) ∧
      ∀ r, Run (Puzzle.new ⟨[[1, 2, 3], [4, 5, 6], [8, 7, 0]]⟩
        ⟨[[1, 2, 3], [4, 5, 6], [7, 8, 0]]⟩ option) r → r = .noSolution) := by
  constructor
  · obtain ⟨⟨fuel, r, hr⟩, hno⟩ :=
      search_terminates (searchInv_new initial goal option hinit.1)
    exact ⟨⟨fuel, r, hr⟩, ⟨r, solve_run fuel hr⟩, hno⟩
  · have hinv := searchInv_new ⟨[[1, 2, 3], [4, 5, 6], [8, 7, 0]]⟩
      ⟨[[1, 2, 3], [4, 5, 6], [7, 8, 0]]⟩ option
      (show (Board.mk [[1, 2, 3], [4, 5, 6], [8, 7, 0]]).hasShape 3 3 by decide)
    have honly : ∀ r, Run (Puzzle.new ⟨[[1, 2, 3], [4, 5, 6], [8, 7, 0]]⟩
        ⟨[[1, 2, 3], [4, 5, 6], [7, 8, 0]]⟩ option) r → r = .noSolution := by
      intro r hrun
      cases r with
      | noSolution => rfl
      | found node =>
        obtain ⟨hl, hb, _⟩ := (run_spec hinv hrun).1 node rfl
        obtain ⟨ds, _, hds⟩ := legalChain_path _ node hl
        exact absurd (hb ▸ hds) (swapped_unreachable ds)
    obtain ⟨⟨fuel, r, hr⟩, _⟩ := search_terminates hinv
    have := honly r (solve_run fuel hr)
    exact ⟨⟨fuel, this ▸ hr⟩, honly⟩

theorem C4_termination_witness :
    (∃ fuel r, (Puzzle.new ⟨[[8, 6, 7], [2, 5, 4], [3, 0, 1]]⟩
        ⟨[[1, 2, 3], [4, 5, 6], [7, 8, 0]]⟩ 2).solve fuel = some r) ∧
      ∃ fuel, (Puzzle.new ⟨[[1, 2, 3], [4, 5, 6], [8, 7, 0]]⟩
        ⟨[[1, 2, 3], [4, 5, 6], [7, 8, 0]]⟩ 2).solve fuel = some .noSolution :=
  have h := C4_termination 3 ⟨[[8, 6, 7], [2, 5, 4], [3, 0, 1]]⟩
    ⟨[[1, 2, 3], [4, 5, 6], [7, 8, 0]]⟩ 2 (by decide) (by decide) (Or.inr rfl)
  ⟨h.1.1, h.2.1⟩

theorem iterate_new_self (X : Board) (option : Int) :
    (Puzzle.new X X option).iterate 0 =
      some (.found (Node.mk X ((Puzzle.new X X option).calculateHeuristic X) 0 none '0')) := by
  simp [Puzzle.iterate, Puzzle.new, Puzzle.addToFrontier, Node.getBoard, Board.isGoalState,
    Board.getState, Puzzle.calculateHeuristic]

/-- C5. Goal equals initial: for a valid board `X` and either heuristic, a
puzzle built with initial = goal = `X` takes the goal branch in the first loop
iteration with the root node (so `expand` is not reached): every run ends there,
the executable `solve` returns it after one iteration, its path cost is 0, and
its parent chain is the root alone, which holds `X` and has no parent. -/
theorem C5_goal_equals_initial (n : Nat) (X : Board) (option : Int)
    (_hX : X.valid n) (_hopt : option = 1 ∨ option = 2) :
    ∃ root, root = Node.mk X ((Puzzle.new X X option).calculateHeuristic X) 0 none '0' ∧
      (Puzzle.new X X option).iterate 0 = some (.found root) ∧
      (Puzzle.new X X option).solve 1 = some (.found root) ∧
      Run (Puzzle.new X X option) (.found root) ∧
      (∀ r, Run (Puzzle.new X X option) r → r = .found root) ∧
      root.getPathCost = 0 ∧ root.chain = [root] ∧ root.getParent = none ∧
      root.getBoard = X := by
  refine ⟨_, rfl, iterate_new_self X option, ?_, ?_, ?_, rfl, rfl, rfl, rfl⟩
  · have he : (Puzzle.new X X option).isFrontierEmpty = false := rfl
    have ht : topIndex (Puzzle.new X X option).frontierList = 0 := rfl
    exact solve_succ_found he (ht ▸ iterate_new_self X option)
  · exact Run.found _ 0 _ rfl (isTop_topIndex (by simp [Puzzle.new, Puzzle.addToFrontier]))
      (iterate_new_self X option)
  · intro r hrun
    have hidx : ∀ i, isTop (Puzzle.new X X option).frontierList i = true → i = 0 := by
      intro i htop
      obtain ⟨m, hm, _⟩ := isTop_spec htop
      by_contra hi
      have : (1 : Nat) ≤ i := Nat.one_le_iff_ne_zero.2 hi
      rw [List.getElem?_eq_none (by simpa [Puzzle.new, Puzzle.addToFrontier] using this)] at hm
      simp at hm
    cases hrun with
    | noSolution _ he => simp [Puzzle.new, Puzzle.addToFrontier, Puzzle.isFrontierEmpty] at he
    | found _ i node _ htop hit =>
      rw [hidx i htop, iterate_new_self] at hit
      simp at hit
      rw [hit]
    | next _ i q _ _ htop hit _ =>
      rw [hidx i htop, iterate_new_self] at hit
      simp at hit

theorem C5_goal_equals_initial_witness :
    (Puzzle.new ⟨[[1, 2, 3], [4, 5, 6], [7, 8, 0]]⟩
        ⟨[[1, 2, 3], [4, 5, 6], [7, 8, 0]]⟩ 1).solve 1 =
      some (.found (Node.mk ⟨[[1, 2, 3], [4, 5, 6], [7, 8, 0]]⟩ 0 0 none '0')) := by
  obtain ⟨root, h1, _, h3, _⟩ := C5_goal_equals_initial 3 ⟨[[1, 2, 3], [4, 5, 6], [7, 8, 0]]⟩ 1
    (by decide) (Or.inl rfl)
  rw [h3, h1]
  rfl

/-- C6. Heuristic independence of the result: for valid boards of the same
shape, runs of `solve` with option 1 (misplaced tiles) and option 2 (Manhattan
distance) end the same way, both in the no-solution branch or both in the goal
branch with the same path cost.  For initial `[[8,6,7],[2,5,4],[3,0,1]]` and goal
`[[1,2,3],[4,5,6],[7,8,0]]` both end in the goal branch: the executable `solve`
returns found nodes of equal path cost, and no run ends otherwise. -/
theorem C6_heuristic_independence (n : Nat) (initial goal : Board)
    (hinit : initial.valid n) (_hgoal : goal.valid n) :
    (∀ r1 r2, Run (Puzzle.new initial goal 1) r1 → Run (Puzzle.new initial goal 2) r2 →
      (r1 = .noSolution ∧ r2 = .noSolution) ∨
        ∃ n1 n2, r1 = .found n1 ∧ r2 = .found n2 ∧ n1.getPathCost = n2.getPathCost) ∧
    ((∃ fuel1 fuel2 n1 n2,
        (Puzzle.new ⟨[[8, 6, 7], [2, 5, 4], [3, 0, 1]]⟩
          ⟨[[1, 2, 3], [4, 5, 6], [7, 8, 0]]⟩ 1).solve fuel1 = some (.found n1) ∧
        (Puzzle.new ⟨[[8, 6, 7], [2, 5, 4], [3, 0, 1]]⟩
          ⟨[[1, 2, 3], [4, 5, 6], [7, 8, 0]]⟩ 2).solve fuel2 = some (.found n2) ∧
        n1.getPathCost = n2.getPathCost) ∧
      ∀ option r, Run (Puzzle.new ⟨[[8, 6, 7], [2, 5, 4], [3, 0, 1]]⟩
        ⟨[[1, 2, 3], [4, 5, 6], [7, 8, 0]]⟩ option) r → ∃ node, r = .found node) := by
  have general : ∀ (init goal : Board) (rows cols : Nat), init.hasShape rows cols →
      ∀ r1 r2, Run (Puzzle.new init goal 1) r1 → Run (Puzzle.new init goal 2) r2 →
      (r1 = .noSolution ∧ r2 = .noSolution) ∨
        ∃ n1 n2, r1 = .found n1 ∧ r2 = .found n2 ∧ n1.getPathCost = n2.getPathCost := by
    intro init goal rows cols hshape r1 r2 hr1 hr2
    have s1 := run_spec (searchInv_new init goal 1 hshape) hr1
    have s2 := run_spec (searchInv_new init goal 2 hshape) hr2
    cases r1 with
    | noSolution =>
      cases r2 with
      | noSolution => exact Or.inl ⟨rfl, rfl⟩
      | found n2 =>
        obtain ⟨hl, hb, _⟩ := s2.1 n2 rfl
        obtain ⟨ds, _, hds⟩ := legalChain_path init n2 hl
        exact absurd (hb ▸ hds) (s1.2 rfl ds)
    | found n1 =>
      obtain ⟨hl1, hb1, hopt1⟩ := s1.1 n1 rfl
      obtain ⟨ds1, hlen1, hds1⟩ := legalChain_path init n1 hl1
      cases r2 with
      | noSolution => exact absurd (hb1 ▸ hds1) (s2.2 rfl ds1)
      | found n2 =>
        obtain ⟨hl2, hb2, hopt2⟩ := s2.1 n2 rfl
        obtain ⟨ds2, hlen2, hds2⟩ := legalChain_path init n2 hl2
        have a := hopt1 ds2 (hb2 ▸ hds2)
        have b := hopt2 ds1 (hb1 ▸ hds1)
        exact Or.inr ⟨n1, n2, rfl, rfl, by omega⟩
  refine ⟨general initial goal n n hinit.1, ?_⟩
  have hshape : (Board.mk [[8, 6, 7], [2, 5, 4], [3, 0, 1]]).hasShape 3 3 := by decide
  have hpath : applyMoves ⟨[[8, 6, 7], [2, 5, 4], [3, 0, 1]]⟩
      ['L', 'U', 'R', 'U', 'R', 'D', 'L', 'D', 'R', 'U', 'L', 'L', 'U', 'R', 'R', 'D', 'L', 'D',
        'L', 'U', 'U', 'R', 'D', 'D', 'L', 'U', 'U', 'R', 'D', 'R', 'D'] =
      some ⟨[[1, 2, 3], [4, 5, 6], [7, 8, 0]]⟩ := by decide
  have hfound : ∀ option r, Run (Puzzle.new ⟨[[8, 6, 7], [2, 5, 4], [3, 0, 1]]⟩
      ⟨[[1, 2, 3], [4, 5, 6], [7, 8, 0]]⟩ option) r → ∃ node, r = .found node := by
    intro option r hrun
    cases r with
    | found node => exact ⟨node, rfl⟩
    | noSolution =>
      exact absurd hpath ((run_spec (searchInv_new _ _ option hshape) hrun).2 rfl _)
  refine ⟨?_, hfound⟩
  obtain ⟨⟨fuel1, r1, h1⟩, _⟩ := search_terminates (searchInv_new
    ⟨[[8, 6, 7], [2, 5, 4], [3, 0, 1]]⟩ ⟨[[1, 2, 3], [4, 5, 6], [7, 8, 0]]⟩ 1 hshape)
  obtain ⟨⟨fuel2, r2, h2⟩, _⟩ := search_terminates (searchInv_new
    ⟨[[8, 6, 7], [2, 5, 4], [3, 0, 1]]⟩ ⟨[[1, 2, 3], [4, 5, 6], [7, 8, 0]]⟩ 2 hshape)
  rcases general _ _ 3 3 hshape r1 r2 (solve_run fuel1 h1) (solve_run fuel2 h2) with
    ⟨e1, _⟩ | ⟨n1, n2, e1, e2, hc⟩
  · obtain ⟨node, hnode⟩ := hfound 1 r1 (solve_run fuel1 h1)
    rw [e1] at hnode
    simp at hnode
  · exact ⟨fuel1, fuel2, n1, n2, e1 ▸ h1, e2 ▸ h2, hc⟩

theorem C6_heuristic_independence_witness :
    Run (Puzzle.new ⟨[[0, 2], [1, 3]]⟩ ⟨[[1, 2], [3, 0]]⟩ 1)
        (.found (Node.mk ⟨[[1, 2], [3, 0]]⟩ 0 2
          (some (Node.mk ⟨[[1, 2], [0, 3]]⟩ 1 1
            (some (Node.mk ⟨[[0, 2], [1, 3]]⟩ 2 0 none '0')) 'D')) 'R')) ∧
      Run (Puzzle.new ⟨[[0, 2], [1, 3]]⟩ ⟨[[1, 2], [3, 0]]⟩ 2)
        (.found (Node.mk ⟨[[1, 2], [3, 0]]⟩ 0 2
          (some (Node.mk ⟨[[1, 2], [0, 3]]⟩ 1 1
            (some (Node.mk ⟨[[0, 2], [1, 3]]⟩ 2 0 none '0')) 'D')) 'R')) ∧
      ((SolveResult.found (Node.mk ⟨[[1, 2], [3, 0]]⟩ 0 2
          (some (Node.mk ⟨[[1, 2], [0, 3]]⟩ 1 1
            (some (Node.mk ⟨[[0, 2], [1, 3]]⟩ 2 0 none '0')) 'D')) 'R') = .noSolution ∧
        SolveResult.found (Node.mk ⟨[[1, 2], [3, 0]]⟩ 0 2
          (some (Node.mk ⟨[[1, 2], [0, 3]]⟩ 1 1
            (some (Node.mk ⟨[[0, 2], [1, 3]]⟩ 2 0 none '0')) 'D')) 'R') = .noSolution) ∨
        ∃ n1 n2,
          SolveResult.found (Node.mk ⟨[[1, 2], [3, 0]]⟩ 0 2
            (some (Node.mk ⟨[[1, 2], [0, 3]]⟩ 1 1
              (some (Node.mk ⟨[[0, 2], [1, 3]]⟩ 2 0 none '0')) 'D')) 'R') = .found n1 ∧
          SolveResult.found (Node.mk ⟨[[1, 2], [3, 0]]⟩ 0 2
            (some (Node.mk ⟨[[1, 2], [0, 3]]⟩ 1 1
              (some (Node.mk ⟨[[0, 2], [1, 3]]⟩ 2 0 none '0')) 'D')) 'R') = .found n2 ∧
          n1.getPathCost = n2.getPathCost) :=
  ⟨solve_run 3 rfl, solve_run 3 rfl,
    (C6_heuristic_independence 2 ⟨[[0, 2], [1, 3]]⟩ ⟨[[1, 2], [3, 0]]⟩ (by decide)
      (by decide)).1 _ _ (solve_run 3 rfl) (solve_run 3 rfl)⟩

/-! ## Tile lookup, frontier order, consistency -/

theorem mem_range_of_valid {b : Board} {n : Nat} (h : b.valid n) {x : Int}
    (hx : x ∈ b.state.flatten) : ∃ k, k < n * n ∧ x = (k : Int) := by
  have := (h.2.mem_iff).1 hx
  simp only [List.mem_map, List.mem_range] at this
  obtain ⟨k, hk, rfl⟩ := this
  exact ⟨k, hk, rfl⟩

theorem mem_flatten_of_valid {b : Board} {n : Nat} (h : b.valid n) {k : Nat} (hk : k < n * n) :
    (k : Int) ∈ b.state.flatten := by
  apply (h.2.mem_iff).2
  simp only [List.mem_map, List.mem_range]
  exact ⟨k, hk, rfl⟩

/-- On a valid board every value of `0 .. n*n-1` has a first occurrence. -/
theorem firstAt_of_valid {b : Board} {n : Nat} (h : b.valid n) {k : Nat} (hk : k < n * n) :
    ∃ r c, firstAt b.state (k : Int) r c := by
  rcases findTilePosition_cases b (k : Int) with ⟨_, hn⟩ | ⟨r, c, hf, _⟩
  · obtain ⟨row, hrow, hmem⟩ := List.mem_flatten.1 (mem_flatten_of_valid h hk)
    exact absurd hmem (hn row hrow)
  · exact ⟨r, c, hf⟩

/-- C14. The contract of `findTilePosition`: if `v` occurs in the grid the
result is the position of its first occurrence in row-major order (and the cell
there holds `v`); the result is the not-found pair `(-1, -1)` exactly when `v`
occurs nowhere; so on a valid board no value of `0 .. n*n-1` is reported as
not found. -/
theorem C14_findTilePosition_contract (b : Board) (v : Int) :
    ((∃ row ∈ b.state, v ∈ row) →
      ∃ r c : Nat, firstAt b.state v r c ∧ b.findTilePosition v = ((r : Int), (c : Int)) ∧
        cell b.state r c = v) ∧
    (b.findTilePosition v = (-1, -1) ↔ ∀ row ∈ b.state, v ∉ row) ∧
    (∀ n k : Nat, b.valid n → k < n * n → b.findTilePosition (k : Int) ≠ (-1, -1)) := by
  refine ⟨?_, findFrom_notFound v b.state 0, ?_⟩
  · rintro ⟨row, hrow, hmem⟩
    rcases findTilePosition_cases b v with ⟨_, hn⟩ | ⟨r, c, hf, he⟩
    · exact absurd hmem (hn row hrow)
    · exact ⟨r, c, hf, he, hf.2.2.1⟩
  · intro n k hvalid hk hnot
    obtain ⟨r, c, hf⟩ := firstAt_of_valid hvalid hk
    rw [findTilePosition_of_firstAt hf] at hnot
    have := congrArg Prod.fst hnot
    simp at this

theorem C14_findTilePosition_contract_witness :
    (Board.mk [[1, 2, 0], [0, 2, 5]]).findTilePosition 2 = (0, 1) ∧
      (Board.mk [[1, 2, 0], [0, 2, 5]]).findTilePosition 7 = (-1, -1) :=
  have h := C14_findTilePosition_contract ⟨[[1, 2, 0], [0, 2, 5]]⟩ 7
  ⟨by decide, h.2.1.2 (by decide)⟩

/-- C18. Consistency of both heuristics over one move: for valid boards `B` and
`goal` of the same shape and a successful `move(d)` from `B` to `B'`, each of
`h1`, `h2` changes by at most one, hence `h(B, goal) ≤ 1 + h(B', goal)`. -/
theorem C18_consistency (n : Nat) (B goal B' : Board) (d : Char)
    (hB : B.valid n) (_hgoal : goal.valid n) (hm : B.move d = (B', true)) :
    (|h1 B' goal - h1 B goal| ≤ 1 ∧ h1 B goal ≤ 1 + h1 B' goal) ∧
      (|h2 B' goal - h2 B goal| ≤ 1 ∧ h2 B goal ≤ 1 + h2 B' goal) := by
  obtain ⟨a1, a2⟩ := h1_move goal hB.1 hm
  obtain ⟨b1, b2⟩ := h2_move goal hB.1 hm
  refine ⟨⟨abs_le.2 ⟨by omega, by omega⟩, by omega⟩, ⟨abs_le.2 ⟨by omega, by omega⟩, by omega⟩⟩

theorem C18_consistency_witness :
    (|h1 ⟨[[1, 2, 3], [4, 5, 6], [7, 0, 8]]⟩ ⟨[[1, 2, 3], [4, 5, 6], [7, 8, 0]]⟩ -
          h1 ⟨[[1, 2, 3], [4, 0, 6], [7, 5, 8]]⟩ ⟨[[1, 2, 3], [4, 5, 6], [7, 8, 0]]⟩| ≤ 1 ∧
        h1 ⟨[[1, 2, 3], [4, 0, 6], [7, 5, 8]]⟩ ⟨[[1, 2, 3], [4, 5, 6], [7, 8, 0]]⟩ ≤
          1 + h1 ⟨[[1, 2, 3], [4, 5, 6], [7, 0, 8]]⟩ ⟨[[1, 2, 3], [4, 5, 6], [7, 8, 0]]⟩) ∧
      (|h2 ⟨[[1, 2, 3], [4, 5, 6], [7, 0, 8]]⟩ ⟨[[1, 2, 3], [4, 5, 6], [7, 8, 0]]⟩ -
          h2 ⟨[[1, 2, 3], [4, 0, 6], [7, 5, 8]]⟩ ⟨[[1, 2, 3], [4, 5, 6], [7, 8, 0]]⟩| ≤ 1 ∧
        h2 ⟨[[1, 2, 3], [4, 0, 6], [7, 5, 8]]⟩ ⟨[[1, 2, 3], [4, 5, 6], [7, 8, 0]]⟩ ≤
          1 + h2 ⟨[[1, 2, 3], [4, 5, 6], [7, 0, 8]]⟩ ⟨[[1, 2, 3], [4, 5, 6], [7, 8, 0]]⟩) :=
  C18_consistency 3 ⟨[[1, 2, 3], [4, 0, 6], [7, 5, 8]]⟩ ⟨[[1, 2, 3], [4, 5, 6], [7, 8, 0]]⟩
    ⟨[[1, 2, 3], [4, 5, 6], [7, 0, 8]]⟩ 'D' (by decide) (by decide) (by decide)

/-! ## The heuristics against their reference definitions; construction -/

theorem sum_map_range (f : Nat → Nat) (n : Nat) :
    ((List.range n).map f).sum = ∑ i in Finset.range n, f i := by
  induction n with
  | zero => simp
  | succ n ih => rw [List.range_succ, List.map_append, List.sum_append, ih, Finset.sum_range_succ]; simp

theorem countP_range (p : Nat → Bool) (n : Nat) :
    (List.range n).countP p = ∑ j in Finset.range n, if p j = true then 1 else 0 := by
  induction n with
  | zero => simp
  | succ n ih =>
    rw [List.range_succ, List.countP_append, ih, Finset.sum_range_succ]
    by_cases h : p n = true <;> simp [h]

theorem misplacedCount_eq_sum (B goal : Board) :
    misplacedCount B goal = ∑ i in Finset.range B.state.length,
      ∑ j in Finset.range (B.state.getD i []).length,
        if cell B.state i j ≠ 0 ∧ cell B.state i j ≠ cell goal.state i j then 1 else 0 := by
  unfold misplacedCount Board.positions
  rw [List.flatMap, List.countP_flatten, List.map_map, sum_map_range]
  apply Finset.sum_congr rfl
  intro i _
  simp only [Function.comp, List.countP_map]
  rw [countP_range]
  apply Finset.sum_congr rfl
  intro j _
  simp

/-- `h1` is the misplaced-tile count of the specification. -/
theorem h1_eq_misplacedCount (B goal : Board) : h1 B goal = (misplacedCount B goal : Int) := by
  rw [h1_eq_sum, misplacedCount_eq_sum]
  push_cast
  apply Finset.sum_congr rfl
  intro i _
  apply Finset.sum_congr rfl
  intro j _
  unfold misplacedAt Board.getState
  by_cases h1 : cell B.state i j = 0 <;> by_cases h2 : cell B.state i j = cell goal.state i j <;>
    simp [h1, h2]

/-- A valid board of positive size holds the blank. -/
theorem blank_of_valid {b : Board} {n : Nat} (h : b.valid n) (hn : 0 < n) :
    ∃ r c, firstAt b.state 0 r c := by
  have := firstAt_of_valid h (Nat.mul_pos hn hn)
  simpa using this

theorem h1_le_of_blank {B : Board} (goal : Board) {rows cols r c : Nat}
    (hshape : B.hasShape rows cols) (hblank : firstAt B.state 0 r c) :
    h1 B goal ≤ (rows : Int) * cols - 1 := by
  have hrows : r < rows := hshape.1 ▸ hblank.1
  have hcols : c < cols := by
    have := ((hasShape_iff B rows cols).1 hshape).2 r hrows
    rw [← this]; exact hblank.2.1
  rw [h1_eq_gridSum goal hshape]
  unfold gridSum
  have hmem : (r, c) ∈ Finset.range rows ×ˢ Finset.range cols :=
    Finset.mem_product.2 ⟨Finset.mem_range.2 hrows, Finset.mem_range.2 hcols⟩
  rw [← Finset.add_sum_erase _ _ hmem]
  have h0 : misplacedAt goal (cell B.state r c) r c = 0 := by
    rw [hblank.2.2.1]; exact misplacedAt_zero goal r c
  have hle : ∑ x in (Finset.range rows ×ˢ Finset.range cols).erase (r, c),
      misplacedAt goal (cell B.state x.1 x.2) x.1 x.2 ≤
      ∑ _x in (Finset.range rows ×ˢ Finset.range cols).erase (r, c), (1 : Int) :=
    Finset.sum_le_sum (fun x _ => (misplacedAt_range goal _ _ _).2)
  have hcard : ((Finset.range rows ×ˢ Finset.range cols).erase (r, c)).card = rows * cols - 1 := by
    rw [Finset.card_erase_of_mem hmem, Finset.card_product, Finset.card_range, Finset.card_range]
  have hpos : 1 ≤ rows * cols := Nat.mul_pos (by omega) (by omega)
  simp only [Finset.sum_const, hcard, nsmul_eq_mul, mul_one] at hle
  rw [h0]
  push_cast [Nat.cast_sub hpos] at hle
  linarith

/-- C13. Misplaced-tile heuristic equals its reference definition: for boards
`B` and `goal` of the same shape, `h1(B, goal)` is the number of positions
`(i, j)` with `B[i][j] ≠ 0` and `B[i][j] ≠ goal[i][j]`; positions holding the
blank are not counted, so the count is at most the number of non-blank
positions; and for a valid board (which holds the blank, so `n ≥ 1`) the result
lies between 0 and `n*n - 1`. -/
theorem C13_h1_reference (B goal : Board) (_hshape : sameShape B goal) :
    h1 B goal = (misplacedCount B goal : Int) ∧
      misplacedCount B goal ≤ B.positions.countP (fun x => decide (cell B.state x.1 x.2 ≠ 0)) ∧
      ∀ n : Nat, 0 < n → B.valid n → 0 ≤ h1 B goal ∧ h1 B goal ≤ (n : Int) * n - 1 := by
  refine ⟨h1_eq_misplacedCount B goal, ?_, ?_⟩
  · unfold misplacedCount
    apply List.countP_mono_left
    intro x _ hx
    simp only [decide_eq_true_eq] at hx ⊢
    exact hx.1
  · intro n hn hvalid
    obtain ⟨r, c, hf⟩ := blank_of_valid hvalid hn
    refine ⟨?_, h1_le_of_blank goal hvalid.1 hf⟩
    rw [h1_eq_misplacedCount]
    exact Int.natCast_nonneg _

theorem C13_h1_reference_witness :
    h1 ⟨[[8, 6, 7], [2, 5, 4], [3, 0, 1]]⟩ ⟨[[1, 2, 3], [4, 5, 6], [7, 8, 0]]⟩ =
        (misplacedCount ⟨[[8, 6, 7], [2, 5, 4], [3, 0, 1]]⟩ ⟨[[1, 2, 3], [4, 5, 6], [7, 8, 0]]⟩ :
          Int) ∧
      h1 ⟨[[8, 6, 7], [2, 5, 4], [3, 0, 1]]⟩ ⟨[[1, 2, 3], [4, 5, 6], [7, 8, 0]]⟩ ≤
        ((3 : Nat) : Int) * (3 : Nat) - 1 :=
  have h := C13_h1_reference ⟨[[8, 6, 7], [2, 5, 4], [3, 0, 1]]⟩
    ⟨[[1, 2, 3], [4, 5, 6], [7, 8, 0]]⟩ (by decide)
  ⟨h.1, (h.2.2 3 (by decide) (by decide)).2⟩

/-- C11 (as amended). The constructors do not validate: `Board`'s constructor
stores the grid it is given, and `Puzzle`'s constructor, for any initial and goal
boards on which the chosen heuristic is defined (boards of the same shape, or an
option other than 1), builds the root node (initial board, path cost 0, no
parent, label `'0'`) and leaves it as the only node of the frontier, with nothing
visited. -/
theorem C11_no_validation (initial goal : Board) (option : Int)
    (_hdef : sameShape initial goal ∨ option ≠ 1) :
    (Board.mk initial.state).getState = initial.state ∧
      (Puzzle.new initial goal option).frontierList =
        [Node.mk initial ((Puzzle.new initial goal option).calculateHeuristic initial) 0 none
          '0'] ∧
      (Puzzle.new initial goal option).uniqueSet = [] ∧
      (Puzzle.new initial goal option).initialState = initial ∧
      (Puzzle.new initial goal option).goalState = goal ∧
      (Puzzle.new initial goal option).isFrontierEmpty = false :=
  ⟨rfl, rfl, rfl, rfl, rfl, rfl⟩

theorem C11_no_validation_witness :
    (Puzzle.new ⟨[[1, 1], [0, 2]]⟩ ⟨[[1, 2], [3, 0]]⟩ 1).frontierList =
      [Node.mk ⟨[[1, 1], [0, 2]]⟩
        ((Puzzle.new ⟨[[1, 1], [0, 2]]⟩ ⟨[[1, 2], [3, 0]]⟩ 1).calculateHeuristic
          ⟨[[1, 1], [0, 2]]⟩) 0 none '0'] :=
  (C11_no_validation ⟨[[1, 1], [0, 2]]⟩ ⟨[[1, 2], [3, 0]]⟩ 1 (Or.inl (by decide))).2.1

/-- C11 as stated fails: `[[1,1],[0,2]]` repeats 1 and lacks 3, so it is not a
permutation of `0 .. 3`, yet the constructor builds the root node for it and puts
it on the frontier; likewise for the 1×2 board `[[1,0]]` against the 2×2 goal
under option 2. -/
theorem C11_counterexample :
    (¬ (Board.mk [[1, 1], [0, 2]]).valid 2 ∧
      (Puzzle.new ⟨[[1, 1], [0, 2]]⟩ ⟨[[1, 2], [3, 0]]⟩ 1).frontierList =
        [Node.mk ⟨[[1, 1], [0, 2]]⟩ 2 0 none '0']) ∧
      (¬ sameShape ⟨[[1, 0]]⟩ ⟨[[1, 2], [3, 0]]⟩ ∧
        (Puzzle.new ⟨[[1, 0]]⟩ ⟨[[1, 2], [3, 0]]⟩ 2).frontierList =
          [Node.mk ⟨[[1, 0]]⟩ 0 0 none '0']) :=
  ⟨⟨by decide, rfl⟩, ⟨by decide, rfl⟩⟩

/-- On a valid board the cell at a position holds a value of `0 .. n*n-1`, and
`findTilePosition` finds that value at that position. -/
theorem position_of_cell {B : Board} {n i j : Nat} (hB : B.valid n) (hi : i < n) (hj : j < n) :
    ∃ k : Nat, k < n * n ∧ cell B.state i j = (k : Int) ∧
      B.findTilePosition (k : Int) = ((i : Int), (j : Int)) := by
  obtain ⟨hl, hrow⟩ := (hasShape_iff B n n).1 hB.1
  have hi' : i < B.state.length := hl ▸ hi
  have hj' : j < (B.state.getD i []).length := by rw [hrow i hi]; exact hj
  obtain ⟨row, hrow0, hmem⟩ := cell_mem hi' hj'
  obtain ⟨k, hk, hcell⟩ := mem_range_of_valid hB (List.mem_flatten.2 ⟨row, hrow0, hmem⟩)
  refine ⟨k, hk, hcell, ?_⟩
  have hf := firstAt_of_nodup (nodup_of_valid hB) hi' hj'
  rw [hcell] at hf
  exact findTilePosition_of_firstAt hf

/-- On a valid board every value of `0 .. n*n-1` is found, at a position inside
the grid that holds it. -/
theorem cell_of_value {B : Board} {n k : Nat} (hB : B.valid n) (hk : k < n * n) :
    ∃ r c : Nat, r < n ∧ c < n ∧ B.findTilePosition (k : Int) = ((r : Int), (c : Int)) ∧
      cell B.state r c = (k : Int) := by
  obtain ⟨r, c, hf⟩ := firstAt_of_valid hB hk
  obtain ⟨hl, hrow⟩ := (hasShape_iff B n n).1 hB.1
  have hr : r < n := hl ▸ hf.1
  have hc : c < n := by rw [← hrow r hr]; exact hf.2.1
  exact ⟨r, c, hr, hc, findTilePosition_of_firstAt hf, hf.2.2.1⟩

/-- `h2` on a valid board is the Manhattan distance sum of the specification. -/
theorem h2_eq_manhattanSum {B : Board} (goal : Board) {n : Nat} (hB : B.valid n) :
    h2 B goal = manhattanSum B goal n n := by
  rw [h2_eq_gridSum goal hB.1]
  unfold gridSum manhattanSum
  have step1 : ∑ x in Finset.range n ×ˢ Finset.range n,
        distanceAt goal (cell B.state x.1 x.2) x.1 x.2 =
      ∑ v in Finset.range (n * n), distanceAt goal (v : Int)
        (B.findTilePosition (v : Int)).1.toNat (B.findTilePosition (v : Int)).2.toNat := by
    apply Finset.sum_nbij' (fun x => (cell B.state x.1 x.2).toNat)
      (fun v => ((B.findTilePosition (v : Int)).1.toNat, (B.findTilePosition (v : Int)).2.toNat))
    · rintro ⟨i, j⟩ hx
      obtain ⟨hi, hj⟩ := Finset.mem_product.1 hx
      obtain ⟨k, hk, hc, _⟩ := position_of_cell hB (Finset.mem_range.1 hi) (Finset.mem_range.1 hj)
      simp only [hc, Int.toNat_ofNat]
      exact Finset.mem_range.2 hk
    · intro v hv
      obtain ⟨r, c, hr, hc, hp, _⟩ := cell_of_value hB (Finset.mem_range.1 hv)
      simp only [hp, Int.toNat_ofNat]
      exact Finset.mem_product.2 ⟨Finset.mem_range.2 hr, Finset.mem_range.2 hc⟩
    · rintro ⟨i, j⟩ hx
      obtain ⟨hi, hj⟩ := Finset.mem_product.1 hx
      obtain ⟨k, hk, hc, hp⟩ := position_of_cell hB (Finset.mem_range.1 hi) (Finset.mem_range.1 hj)
      simp only [hc, Int.toNat_ofNat, hp]
    · intro v hv
      obtain ⟨r, c, hr, hc, hp, hcell⟩ := cell_of_value hB (Finset.mem_range.1 hv)
      simp only [hp, Int.toNat_ofNat, hcell]
    · rintro ⟨i, j⟩ hx
      obtain ⟨hi, hj⟩ := Finset.mem_product.1 hx
      obtain ⟨k, hk, hc, hp⟩ := position_of_cell hB (Finset.mem_range.1 hi) (Finset.mem_range.1 hj)
      simp only [hc, Int.toNat_ofNat, hp]
  have step2 : ∑ v in Finset.Icc 1 (n * n - 1), distanceAt goal (v : Int)
        (B.findTilePosition (v : Int)).1.toNat (B.findTilePosition (v : Int)).2.toNat =
      ∑ v in Finset.range (n * n), distanceAt goal (v : Int)
        (B.findTilePosition (v : Int)).1.toNat (B.findTilePosition (v : Int)).2.toNat := by
    apply Finset.sum_subset
    · intro v hv
      rw [Finset.mem_Icc] at hv
      exact Finset.mem_range.2 (by omega)
    · intro v hv hnot
      rw [Finset.mem_range] at hv
      rw [Finset.mem_Icc] at hnot
      have : v = 0 := by omega
      subst this
      exact distanceAt_zero goal _ _
  rw [step1, ← step2]
  apply Finset.sum_congr rfl
  intro v hv
  rw [Finset.mem_Icc] at hv
  obtain ⟨r, c, _, _, hp, _⟩ := cell_of_value hB (show v < n * n by omega)
  have hv0 : (v : Int) ≠ 0 := by omega
  unfold distanceAt
  rw [if_pos hv0, hp]
  simp only [Int.toNat_ofNat]

/-- C12. Manhattan heuristic equals its reference definition: for valid boards
`B` and `goal` of the same shape, `h2(B, goal)` is the sum, over the non-blank
values `v` of `1 .. n*n-1`, of the row difference plus the column difference
between the position of `v` in `B` and in `goal`; the blank adds nothing, and the
result is non-negative. -/
theorem C12_h2_reference (n : Nat) (B goal : Board) (hB : B.valid n) (_hgoal : goal.valid n) :
    h2 B goal = manhattanSum B goal n n ∧ 0 ≤ h2 B goal ∧
      (∀ i j, distanceAt goal 0 i j = 0) := by
  refine ⟨h2_eq_manhattanSum goal hB, ?_, distanceAt_zero goal⟩
  rw [h2_eq_manhattanSum goal hB]
  unfold manhattanSum
  apply Finset.sum_nonneg
  intro v _
  omega

theorem C12_h2_reference_witness :
    h2 ⟨[[8, 6, 7], [2, 5, 4], [3, 0, 1]]⟩ ⟨[[1, 2, 3], [4, 5, 6], [7, 8, 0]]⟩ =
      manhattanSum ⟨[[8, 6, 7], [2, 5, 4], [3, 0, 1]]⟩ ⟨[[1, 2, 3], [4, 5, 6], [7, 8, 0]]⟩ 3 3 :=
  (C12_h2_reference 3 ⟨[[8, 6, 7], [2, 5, 4], [3, 0, 1]]⟩ ⟨[[1, 2, 3], [4, 5, 6], [7, 8, 0]]⟩
    (by decide) (by decide)).1

/-! ## Moves permute the cells and can be undone -/

theorem sum_map_getD {α : Type} (l : List α) (d : α) (f : α → Nat) :
    (l.map f).sum = ∑ i in Finset.range l.length, f (l.getD i d) := by
  induction l with
  | nil => simp
  | cons x xs ih =>
    rw [List.map_cons, List.sum_cons, List.length_cons, Finset.sum_range_succ', ih]
    simp [add_comm]

theorem count_eq_sum_map (a : Int) (l : List Int) :
    l.count a = (l.map (fun x => if x = a then 1 else 0)).sum := by
  induction l with
  | nil => simp
  | cons x xs ih =>
    rw [List.count_cons, ih, List.map_cons, List.sum_cons]
    by_cases h : x = a <;> simp [h, add_comm]

/-- The number of occurrences of a value in a rectangular grid, as a sum over its cells. -/
theorem count_flatten_eq_gridSum (a : Int) {b : Board} {rows cols : Nat}
    (h : b.hasShape rows cols) :
    (b.state.flatten.count a : Int) =
      gridSum (fun v _ _ => if v = a then 1 else 0) b.state rows cols := by
  rw [← sum_rows_eq_gridSum (fun v _ _ => if v = a then 1 else 0) h, List.count_flatten,
    sum_map_getD b.state [] (List.count a)]
  push_cast
  apply Finset.sum_congr rfl
  intro i _
  rw [count_eq_sum_map, sum_map_getD _ 0]
  push_cast
  rfl

/-- Swapping two cells leaves a sum of contributions that do not depend on the
position unchanged. -/
theorem gridSum_swapCells_const (G : Int → Int) {s : List (List Int)}
    {rows cols r1 c1 r2 c2 : Nat}
    (hlen : s.length = rows) (hrow : ∀ i, i < rows → (s.getD i []).length = cols)
    (h1 : r1 < rows) (h1' : c1 < cols) (h2 : r2 < rows) (h2' : c2 < cols)
    (hne : ¬ (r1 = r2 ∧ c1 = c2)) :
    gridSum (fun v _ _ => G v) (swapCells s r1 c1 r2 c2) rows cols =
      gridSum (fun v _ _ => G v) s rows cols := by
  have hcell : ∀ k l, cell (swapCells s r1 c1 r2 c2) k l =
      if k = r2 ∧ l = c2 then cell s r1 c1
      else if k = r1 ∧ l = c1 then cell s r2 c2 else cell s k l := fun k l =>
    cell_swapCells s r1 c1 r2 c2 k l (hlen ▸ h1) (by rw [hrow r1 h1]; exact h1')
      (hlen ▸ h2) (by rw [hrow r2 h2]; exact h2')
  have key : gridSum (fun v _ _ => G v) (swapCells s r1 c1 r2 c2) rows cols -
      gridSum (fun v _ _ => G v) s rows cols = 0 := by
    unfold gridSum
    rw [← Finset.sum_sub_distrib]
    rw [Finset.sum_eq_add (r1, c1) (r2, c2)]
    · simp only [hcell]
      rw [if_neg hne]
      simp
    · intro h
      exact hne ⟨congrArg Prod.fst h, congrArg Prod.snd h⟩
    · rintro ⟨k, l⟩ _ ⟨hk1, hk2⟩
      simp only [hcell]
      rw [if_neg, if_neg]
      · simp
      · rintro ⟨rfl, rfl⟩; exact hk1 rfl
      · rintro ⟨rfl, rfl⟩; exact hk2 rfl
    · intro h; exact absurd (Finset.mem_product.2 ⟨Finset.mem_range.2 h1, Finset.mem_range.2 h1'⟩) h
    · intro h; exact absurd (Finset.mem_product.2 ⟨Finset.mem_range.2 h2, Finset.mem_range.2 h2'⟩) h
  linarith

/-- A successful move permutes the cell values of a rectangular grid. -/
theorem perm_move {b b' : Board} {rows cols : Nat} {d : Char} (hshape : b.hasShape rows cols)
    (hm : b.move d = (b', true)) : List.Perm b'.state.flatten b.state.flatten := by
  obtain ⟨r, c, r', c', hr, hc, hr', hc', _, hadj, hs, hshape'⟩ := move_swap hshape hm
  obtain ⟨hl, hrow⟩ := (hasShape_iff b rows cols).1 hshape
  rw [List.perm_iff_count]
  intro a
  have h1 := count_flatten_eq_gridSum a hshape'
  have h2 := count_flatten_eq_gridSum a hshape
  rw [hs] at h1 ⊢
  rw [gridSum_swapCells_const (fun v => if v = a then 1 else 0) hl hrow hr hc hr' hc'
    (by omega)] at h1
  exact_mod_cast h1.trans h2.symm

/-- A rejected move leaves the board as it is. -/
theorem move_of_false {b : Board} {d : Char} (h : (b.move d).2 = false) : (b.move d).1 = b := by
  unfold Board.move at h ⊢
  simp only at h ⊢
  split_ifs at h ⊢
  simp_all

theorem move_cases (b : Board) (d : Char) :
    b.move d = (b, false) ∨ ∃ b', b.move d = (b', true) := by
  cases h : (b.move d).2 with
  | false => exact Or.inl (Prod.ext (move_of_false h) h)
  | true => exact Or.inr ⟨(b.move d).1, Prod.ext rfl h⟩

theorem valid_move {b b' : Board} {n : Nat} {d : Char} (hb : b.valid n)
    (hm : b.move d = (b', true)) : b'.valid n :=
  ⟨hasShape_move hb.1 hm, (perm_move hb.1 hm).trans hb.2⟩

theorem valid_applyMoves {b b' : Board} {n : Nat} {ds : List Char} (hb : b.valid n)
    (h : applyMoves b ds = some b') : b'.valid n := by
  induction ds generalizing b with
  | nil => simp [applyMoves] at h; subst h; exact hb
  | cons d ds ih =>
    obtain ⟨b1, hm, h'⟩ := applyMoves_cons.1 h
    exact ih (valid_move hb hm) h'

theorem swapCells_swapCells {s : List (List Int)} {r1 c1 r2 c2 : Nat}
    (h1 : r1 < s.length) (h1' : c1 < (s.getD r1 []).length)
    (h2 : r2 < s.length) (h2' : c2 < (s.getD r2 []).length) :
    swapCells (swapCells s r1 c1 r2 c2) r2 c2 r1 c1 = s := by
  apply state_ext
  · rw [length_swapCells, length_swapCells]
  · intro i _
    rw [rowLength_swapCells, rowLength_swapCells]
  · intro i j _ _
    rw [cell_swapCells _ _ _ _ _ _ _ (by rwa [length_swapCells])
      (by rwa [rowLength_swapCells]) (by rwa [length_swapCells]) (by rwa [rowLength_swapCells])]
    simp only [cell_swapCells s r1 c1 r2 c2 _ _ h1 h1' h2 h2']
    by_cases ha : i = r1 ∧ j = c1
    · obtain ⟨rfl, rfl⟩ := ha
      simp
    · by_cases hb : i = r2 ∧ j = c2
      · obtain ⟨rfl, rfl⟩ := hb
        have : ¬ (r1 = i ∧ c1 = j) := fun h => ha ⟨h.1.symm, h.2.symm⟩
        simp [ha, this]
      · simp [ha, hb]

theorem count_zero_of_valid {b : Board} {n : Nat} (h : b.valid n) (hn : 0 < n) :
    b.state.flatten.count 0 = 1 := by
  rw [h.2.count_eq]
  have hnd : ((List.range (n * n)).map Int.ofNat).Nodup :=
    List.Nodup.map (fun a b hab => Int.ofNat.inj hab) (List.nodup_range _)
  apply List.count_eq_one_of_mem hnd
  simp only [List.mem_map, List.mem_range]
  exact ⟨0, Nat.mul_pos hn hn, rfl⟩

theorem searchInv_steps {init goal : Board} {option : Int} {rows cols : Nat} {p q : Puzzle}
    (hinv : SearchInv init goal option rows cols p) (h : Relation.ReflTransGen Step p q) :
    SearchInv init goal option rows cols q := by
  induction h with
  | refl => exact hinv
  | tail _ hstep ih =>
    obtain ⟨_, i, htop, hit⟩ := hstep
    exact searchInv_next ih htop hit

/-- C19. Board validity is preserved by move: for a rectangular board and any
direction character, after `move` (returning true or false) the board has the
same number of rows and the same row lengths, and the same multiset of cell
values; so a valid board stays valid, with its one blank, and in a search from a
valid initial board every board reached by moves, every frontier node's board and
every visited board is valid. -/
theorem C19_validity_preserved (b : Board) (rows cols : Nat) (d : Char)
    (hshape : b.hasShape rows cols) :
    ((b.move d).1.hasShape rows cols ∧ sameShape (b.move d).1 b ∧
      List.Perm (b.move d).1.state.flatten b.state.flatten) ∧
    (∀ n, b.valid n → (b.move d).1.valid n ∧
      (0 < n → b.state.flatten.count 0 = 1 ∧ (b.move d).1.state.flatten.count 0 = 1)) ∧
    (∀ (n : Nat) (initial goal : Board) (option : Int), initial.valid n →
      (∀ ds b', applyMoves initial ds = some b' → b'.valid n) ∧
      ∀ q, Relation.ReflTransGen Step (Puzzle.new initial goal option) q →
        (∀ m ∈ q.frontierList, m.getBoard.valid n) ∧ ∀ v ∈ q.uniqueSet, v.valid n) := by
  have hmove : (b.move d).1.hasShape rows cols ∧
      List.Perm (b.move d).1.state.flatten b.state.flatten := by
    rcases move_cases b d with h | ⟨b', h⟩
    · rw [h]; exact ⟨hshape, List.Perm.refl _⟩
    · rw [h]; exact ⟨hasShape_move hshape h, perm_move hshape h⟩
  refine ⟨⟨hmove.1, ?_, hmove.2⟩, ?_, ?_⟩
  · unfold sameShape
    have e1 : ∀ (x : Board), x.hasShape rows cols →
        x.state.map List.length = List.replicate rows cols := by
      intro x hx
      rw [List.eq_replicate_iff]
      refine ⟨by simpa using hx.1, fun y hy => ?_⟩
      obtain ⟨row, hrow, rfl⟩ := List.mem_map.1 hy
      exact hx.2 row hrow
    rw [e1 _ hmove.1, e1 _ hshape]
  · intro n hvalid
    have hv : (b.move d).1.valid n := by
      rcases move_cases b d with h | ⟨b', h⟩
      · rw [h]; exact hvalid
      · rw [h]; exact valid_move hvalid h
    exact ⟨hv, fun hn => ⟨count_zero_of_valid hvalid hn, count_zero_of_valid hv hn⟩⟩
  · intro n initial goal option hinit
    refine ⟨fun ds b' h => valid_applyMoves hinit h, fun q hq => ?_⟩
    have hinv := searchInv_steps (searchInv_new initial goal option hinit.1) hq
    constructor
    · intro m hm
      obtain ⟨ds, _, hds⟩ := legalChain_path initial m (hinv.nodes m hm).1
      exact valid_applyMoves hinit hds
    · intro v hv
      obtain ⟨ds, hds⟩ := hinv.visited v hv
      exact valid_applyMoves hinit hds

theorem C19_validity_preserved_witness :
    ((Board.mk [[1, 2, 3], [4, 0, 5], [6, 7, 8]]).move 'R').1.valid 3 ∧
      ((Board.mk [[1, 2, 3], [4, 0, 5], [6, 7, 8]]).move 'x').1.valid 3 :=
  ⟨((C19_validity_preserved ⟨[[1, 2, 3], [4, 0, 5], [6, 7, 8]]⟩ 3 3 'R' (by decide)).2.1 3
      (by decide)).1,
    ((C19_validity_preserved ⟨[[1, 2, 3], [4, 0, 5], [6, 7, 8]]⟩ 3 3 'x' (by decide)).2.1 3
      (by decide)).1⟩

theorem opposite_mem {d : Char} (hd : d ∈ directions) : opposite d ∈ directions := by
  rw [mem_directions] at hd
  rcases hd with rfl | rfl | rfl | rfl <;> decide

/-- On a valid board a successful move is undone by the opposite move. -/
theorem move_opposite {B B' : Board} {n : Nat} {d : Char} (hB : B.valid n)
    (hm : B.move d = (B', true)) : B'.move (opposite d) = (B, true) := by
  have hd : d ∈ directions := by
    by_contra hd
    rw [move_of_not_direction hd] at hm
    simp at hm
  rcases findTilePosition_cases B 0 with ⟨hn, _⟩ | ⟨r, c, hf, _⟩
  · rw [move_of_no_blank hn] at hm; simp at hm
  · have hin : insideGrid n n (targetCell d r c) := by
      by_contra hin
      rw [move_eq hB.1 hf hd, if_neg hin] at hm
      simp at hm
    obtain ⟨e1, _, e3, _⟩ := move_effect hB.1 hf hd hin
    rw [hm] at e1 e3
    have hB' := valid_move hB hm
    obtain ⟨hl, hrow⟩ := (hasShape_iff B n n).1 hB.1
    obtain ⟨hl', hrow'⟩ := (hasShape_iff B' n n).1 hB'.1
    have hr : r < n := hl ▸ hf.1
    have hc : c < n := by rw [← hrow r hr]; exact hf.2.1
    obtain ⟨t1, t2, t3, t4⟩ := hin
    have htr : (targetCell d r c).1.toNat < n := by omega
    have htc : (targetCell d r c).2.toNat < n := by omega
    have hf' : firstAt B'.state 0 (targetCell d r c).1.toNat (targetCell d r c).2.toNat := by
      have := firstAt_of_nodup (nodup_of_valid hB') (hl'.symm ▸ htr)
        (by rw [hrow' _ htr]; exact htc)
      rwa [e3] at this
    have hback : targetCell (opposite d) (targetCell d r c).1.toNat (targetCell d r c).2.toNat =
        ((r : Int), (c : Int)) := by
      rw [mem_directions] at hd
      rcases hd with rfl | rfl | rfl | rfl <;>
        simp [targetCell, opposite] at t1 t2 t3 t4 ⊢ <;> omega
    have hin' : insideGrid n n
        (targetCell (opposite d) (targetCell d r c).1.toNat (targetCell d r c).2.toNat) := by
      rw [hback]
      simp only [insideGrid]
      omega
    rw [move_eq hB'.1 hf' (opposite_mem hd), if_pos hin', hback]
    simp only [Int.toNat_ofNat]
    have hs : B'.state = swapCells B.state r c (targetCell d r c).1.toNat
        (targetCell d r c).2.toNat := by
      have := congrArg Prod.fst e1
      simp only at this
      rw [this]
    rw [hs, swapCells_swapCells hf.1 hf.2.1 (hl.symm ▸ htr) (by rw [hrow _ htr]; exact htc)]

/-- C20. Moves are reversible: on a valid board `B`, if `move(d)` with `d` one of
L, R, U, D succeeds and gives `B'`, then the opposite move (R for L, L for R, D
for U, U for D) succeeds on `B'` and gives `B` again; so between valid boards a
move leads from `X` to `Y` exactly when one leads from `Y` to `X`. -/
theorem C20_moves_reversible (n : Nat) (B B' : Board) (d : Char) (hB : B.valid n)
    (_hd : d ∈ directions) (hm : B.move d = (B', true)) :
    B'.move (opposite d) = (B, true) ∧ opposite d ∈ directions ∧
      ∀ X Y : Board, X.valid n → Y.valid n →
        ((∃ d1 ∈ directions, X.move d1 = (Y, true)) ↔
          ∃ d2 ∈ directions, Y.move d2 = (X, true)) := by
  refine ⟨move_opposite hB hm, opposite_mem _hd, ?_⟩
  intro X Y hX hY
  constructor
  · rintro ⟨d1, hd1, h1⟩
    exact ⟨opposite d1, opposite_mem hd1, move_opposite hX h1⟩
  · rintro ⟨d2, hd2, h2⟩
    exact ⟨opposite d2, opposite_mem hd2, move_opposite hY h2⟩

theorem C20_moves_reversible_witness :
    (Board.mk [[1, 2, 3], [4, 5, 0], [6, 7, 8]]).move (opposite 'R') =
      (Board.mk [[1, 2, 3], [4, 0, 5], [6, 7, 8]], true) :=
  (C20_moves_reversible 3 ⟨[[1, 2, 3], [4, 0, 5], [6, 7, 8]]⟩ ⟨[[1, 2, 3], [4, 5, 0], [6, 7, 8]]⟩
    'R' (by decide) (by decide) (by decide)).1

/-! ## Successor generation and re-expansion -/

theorem successorNode_eq (p : Puzzle) (N : Node) (d : Char) :
    p.successorNode N d =
      if (N.getBoard.move d).2 = true then
        some (Node.mk (N.getBoard.move d).1 (p.calculateHeuristic (N.getBoard.move d).1)
          (N.getPathCost + 1) (some N) d)
      else none := by
  unfold Puzzle.successorNode
  rcases h : N.getBoard.move d with ⟨b', flag⟩
  cases flag <;> simp

theorem flatMap_toList {α β : Type} (f : α → Option β) (l : List α) :
    l.flatMap (fun a => (f a).toList) = l.filterMap f := by
  induction l with
  | nil => rfl
  | cons a l ih =>
    rw [List.flatMap_cons, ih, List.filterMap_cons]
    cases f a <;> simp

/-- On a valid board of size at least 2 between two and four of the moves succeed. -/
theorem successful_moves_count {b : Board} {n : Nat} (hb : b.valid n) (hn : 2 ≤ n) :
    2 ≤ (directions.filter (fun d => (b.move d).2)).length ∧
      (directions.filter (fun d => (b.move d).2)).length ≤ 4 := by
  obtain ⟨r, c, hf⟩ := blank_of_valid hb (by omega)
  obtain ⟨hl, hrow⟩ := (hasShape_iff b n n).1 hb.1
  have hr : r < n := hl ▸ hf.1
  have hc : c < n := by rw [← hrow r hr]; exact hf.2.1
  have hL : (b.move 'L').2 = decide (0 < c) := by
    rw [move_eq hb.1 hf (by decide)]
    by_cases h : 0 < c
    · rw [if_pos (by simp only [targetCell, insideGrid]; simp; omega)]; simp [h]
    · rw [if_neg (by simp only [targetCell, insideGrid]; simp; omega)]; simp [h]
  have hR : (b.move 'R').2 = decide (c + 1 < n) := by
    rw [move_eq hb.1 hf (by decide)]
    by_cases h : c + 1 < n
    · rw [if_pos (by simp only [targetCell, insideGrid]; simp; omega)]; simp [h]
    · rw [if_neg (by simp only [targetCell, insideGrid]; simp; omega)]; simp [h]
  have hU : (b.move 'U').2 = decide (0 < r) := by
    rw [move_eq hb.1 hf (by decide)]
    by_cases h : 0 < r
    · rw [if_pos (by simp only [targetCell, insideGrid]; simp; omega)]; simp [h]
    · rw [if_neg (by simp only [targetCell, insideGrid]; simp; omega)]; simp [h]
  have hD : (b.move 'D').2 = decide (r + 1 < n) := by
    rw [move_eq hb.1 hf (by decide)]
    by_cases h : r + 1 < n
    · rw [if_pos (by simp only [targetCell, insideGrid]; simp; omega)]; simp [h]
    · rw [if_neg (by simp only [targetCell, insideGrid]; simp; omega)]; simp [h]
  simp only [directions, List.filter_cons, hL, hR, hU, hD, List.filter_nil]
  by_cases a1 : 0 < c <;> by_cases a2 : c + 1 < n <;> by_cases a3 : 0 < r <;>
    by_cases a4 : r + 1 < n <;> simp [a1, a2, a3, a4] <;> omega

/-- C17. Successor generation: for a node `N` with a valid board,
`Puzzle::expand(N)` appends to the frontier one node for each of L, R, U, D (in
that order) whose `move` succeeds on a copy of `N`'s board and none for the
others; each new node holds the moved board, path cost `N.pathCost + 1`, the
heuristic of that board, parent `N` and the direction; the nodes already in the
frontier and everything else in the puzzle stay as they are.  For an `n`×`n`
board with `n ≥ 2` between 2 and 4 nodes are appended. -/
theorem C17_successor_generation (p : Puzzle) (N : Node) (n : Nat) (hvalid : N.getBoard.valid n) :
    (p.expand N).frontierList =
        p.frontierList ++ directions.filterMap (fun d =>
          if (N.getBoard.move d).2 = true then
            some (Node.mk (N.getBoard.move d).1 (p.calculateHeuristic (N.getBoard.move d).1)
              (N.getPathCost + 1) (some N) d)
          else none) ∧
      ((p.expand N).uniqueSet = p.uniqueSet ∧ (p.expand N).initialState = p.initialState ∧
        (p.expand N).goalState = p.goalState ∧
        (p.expand N).heuristicOption = p.heuristicOption) ∧
      (p.expand N).frontierList.length =
        p.frontierList.length + (directions.filter (fun d => (N.getBoard.move d).2)).length ∧
      (2 ≤ n → 2 ≤ (directions.filter (fun d => (N.getBoard.move d).2)).length ∧
        (directions.filter (fun d => (N.getBoard.move d).2)).length ≤ 4) := by
  have hfront : (p.expand N).frontierList =
      p.frontierList ++ directions.filterMap (fun d =>
        if (N.getBoard.move d).2 = true then
          some (Node.mk (N.getBoard.move d).1 (p.calculateHeuristic (N.getBoard.move d).1)
            (N.getPathCost + 1) (some N) d)
        else none) := by
    rw [expand_eq]
    simp only
    rw [flatMap_toList]
    congr 1
    apply List.filterMap_congr
    intro d _
    exact successorNode_eq p N d
  refine ⟨hfront, ?_, ?_, fun hn => successful_moves_count hvalid hn⟩
  · rw [expand_eq]
    exact ⟨rfl, rfl, rfl, rfl⟩
  · rw [hfront, List.length_append]
    congr 1
    generalize directions = ds
    induction ds with
    | nil => rfl
    | cons d ds ih =>
      rw [List.filterMap_cons, List.filter_cons]
      by_cases h : (N.getBoard.move d).2 = true
      · simp only [h, if_true, List.length_cons, ih]
      · simp only [h, if_false]
        exact ih

theorem C17_successor_generation_witness :
    ((Puzzle.new ⟨[[1, 2], [0, 3]]⟩ ⟨[[1, 2], [3, 0]]⟩ 1).expand
        (Node.mk ⟨[[1, 2], [0, 3]]⟩ 1 0 none '0')).frontierList.length =
      (Puzzle.new ⟨[[1, 2], [0, 3]]⟩ ⟨[[1, 2], [3, 0]]⟩ 1).frontierList.length +
        (directions.filter (fun d => ((Node.mk ⟨[[1, 2], [0, 3]]⟩ 1 0 none '0').getBoard.move
          d).2)).length :=
  (C17_successor_generation (Puzzle.new ⟨[[1, 2], [0, 3]]⟩ ⟨[[1, 2], [3, 0]]⟩ 1)
    (Node.mk ⟨[[1, 2], [0, 3]]⟩ 1 0 none '0') 2 (by decide)).2.2.1

/-- The visited set never holds a board twice. -/
theorem nodup_uniqueSet_steps {p q : Puzzle} (hp : p.uniqueSet.Nodup)
    (h : Relation.ReflTransGen Step p q) : q.uniqueSet.Nodup := by
  induction h with
  | refl => exact hp
  | @tail a b _ hstep ih =>
    obtain ⟨_, i, htop, hit⟩ := hstep
    obtain ⟨n, hn, _⟩ := isTop_spec htop
    rcases iterate_cases hn with ⟨_, he⟩ | ⟨_, _, he⟩ | ⟨hv, _, he⟩
    · rw [he] at hit
      obtain rfl : _ = b := by simpa using hit
      exact ih
    · rw [he] at hit
      simp at hit
    · rw [he] at hit
      obtain rfl : _ = b := by simpa using hit
      exact List.nodup_cons.2 ⟨hv, ih⟩

/-- The boards reachable from a rectangular board, as a finite set. -/
theorem exists_reachable {init : Board} {rows cols : Nat} (hshape : init.hasShape rows cols) :
    ∃ reachable : Finset Board, ∀ b, b ∈ reachable ↔ ∃ ds, applyMoves init ds = some b := by
  classical
  obtain ⟨boards, hboards⟩ := exists_boards hshape
  refine ⟨boards.filter (fun b => ∃ ds, applyMoves init ds = some b), fun b => ?_⟩
  rw [Finset.mem_filter]
  exact ⟨fun h => h.2, fun h => ⟨h.elim fun ds hds => hboards ds b hds, h⟩⟩

/-- The three ways an iteration of the loop of `solve` can go, with the state it
leaves: a visited board only loses the node taken; the goal ends the loop; any
other board is inserted and `expand` is called on the node. -/
theorem iterate_expand_cases {p : Puzzle} {i : Nat} {n : Node}
    (hn : p.frontierList[i]? = some n) :
    (n.getBoard ∈ p.uniqueSet →
      p.iterate i = some (.next { p with frontierList := p.frontierList.eraseIdx i })) ∧
    (n.getBoard ∉ p.uniqueSet → n.getBoard = p.goalState →
      p.iterate i = some (.found n)) ∧
    (n.getBoard ∉ p.uniqueSet → n.getBoard ≠ p.goalState →
      p.iterate i = some (.next (Puzzle.expand
        { p with
          frontierList := p.frontierList.eraseIdx i
          uniqueSet := n.getBoard :: p.uniqueSet } n))) := by
  unfold Puzzle.iterate
  rw [hn]
  simp only
  refine ⟨fun hv => by simp [hv], fun hv hg => ?_, fun hv hg => ?_⟩
  · rw [if_neg hv]
    simp [Board.isGoalState, Board.getState, hg]
  · have hg' : ¬ n.getBoard.state = p.goalState.state := fun h => hg (board_ext h)
    simp only [if_neg hv, Board.isGoalState, Board.getState, hg', decide_False]
    simp

theorem uniqueSet_expand (p : Puzzle) (n : Node) : (p.expand n).uniqueSet = p.uniqueSet := by
  rw [expand_eq]

theorem runLog_of_run {p : Puzzle} {r : SolveResult} (h : Run p r) : ∃ xs, RunLog p xs r := by
  induction h with
  | noSolution p he => exact ⟨[], RunLog.noSolution p he⟩
  | found p i n he htop hit => exact ⟨[], RunLog.found p i n he htop hit⟩
  | next p i q r he htop hit _ ih =>
    obtain ⟨xs, hxs⟩ := ih
    obtain ⟨node, hn, _⟩ := isTop_spec htop
    obtain ⟨i1, i2, i3⟩ := iterate_expand_cases hn
    by_cases hv : node.getBoard ∈ p.uniqueSet
    · have e := i1 hv
      rw [hit] at e
      obtain rfl : q = _ := by simpa using e
      exact ⟨xs, RunLog.drop p i xs r he htop hit hxs⟩
    · by_cases hg : node.getBoard = p.goalState
      · have e := i2 hv hg
        rw [hit] at e
        simp at e
      · have e := i3 hv hg
        rw [hit] at e
        obtain rfl : q = _ := by simpa using e
        exact ⟨node :: xs, RunLog.expand p i node xs r he htop hn hit hxs⟩

theorem run_of_runLog {p : Puzzle} {xs : List Node} {r : SolveResult} (h : RunLog p xs r) :
    Run p r := by
  induction h with
  | noSolution p he => exact Run.noSolution p he
  | found p i n he htop hit => exact Run.found p i n he htop hit
  | drop p i xs r he htop hit _ ih => exact Run.next p i _ r he htop hit ih
  | expand p i node xs r he htop _ hit _ ih => exact Run.next p i _ r he htop hit ih

/-- The nodes expanded in a run have pairwise different boards, none of them
visited before, all of them reachable from the initial board. -/
theorem runLog_expansions {init goal : Board} {option : Int} {rows cols : Nat} {p : Puzzle}
    {xs : List Node} {r : SolveResult} (hinv : SearchInv init goal option rows cols p)
    (h : RunLog p xs r) :
    (xs.map Node.getBoard).Nodup ∧
      ∀ x ∈ xs, x.getBoard ∉ p.uniqueSet ∧ ∃ ds, applyMoves init ds = some x.getBoard := by
  induction h with
  | noSolution p he => simp
  | found p i n he htop hit => simp
  | drop p i xs r he htop hit _ ih => exact ih (searchInv_next hinv htop hit)
  | expand p i node xs r he htop hn hit _ ih =>
    obtain ⟨hnd, hall⟩ := ih (searchInv_next hinv htop hit)
    have hv : node.getBoard ∉ p.uniqueSet := by
      intro hv
      have e := (iterate_expand_cases hn).1 hv
      rw [hit] at e
      have e2 := congrArg Puzzle.uniqueSet (Iteration.next.inj (Option.some.inj e))
      rw [uniqueSet_expand] at e2
      simp at e2
    simp only [uniqueSet_expand, List.mem_cons, not_or] at hall
    simp only [List.map_cons, List.nodup_cons, List.mem_cons, List.mem_map, not_exists, not_and]
    refine ⟨⟨fun x hx hxe => (hall x hx).1.1 hxe, hnd⟩, ?_⟩
    rintro x (rfl | hx)
    · obtain ⟨ds, _, hds⟩ := legalChain_path init x (hinv.nodes x (List.getElem?_mem hn)).1
      exact ⟨hv, ds, hds⟩
    · exact ⟨(hall x hx).1.2, (hall x hx).2⟩

/-- C15. No re-expansion: in `Puzzle::solve`, a node taken from the frontier
whose board is already visited is dropped: the iteration leaves the frontier
without that node, pushes nothing, and leaves the visited set as it was, so it
makes no call to `expand`; a node with a new board that is not the goal has its
board inserted and `expand` called on it.  So in a search on valid boards the
visited set never holds a board twice, holds only boards reachable from the
initial board and has at most as many boards as are reachable; and in every run
the nodes on which `expand` is called have pairwise different boards, reachable
from the initial board, and are at most as many as the reachable boards. -/
theorem C15_no_reexpansion (n : Nat) (initial goal : Board) (option : Int)
    (hinit : initial.valid n) (_hgoal : goal.valid n) (_hopt : option = 1 ∨ option = 2) :
    (∀ (p : Puzzle) (i : Nat) (node : Node), p.frontierList[i]? = some node →
      (node.getBoard ∈ p.uniqueSet →
        p.iterate i = some (.next { p with frontierList := p.frontierList.eraseIdx i })) ∧
      (node.getBoard ∉ p.uniqueSet → node.getBoard = p.goalState →
        p.iterate i = some (.found node)) ∧
      (node.getBoard ∉ p.uniqueSet → node.getBoard ≠ p.goalState →
        p.iterate i = some (.next (Puzzle.expand
          { p with
            frontierList := p.frontierList.eraseIdx i
            uniqueSet := node.getBoard :: p.uniqueSet } node)))) ∧
    (∃ reachable : Finset Board,
      (∀ b, b ∈ reachable ↔ ∃ ds, applyMoves initial ds = some b) ∧
      (∀ q, Relation.ReflTransGen Step (Puzzle.new initial goal option) q →
        q.uniqueSet.Nodup ∧ (∀ b ∈ q.uniqueSet, b ∈ reachable) ∧
        q.uniqueSet.length ≤ reachable.card) ∧
      ∀ xs r, RunLog (Puzzle.new initial goal option) xs r →
        (xs.map Node.getBoard).Nodup ∧ (∀ x ∈ xs, x.getBoard ∈ reachable) ∧
        xs.length ≤ reachable.card) ∧
    (∀ r, Run (Puzzle.new initial goal option) r ↔
      ∃ xs, RunLog (Puzzle.new initial goal option) xs r) := by
  have hinv := searchInv_new initial goal option hinit.1
  refine ⟨fun p i node hn => iterate_expand_cases hn, ?_,
    fun r => ⟨runLog_of_run, fun h => h.elim fun _ hx => run_of_runLog hx⟩⟩
  obtain ⟨reachable, hreach⟩ := exists_reachable hinit.1
  refine ⟨reachable, hreach, ?_, ?_⟩
  · intro q hq
    have hnd : q.uniqueSet.Nodup :=
      nodup_uniqueSet_steps (by simp [Puzzle.new, Puzzle.addToFrontier]) hq
    have hmem : ∀ b ∈ q.uniqueSet, b ∈ reachable := fun b hb =>
      (hreach b).2 ((searchInv_steps hinv hq).visited b hb)
    refine ⟨hnd, hmem, ?_⟩
    have hsub : q.uniqueSet.toFinset ⊆ reachable := by
      intro b hb
      exact hmem b (List.mem_toFinset.1 hb)
    have := Finset.card_le_card hsub
    rwa [List.toFinset_card_of_nodup hnd] at this
  · intro xs r hlog
    obtain ⟨hnd, hall⟩ := runLog_expansions hinv hlog
    have hmem : ∀ x ∈ xs, x.getBoard ∈ reachable := fun x hx =>
      (hreach _).2 (hall x hx).2
    refine ⟨hnd, hmem, ?_⟩
    have hsub : (xs.map Node.getBoard).toFinset ⊆ reachable := by
      intro b hb
      rw [List.mem_toFinset, List.mem_map] at hb
      obtain ⟨x, hx, rfl⟩ := hb
      exact hmem x hx
    have := Finset.card_le_card hsub
    rw [List.toFinset_card_of_nodup hnd, List.length_map] at this
    exact this

theorem C15_no_reexpansion_witness :
    ∃ xs, RunLog (Puzzle.new ⟨[[0, 2], [1, 3]]⟩ ⟨[[1, 2], [3, 0]]⟩ 2) xs
      (.found (Node.mk ⟨[[1, 2], [3, 0]]⟩ 0 2
        (some (Node.mk ⟨[[1, 2], [0, 3]]⟩ 1 1
          (some (Node.mk ⟨[[0, 2], [1, 3]]⟩ 2 0 none '0')) 'D')) 'R')) :=
  ((C15_no_reexpansion 2 ⟨[[0, 2], [1, 3]]⟩ ⟨[[1, 2], [3, 0]]⟩ 2 (by decide) (by decide)
    (Or.inr rfl)).2.2 _).1 (solve_run 3 rfl)

/-! ## The 32-bit comparator -/

theorem wrapInt32_of_fits {x : Int} (h1 : -2147483648 ≤ x) (h2 : x < 2147483648) :
    wrapInt32 x = x := by
  unfold wrapInt32
  omega

/-- Within the range of `int` the 32-bit comparison is the comparison of the sums. -/
theorem ltInt32_eq_lt {a b : Node} (ha : a.fitsInt32) (hb : b.fitsInt32) :
    a.ltInt32 b = a.lt b := by
  unfold Node.ltInt32 Node.lt
  rw [wrapInt32_of_fits ha.1 ha.2, wrapInt32_of_fits hb.1 hb.2]

theorem isTopInt32_eq_isTop {frontier : List Node} (h : ∀ m ∈ frontier, m.fitsInt32) (i : Nat) :
    isTopInt32 frontier i = isTop frontier i := by
  unfold isTopInt32 isTop
  cases hn : frontier[i]? with
  | none => rfl
  | some n =>
    simp only
    have hfit := h n (List.getElem?_mem hn)
    rw [Bool.eq_iff_iff, List.all_eq_true, List.all_eq_true]
    constructor
    · intro hall m hm
      have := hall m hm
      rwa [CompareNodeInt32, ltInt32_eq_lt hfit (h m hm)] at this
    · intro hall m hm
      have := hall m hm
      rwa [CompareNodeInt32, ltInt32_eq_lt hfit (h m hm)]

/-- A non-empty list has an element of least key. -/
theorem exists_least {α : Type} (key : α → Int) :
    ∀ l : List α, l ≠ [] → ∃ (i : Nat) (x : α), l[i]? = some x ∧ ∀ m ∈ l, key x ≤ key m
  | [], h => absurd rfl h
  | [a], _ => ⟨0, a, rfl, by simp⟩
  | a :: b :: l, _ => by
    obtain ⟨j, y, hy, hmin⟩ := exists_least key (b :: l) (by simp)
    by_cases h : key a ≤ key y
    · refine ⟨0, a, rfl, fun m hm => ?_⟩
      rcases List.mem_cons.1 hm with rfl | hm
      · exact le_refl _
      · exact le_trans h (hmin m hm)
    · refine ⟨j + 1, y, by simpa using hy, fun m hm => ?_⟩
      rcases List.mem_cons.1 hm with rfl | hm
      · omega
      · exact hmin m hm

/-- Under the 32-bit comparator too a non-empty frontier has a top. -/
theorem exists_isTopInt32 {frontier : List Node} (h : frontier ≠ []) :
    ∃ i, isTopInt32 frontier i = true := by
  obtain ⟨i, x, hx, hmin⟩ :=
    exists_least (fun m : Node => wrapInt32 (m.getHeuristic + m.getPathCost)) frontier h
  refine ⟨i, ?_⟩
  unfold isTopInt32
  rw [hx]
  simp only [List.all_eq_true]
  intro m hm
  have := hmin m hm
  simp only [CompareNodeInt32, Node.ltInt32, Bool.not_eq_true', decide_eq_false_iff_not, not_lt]
  exact this

theorem chain_cons : (n : Node) → n.chain = n :: n.chain.tail
  | .mk _ _ _ none _ => rfl
  | .mk _ _ _ (some _) _ => rfl

theorem chain_tail_some (b : Board) (h g : Int) (p : Node) (d : Char) :
    (Node.mk b h g (some p) d).chain.tail = p.chain := rfl

/-- A rectangular grid is determined by its shape and the sequence of its cells. -/
theorem eq_of_flatten_eq {cols : Nat} :
    ∀ (s t : List (List Int)), s.length = t.length → (∀ row ∈ s, row.length = cols) →
      (∀ row ∈ t, row.length = cols) → s.flatten = t.flatten → s = t
  | [], [], _, _, _, _ => rfl
  | [], _ :: _, h, _, _, _ => by simp at h
  | _ :: _, [], h, _, _, _ => by simp at h
  | r :: rs, r' :: rs', hlen, hs, ht, hf => by
    have h1 : r.length = r'.length := by
      rw [hs r (by simp), ht r' (by simp)]
    simp only [List.flatten_cons] at hf
    obtain ⟨e1, e2⟩ := List.append_inj hf h1
    rw [e1, eq_of_flatten_eq rs rs' (by simpa using hlen)
      (fun row hrow => hs row (by simp [hrow])) (fun row hrow => ht row (by simp [hrow])) e2]

/-- There are at most `(n*n)!` valid boards of size `n`. -/
theorem length_le_of_valid {n : Nat} {l : List Board} (hnd : l.Nodup)
    (hv : ∀ b ∈ l, b.valid n) : l.length ≤ (n * n).factorial := by
  have hinj : ∀ x ∈ l, ∀ y ∈ l, x.state.flatten = y.state.flatten → x = y := by
    intro x hx y hy h
    apply board_ext
    exact eq_of_flatten_eq x.state y.state ((hv x hx).1.1.trans (hv y hy).1.1.symm)
      (hv x hx).1.2 (hv y hy).1.2 h
  have hnd' : (l.map (fun b => b.state.flatten)).Nodup := List.Nodup.map_on hinj hnd
  have hsub : l.map (fun b => b.state.flatten) ⊆
      ((List.range (n * n)).map Int.ofNat).permutations := by
    intro x hx
    obtain ⟨b, hb, rfl⟩ := List.mem_map.1 hx
    exact List.mem_permutations.2 (hv b hb).2
  have := (hnd'.subperm hsub).length_le
  simpa [List.length_permutations] using this

theorem gridSum_le (F : Int → Nat → Nat → Int) (s : List (List Int)) (rows cols : Nat) (c : Int)
    (h : ∀ i j, i < rows → j < cols → F (cell s i j) i j ≤ c) :
    gridSum F s rows cols ≤ (rows : Int) * cols * c := by
  unfold gridSum
  have := Finset.sum_le_card_nsmul (Finset.range rows ×ˢ Finset.range cols)
    (fun x => F (cell s x.1 x.2) x.1 x.2) c (by
      rintro ⟨i, j⟩ hx
      obtain ⟨hi, hj⟩ := Finset.mem_product.1 hx
      exact h i j (Finset.mem_range.1 hi) (Finset.mem_range.1 hj))
  simpa [Finset.card_product] using this

theorem gridSum_nonneg (F : Int → Nat → Nat → Int) (s : List (List Int)) (rows cols : Nat)
    (h : ∀ v i j, 0 ≤ F v i j) : 0 ≤ gridSum F s rows cols :=
  Finset.sum_nonneg (fun _ _ => h _ _ _)

theorem distanceAt_nonneg (goal : Board) (v : Int) (i j : Nat) : 0 ≤ distanceAt goal v i j := by
  unfold distanceAt
  split <;> omega

/-- On valid boards of size `n` both heuristics lie between 0 and `2 * n^3`. -/
theorem calculateHeuristic_bounds (p : Puzzle) {b : Board} {n : Nat} (hb : b.valid n)
    (hgoal : p.goalState.valid n) :
    0 ≤ p.calculateHeuristic b ∧ p.calculateHeuristic b ≤ (n : Int) * n * (2 * n) := by
  unfold Puzzle.calculateHeuristic
  split
  · rw [h1_eq_gridSum _ hb.1]
    refine ⟨gridSum_nonneg _ _ _ _ (fun v i j => (misplacedAt_range _ v i j).1), ?_⟩
    refine le_trans (gridSum_le _ _ n n 1 (fun i j _ _ => (misplacedAt_range _ _ i j).2)) ?_
    by_cases hn : n = 0
    · subst hn; simp
    · have : (1 : Int) ≤ 2 * n := by omega
      exact mul_le_mul_of_nonneg_left this (by positivity)
  · rw [h2_eq_gridSum _ hb.1]
    refine ⟨gridSum_nonneg _ _ _ _ (distanceAt_nonneg _), ?_⟩
    apply gridSum_le
    intro i j hi hj
    obtain ⟨k, hk, hc, _⟩ := position_of_cell hb hi hj
    obtain ⟨r, c, hr, hc', hp, _⟩ := cell_of_value hgoal hk
    rw [hc]
    unfold distanceAt
    split
    · rw [hp]
      simp only
      omega
    · positivity


/-- In a search, the proper ancestors of a frontier node hold pairwise different
boards, all of them visited. -/
theorem ancestors_steps {init goal : Board} {option : Int} {q : Puzzle}
    (hq : Relation.ReflTransGen Step (Puzzle.new init goal option) q) :
    ∀ m ∈ q.frontierList, (m.chain.tail.map Node.getBoard).Nodup ∧
      ∀ x ∈ m.chain.tail, x.getBoard ∈ q.uniqueSet := by
  induction hq with
  | refl =>
    intro m hm
    simp only [Puzzle.new, Puzzle.addToFrontier, List.nil_append, List.mem_singleton] at hm
    subst hm
    simp [Node.chain]
  | @tail a b _ hstep ih =>
    obtain ⟨_, i, htop, hit⟩ := hstep
    obtain ⟨n, hn, _⟩ := isTop_spec htop
    rcases iterate_cases hn with ⟨_, he⟩ | ⟨_, _, he⟩ | ⟨hv, _, he⟩
    · rw [he] at hit
      obtain rfl : _ = b := by simpa using hit
      intro m hm
      exact ih m (List.mem_of_mem_eraseIdx hm)
    · rw [he] at hit
      simp at hit
    · rw [he] at hit
      obtain rfl : _ = b := by simpa using hit
      intro m hm
      simp only [List.mem_append] at hm
      rcases hm with hm | hm
      · obtain ⟨h1, h2⟩ := ih m (List.mem_of_mem_eraseIdx hm)
        exact ⟨h1, fun x hx => List.mem_cons_of_mem _ (h2 x hx)⟩
      · obtain ⟨d, b', _, _, rfl⟩ := mem_successors.1 hm
        obtain ⟨h1, h2⟩ := ih n (List.getElem?_mem hn)
        rw [chain_tail_some, chain_cons n]
        constructor
        · rw [List.map_cons, List.nodup_cons]
          refine ⟨fun hmem => ?_, h1⟩
          obtain ⟨x, hx, hxe⟩ := List.mem_map.1 hmem
          exact hv (hxe ▸ h2 x hx)
        · intro x hx
          rcases List.mem_cons.1 hx with rfl | hx
          · exact List.mem_cons_self _ _
          · exact List.mem_cons_of_mem _ (h2 x hx)

/-- In a search on valid boards of size `n`, the path cost of a frontier node is
between 0 and `(n*n)!` and its heuristic between 0 and `2 * n^3`. -/
theorem frontier_bounds {n : Nat} {init goal : Board} {option : Int} {q : Puzzle}
    (hinit : init.valid n) (hgoal : goal.valid n)
    (hq : Relation.ReflTransGen Step (Puzzle.new init goal option) q) :
    ∀ m ∈ q.frontierList,
      (0 ≤ m.getPathCost ∧ m.getPathCost ≤ ((n * n).factorial : Int)) ∧
      (0 ≤ m.getHeuristic ∧ m.getHeuristic ≤ (n : Int) * n * (2 * n)) := by
  intro m hm
  have hinv := searchInv_steps (searchInv_new init goal option hinit.1) hq
  obtain ⟨hchain, hheur⟩ := hinv.nodes m hm
  obtain ⟨hnd, hvis⟩ := ancestors_steps hq m hm
  constructor
  · have hlen := (chain_length init m hchain).1
    rw [chain_cons m, List.length_cons] at hlen
    have hle : (m.chain.tail.map Node.getBoard).length ≤ (n * n).factorial := by
      apply length_le_of_valid hnd
      intro b hb
      obtain ⟨x, hx, rfl⟩ := List.mem_map.1 hb
      obtain ⟨ds, hds⟩ := hinv.visited _ (hvis x hx)
      exact valid_applyMoves hinit hds
    rw [List.length_map] at hle
    have hle' : ((m.chain.tail.length : Nat) : Int) ≤ ((n * n).factorial : Int) := by
      exact_mod_cast hle
    push_cast at hlen
    constructor <;> omega
  · rw [hheur]
    obtain ⟨ds, _, hds⟩ := legalChain_path init m hchain
    have hg : q.goalState.valid n := by rw [hinv.goalState]; exact hgoal
    exact calculateHeuristic_bounds q (valid_applyMoves hinit hds) hg

/-- In a search on valid boards of size at most 3 the sums `heuristic + pathCost`
of the frontier nodes lie in the range of `int`. -/
theorem frontier_fitsInt32 {n : Nat} {init goal : Board} {option : Int} {q : Puzzle}
    (hn : n ≤ 3) (hinit : init.valid n) (hgoal : goal.valid n)
    (hq : Relation.ReflTransGen Step (Puzzle.new init goal option) q) :
    ∀ m ∈ q.frontierList, m.fitsInt32 := by
  intro m hm
  obtain ⟨⟨g0, g1⟩, ⟨h0, h1⟩⟩ := frontier_bounds hinit hgoal hq m hm
  have hfact : ((n * n).factorial : Int) ≤ 362880 := by
    have h9 : n * n ≤ 9 := by nlinarith
    have := Nat.factorial_le h9
    have e : Nat.factorial 9 = 362880 := by decide
    rw [e] at this
    exact_mod_cast this
  have hh : (n : Int) * n * (2 * n) ≤ 54 := by
    have h3 : (n : Int) ≤ 3 := by exact_mod_cast hn
    have h0' : (0 : Int) ≤ n := by positivity
    nlinarith [mul_nonneg h0' h0', mul_nonneg (mul_nonneg h0' h0') h0']
  unfold Node.fitsInt32
  constructor <;> omega

/-- In a search on valid boards of size at most 3, taking `top()` under the 32-bit
comparator reaches the same states as taking it under the comparison of the sums. -/
theorem stepInt32_steps {n : Nat} {init goal : Board} {option : Int} {q : Puzzle}
    (hn : n ≤ 3) (hinit : init.valid n) (hgoal : goal.valid n) :
    Relation.ReflTransGen StepInt32 (Puzzle.new init goal option) q ↔
      Relation.ReflTransGen Step (Puzzle.new init goal option) q := by
  constructor
  · intro h
    induction h with
    | refl => exact Relation.ReflTransGen.refl
    | tail _ hstep ih =>
      refine Relation.ReflTransGen.tail ih ?_
      obtain ⟨he, i, htop, hit⟩ := hstep
      rw [isTopInt32_eq_isTop (frontier_fitsInt32 hn hinit hgoal ih)] at htop
      exact ⟨he, i, htop, hit⟩
  · intro h
    induction h with
    | refl => exact Relation.ReflTransGen.refl
    | tail hprev hstep ih =>
      refine Relation.ReflTransGen.tail ih ?_
      obtain ⟨he, i, htop, hit⟩ := hstep
      rw [← isTopInt32_eq_isTop (frontier_fitsInt32 hn hinit hgoal hprev)] at htop
      exact ⟨he, i, htop, hit⟩

end Lab1
